import Mathlib

/-!
Shortest paths on a CSR graph: the sequential and the parallel solver of `cmp.c`, the
random graph generator of `graph_generator.c`, the connectivity check of `dfs.c` and the
adjacency matrix solver of `dparallel.c`.

Shallow embedding.  C arrays are lists read with `List.getD` and written with `List.set`;
vertex ids, array offsets and counters are natural numbers (they are assumed to fit in an
`int`); distances and weights are integers, and the one addition of the solvers,
`distances[min] + weights[j]`, is wrapped to 32 bits.
-/

set_option autoImplicit false

/-! ## Definitions -/

namespace Cmp

/-- The constant `INF` of `cmp.c` (`#define INF 1e9`), as it is stored in an `int`. -/
def INF : Int := 1000000000

/-- Two's complement value of a 32-bit `int` holding the exact result `x`. -/
def wrap32 (x : Int) : Int := (x + 2147483648) % 4294967296 - 2147483648

/-- One line `src dest weight` of the input file; the two vertex ids are taken to be
non-negative. -/
structure Edge where
  src : Nat
  dest : Nat
  weight : Int
deriving DecidableEq

/-- The struct `CSRGraph`. -/
structure CSRGraph where
  num_nodes : Nat
  num_edges : Nat
  row_ptr : List Nat
  col_idx : List Nat
  weights : List Int
deriving DecidableEq

/-- Local arrays of the first loop of `create_csr_graph` (lines 29-45). -/
structure ReadState where
  temp_edges : List Nat
  temp_weights : List Int
  edges_per_vertex : List Nat
  edge_count : Nat

/-- Body of the reading loop (lines 36-44) for one line of the file. -/
def readEdge (st : ReadState) (e : Edge) : ReadState :=
  let te := (st.temp_edges.set st.edge_count e.src).set (st.edge_count + 1) e.dest
  let tw := st.temp_weights.set (st.edge_count / 2) e.weight
  let c1 := st.edges_per_vertex.set e.src (st.edges_per_vertex.getD e.src 0 + 1)
  let c2 := c1.set e.dest (c1.getD e.dest 0 + 1)
  { temp_edges := te, temp_weights := tw, edges_per_vertex := c2,
    edge_count := st.edge_count + 2 }

/-- The reading loop (lines 29-45): `calloc`/`malloc` of the temporaries, then one
`readEdge` per line.  Fresh `malloc` memory is taken to hold zeros. -/
def readEdges (num_nodes : Nat) (edges : List Edge) : ReadState :=
  edges.foldl readEdge
    { temp_edges := List.replicate (2 * edges.length) 0,
      temp_weights := List.replicate (2 * edges.length) 0,
      edges_per_vertex := List.replicate num_nodes 0,
      edge_count := 0 }

/-- Body of the row pointer loop (lines 56-57) on `(row_ptr, edges_per_vertex)`. -/
def rowStep (st : List Nat × List Nat) (i : Nat) : List Nat × List Nat :=
  (st.1.set (i + 1) (st.1.getD i 0 + st.2.getD i 0), st.2.set i 0)

/-- Lines 49 and 54-58: `row_ptr[0] = 0`, then the prefix sums; the counters are reset. -/
def setRowPtr (num_nodes : Nat) (edges_per_vertex : List Nat) : List Nat × List Nat :=
  (List.range num_nodes).foldl rowStep
    ((List.replicate (num_nodes + 1) 0).set 0 0, edges_per_vertex)

/-- The arrays written by the filling loop of `create_csr_graph` (lines 61-77). -/
structure FillState where
  col_idx : List Nat
  weights : List Int
  edges_per_vertex : List Nat

/-- Body of the filling loop (lines 62-76) for `i = 2 * k`. -/
def fillStep (row_ptr temp_edges : List Nat) (temp_weights : List Int)
    (st : FillState) (k : Nat) : FillState :=
  let i := 2 * k
  let src := temp_edges.getD i 0
  let dest := temp_edges.getD (i + 1) 0
  let weight := temp_weights.getD (i / 2) 0
  let pos := row_ptr.getD src 0 + st.edges_per_vertex.getD src 0
  let col1 := st.col_idx.set pos dest
  let w1 := st.weights.set pos weight
  let c1 := st.edges_per_vertex.set src (st.edges_per_vertex.getD src 0 + 1)
  let pos2 := row_ptr.getD dest 0 + c1.getD dest 0
  { col_idx := col1.set pos2 src, weights := w1.set pos2 weight,
    edges_per_vertex := c1.set dest (c1.getD dest 0 + 1) }

/-- The function `create_csr_graph` after a successful `fopen` (lines 25-82), on the
parsed content of the file: the header value `num_nodes` and the `num_edges` lines.  No
line is checked.  With an endpoint outside `0..num_nodes-1` the C code writes outside
`edges_per_vertex`, which C leaves undefined; the lists drop such a write, and the
theorems on this function take the endpoints in range. -/
def create_csr_graph (num_nodes : Nat) (edges : List Edge) : CSRGraph :=
  let rd := readEdges num_nodes edges
  let rp := setRowPtr num_nodes rd.edges_per_vertex
  let fl := (List.range ((rd.edge_count + 1) / 2)).foldl
    (fillStep rp.1 rd.temp_edges rd.temp_weights)
    { col_idx := List.replicate rd.edge_count 0,
      weights := List.replicate rd.edge_count 0,
      edges_per_vertex := rp.2 }
  { num_nodes := num_nodes, num_edges := edges.length, row_ptr := rp.1,
    col_idx := fl.col_idx, weights := fl.weights }

/-- Parsed content of an input file: the header `num_nodes` and the edge lines
(`num_edges` is their number). -/
structure GraphFile where
  num_nodes : Nat
  edges : List Edge

/-- What a call of `create_csr_graph(filename)` ends with: the graph it returns, or
`perror` followed by `exit(EXIT_FAILURE)`. -/
inductive Outcome where
  | graph (g : CSRGraph)
  | fatal
deriving DecidableEq

/-- The whole of `create_csr_graph(filename)` (lines 18-83): `none` is a file that
`fopen` cannot open, the only test the function makes. -/
def create_csr_graph_file (file : Option GraphFile) : Outcome :=
  match file with
  | none => Outcome.fatal
  | some f => Outcome.graph (create_csr_graph f.num_nodes f.edges)

/-- Every endpoint of the edge list is a vertex id `0..num_nodes-1`. -/
def InRange (num_nodes : Nat) (edges : List Edge) : Prop :=
  ∀ e ∈ edges, e.src < num_nodes ∧ e.dest < num_nodes

instance (num_nodes : Nat) (edges : List Edge) : Decidable (InRange num_nodes edges) := by
  unfold InRange; infer_instance

/-- Number of times vertex `x` occurs as an endpoint in the edge list. -/
def degree (edges : List Edge) (x : Nat) : Nat :=
  edges.countP (fun e => e.src = x) + edges.countP (fun e => e.dest = x)

/-- The `(other endpoint, weight)` entries that the edge list gives vertex `x`, in input
order; an edge `(x, x, w)` gives two consecutive entries. -/
def incident (edges : List Edge) (x : Nat) : List (Nat × Int) :=
  match edges with
  | [] => []
  | e :: es =>
    (if e.src = x then [(e.dest, e.weight)] else []) ++
    ((if e.dest = x then [(e.src, e.weight)] else []) ++ incident es x)

/-- The entries `(col_idx[j], weights[j])` of the adjacency range of `x`,
`j = row_ptr[x] .. row_ptr[x+1]-1`. -/
def adjacency (g : CSRGraph) (x : Nat) : List (Nat × Int) :=
  (List.range' (g.row_ptr.getD x 0) (g.row_ptr.getD (x + 1) 0 - g.row_ptr.getD x 0)).map
    (fun j => (g.col_idx.getD j 0, g.weights.getD j 0))


/-- One directed adjacency entry to be stored: the vertex owning the row, the neighbour
and the weight. -/
abbrev Entry := Nat × Nat × Int

/-- One half of the body of the filling loop (lines 67-70, and again 73-76): the entry is
stored at the cursor of its row and the cursor advances. -/
def place (row_ptr : List Nat) (st : FillState) (d : Entry) : FillState :=
  let pos := row_ptr.getD d.1 0 + st.edges_per_vertex.getD d.1 0
  { col_idx := st.col_idx.set pos d.2.1, weights := st.weights.set pos d.2.2,
    edges_per_vertex := st.edges_per_vertex.set d.1 (st.edges_per_vertex.getD d.1 0 + 1) }

/-- The two directed entries of every input edge, in the order the filling loop stores
them. -/
def directed (edges : List Edge) : List Entry :=
  match edges with
  | [] => []
  | e :: es => (e.src, e.dest, e.weight) :: (e.dest, e.src, e.weight) :: directed es

/-- The entries of `ds` owned by row `x`, in order. -/
def rowOf (ds : List Entry) (x : Nat) : List (Nat × Int) :=
  (ds.filter (fun d => d.1 = x)).map (fun d => d.2)


/-- The arrays `distances` and `visited` of a solver run. -/
structure State where
  distances : List Int
  visited : List Bool

/-- Lines 87-92 (and 124-130): every distance is `INF`, the source is at 0 and nothing
is visited. -/
def initState (num_nodes source : Nat) : State :=
  { distances := (List.replicate num_nodes INF).set source 0,
    visited := List.replicate num_nodes false }

/-- Body of a minimum scan (lines 99-102, and 143-146) on the pair
`(min_dist, min_vertex)`. -/
def scanStep (st : State) (acc : Int × Int) (j : Nat) : Int × Int :=
  if !st.visited.getD j false && decide (st.distances.getD j 0 < acc.1) then
    (st.distances.getD j 0, (j : Int))
  else acc

/-- A minimum scan over the indices `idxs`, from `min_dist = INF`, `min_vertex = -1`. -/
def scan (st : State) (idxs : List Nat) : Int × Int :=
  idxs.foldl (scanStep st) (INF, -1)

/-- Body of the relaxation loop (lines 109-115, and 164-171) for the adjacency entry `j`
of the chosen vertex `m`. -/
def relaxStep (g : CSRGraph) (m : Nat) (st : State) (j : Nat) : State :=
  let adj_vertex := g.col_idx.getD j 0
  if !st.visited.getD adj_vertex false then
    let new_dist := wrap32 (st.distances.getD m 0 + g.weights.getD j 0)
    if new_dist < st.distances.getD adj_vertex 0 then
      { st with distances := st.distances.set adj_vertex new_dist }
    else st
  else st

/-- The indices `row_ptr[m] .. row_ptr[m+1]-1` of the relaxation loop, ascending. -/
def adjRange (g : CSRGraph) (m : Nat) : List Nat :=
  List.range' (g.row_ptr.getD m 0) (g.row_ptr.getD (m + 1) 0 - g.row_ptr.getD m 0)

/-- Line 106 (and 160): `visited[m] = 1`. -/
def markVisited (st : State) (m : Nat) : State :=
  { st with visited := st.visited.set m true }

/-- The outer loop of `dijkstra_sequential` (lines 94-117) with `k` iterations left. -/
def seqLoop (g : CSRGraph) : Nat → State → State
  | 0, st => st
  | k + 1, st =>
    let r := scan st (List.range g.num_nodes)
    if r.2 = -1 then st
    else
      let m := r.2.toNat
      seqLoop g k ((adjRange g m).foldl (relaxStep g m) (markVisited st m))

/-- The function `dijkstra_sequential`: the final content of `distances`. -/
def dijkstra_sequential (g : CSRGraph) (source : Nat) : List Int :=
  (seqLoop g g.num_nodes (initState g.num_nodes source)).distances

/-- What the OpenMP runtime decides for the minimum search of one outer iteration of
`dijkstra_parallel`: the number of worker threads, the worker that runs each block of
1024 indices, and the order in which the workers enter the critical section. -/
structure Schedule where
  num_threads : Nat
  owner : Nat → Nat
  combine : List Nat

/-- The schedule is one the runtime can produce: at least one worker, every block has a
worker, every worker enters the critical section once. -/
def Schedule.Valid (s : Schedule) : Prop :=
  1 ≤ s.num_threads ∧ (∀ b, s.owner b < s.num_threads) ∧
  s.combine.Perm (List.range s.num_threads)

/-- The indices of `0..num_nodes-1` that `schedule(static, 1024)` gives worker `t`,
ascending. -/
def workerIndices (s : Schedule) (num_nodes t : Nat) : List Nat :=
  (List.range num_nodes).filter (fun i => s.owner (i / 1024) = t)

/-- The pair `(local_min_distance, local_min_index)` of worker `t` (lines 138-147). -/
def localMin (s : Schedule) (st : State) (num_nodes t : Nat) : Int × Int :=
  scan st (workerIndices s num_nodes t)

/-- The critical section (lines 151-154) run by worker `t` on
`(min_distance, min_index)`. -/
def combineStep (s : Schedule) (st : State) (num_nodes : Nat) (acc : Int × Int) (t : Nat) :
    Int × Int :=
  if (localMin s st num_nodes t).1 < acc.1 then localMin s st num_nodes t else acc

/-- The parallel minimum search (lines 133-157): the final `(min_distance, min_index)`. -/
def parallelMin (s : Schedule) (st : State) (num_nodes : Nat) : Int × Int :=
  s.combine.foldl (combineStep s st num_nodes) (INF, -1)

/-- The assignment of `schedule(static, 1024)`: block `b` goes to worker `b mod T`; the
workers enter the critical section in the order `T-1, ..., 0`. -/
def roundRobin (T : Nat) : Schedule :=
  { num_threads := T, owner := fun b => b % T, combine := (List.range T).reverse }


/-- Vertex `m` is a legitimate choice of a minimum search on `st`: unvisited, at a distance
below `INF`, and no unvisited vertex is nearer. -/
def IsMin (st : State) (n m : Nat) : Prop :=
  m < n ∧ st.visited.getD m false = false ∧ st.distances.getD m 0 < INF ∧
  ∀ j, j < n → st.visited.getD j false = false →
    st.distances.getD m 0 ≤ st.distances.getD j 0

/-- No unvisited vertex of `st` has a distance below `INF`. -/
def Exhausted (st : State) (n : Nat) : Prop :=
  ∀ j, j < n → st.visited.getD j false = false → INF ≤ st.distances.getD j 0

/-- The result `r = (min_dist, min_vertex)` of a minimum search on `st` is sound: either
`min_vertex = -1` and the state is exhausted, or `min_vertex` is a legitimate choice. -/
def MinResult (st : State) (n : Nat) (r : Int × Int) : Prop :=
  (r.2 = -1 ∧ Exhausted st n) ∨ (∃ m : Nat, r.2 = (m : Int) ∧ IsMin st n m)


/-- The largest weight for which `distances[min] + weights[j]` cannot leave the range of
`int`, the chosen distance being below `INF`: `2^31 - 1 - 10^9`. -/
def MAXW : Int := 1147483647

/-- The adjacency entries of every vertex name vertices, and carry a positive weight that
is at most `MAXW`. -/
def GraphOK (g : CSRGraph) : Prop :=
  ∀ u, u < g.num_nodes → ∀ j ∈ adjRange g u,
    g.col_idx.getD j 0 < g.num_nodes ∧ 1 ≤ g.weights.getD j 0 ∧ g.weights.getD j 0 ≤ MAXW

/-- Invariant of the outer loop of both solvers, for source `s`. -/
def Inv (g : CSRGraph) (s : Nat) (st : State) : Prop :=
  st.distances.length = g.num_nodes ∧ st.visited.length = g.num_nodes ∧
  (∀ v, v < g.num_nodes → 0 ≤ st.distances.getD v 0 ∧ st.distances.getD v 0 ≤ INF) ∧
  st.distances.getD s 0 = 0 ∧
  (∀ u, u < g.num_nodes → ∀ x, x < g.num_nodes → st.visited.getD u false = true →
    st.visited.getD x false = false → st.distances.getD u 0 ≤ st.distances.getD x 0) ∧
  (∀ u, u < g.num_nodes → st.visited.getD u false = true → ∀ j ∈ adjRange g u,
    st.distances.getD (g.col_idx.getD j 0) 0 ≤ st.distances.getD u 0 + g.weights.getD j 0) ∧
  (∀ v, v < g.num_nodes → v ≠ s → st.distances.getD v 0 < INF →
    ∃ u, u < g.num_nodes ∧ st.visited.getD u false = true ∧ ∃ j ∈ adjRange g u,
      g.col_idx.getD j 0 = v ∧ st.distances.getD v 0 = st.distances.getD u 0 + g.weights.getD j 0)

/-- The distance array `dist` solves the shortest path equations of `g` for source `s`
with the cap `INF`: no adjacency entry can lower a distance, and every distance below
`INF` other than the source's is reached through an adjacency entry. -/
def Final (g : CSRGraph) (s : Nat) (dist : List Int) : Prop :=
  dist.length = g.num_nodes ∧
  (∀ v, v < g.num_nodes → 0 ≤ dist.getD v 0 ∧ dist.getD v 0 ≤ INF) ∧
  dist.getD s 0 = 0 ∧
  (∀ u, u < g.num_nodes → ∀ j ∈ adjRange g u,
    dist.getD (g.col_idx.getD j 0) 0 ≤ dist.getD u 0 + g.weights.getD j 0) ∧
  (∀ v, v < g.num_nodes → v ≠ s → dist.getD v 0 < INF →
    ∃ u, u < g.num_nodes ∧ ∃ j ∈ adjRange g u,
      g.col_idx.getD j 0 = v ∧ dist.getD v 0 = dist.getD u 0 + g.weights.getD j 0)


/-- The edge list has a line of weight `w` joining `u` and `v`, in either direction. -/
def Joins (edges : List Edge) (u v : Nat) (w : Int) : Prop :=
  ∃ e ∈ edges, e.weight = w ∧ ((e.src = u ∧ e.dest = v) ∨ (e.src = v ∧ e.dest = u))

/-- `Walk edges s v vs d`: the vertices `vs`, from `s` to `v`, follow lines of the edge
list whose weights sum to `d`. -/
inductive Walk (edges : List Edge) (s : Nat) : Nat → List Nat → Int → Prop where
  | start : Walk edges s s [s] 0
  | step {u v : Nat} {vs : List Nat} {d w : Int} :
      Walk edges s u vs d → Joins edges u v w → Walk edges s v (vs ++ [v]) (d + w)

/-- Vertex `v` has a path to `s` in the edge list. -/
def Reachable (edges : List Edge) (s v : Nat) : Prop := ∃ vs d, Walk edges s v vs d

/-- Sum of the weights of all lines of the edge list. -/
def totalWeight (edges : List Edge) : Int := (edges.map (fun e => e.weight)).sum


/-- The distance array `dist` satisfies the triangle inequality in both directions on
the line `e`. -/
def TriangleOn (dist : List Int) (e : Edge) : Prop :=
  ∃ du dv, dist[e.src]? = some du ∧ dist[e.dest]? = some dv ∧
    dv ≤ du + e.weight ∧ du ≤ dv + e.weight

/-- Number of lines of the edge list that join `u` and `v` with weight `w`, a line
`(u, u, w)` being counted twice. -/
def linesJoining (edges : List Edge) (u v : Nat) (w : Int) : Nat :=
  edges.countP (fun a => a.src = u ∧ a.dest = v ∧ a.weight = w) +
  edges.countP (fun a => a.dest = u ∧ a.src = v ∧ a.weight = w)

/-- The scenario of the specification: 4 vertices, lines (0,1,2) (1,2,2) (2,3,2) (0,3,9). -/
def scenario4 : List Edge := [⟨0, 1, 2⟩, ⟨1, 2, 2⟩, ⟨2, 3, 2⟩, ⟨0, 3, 9⟩]


/-- The body of the relaxation loop on the pair `(col_idx[j], weights[j])` read from the
adjacency entry. -/
def relaxPair (m : Nat) (st : State) (p : Nat × Int) : State :=
  if !st.visited.getD p.1 false then
    let new_dist := wrap32 (st.distances.getD m 0 + p.2)
    if new_dist < st.distances.getD p.1 0 then
      { st with distances := st.distances.set p.1 new_dist }
    else st
  else st

/-- The arrays of `st` have `n` slots and hold `f j` and `b j` at every index `j`. -/
def Tracks (st : State) (n : Nat) (f : Nat → Int) (b : Nat → Bool) : Prop :=
  st.distances.length = n ∧ st.visited.length = n ∧
  ∀ j, j < n → st.distances.getD j 0 = f j ∧ st.visited.getD j false = b j

/-- An edge list on 1025 vertices with one weight, `2^31 - 1`, above `2^31 - 1 - 10^9`;
vertices 1 and 1024 are both at distance 5 from vertex 0 and lie in different blocks of
1024 indices. -/
def overflowEdges : List Edge := [⟨0, 1, 5⟩, ⟨0, 1024, 5⟩, ⟨1, 1024, 2147483647⟩]


/-- A state of 1025 vertices, all unvisited and all at distance 5. -/
def tieState : State :=
  { distances := List.replicate 1025 5, visited := List.replicate 1025 false }


/-- Two lines join the same unordered pair of vertices. -/
def SameEnds (a b : Edge) : Prop :=
  (a.src = b.src ∧ a.dest = b.dest) ∨ (a.src = b.dest ∧ a.dest = b.src)

instance (a b : Edge) : Decidable (SameEnds a b) := by
  unfold SameEnds; infer_instance

/-- No two lines of the edge list join the same unordered pair of vertices. -/
def DistinctPairs (edges : List Edge) : Prop :=
  edges.Pairwise (fun a b => ¬ SameEnds a b)

instance (edges : List Edge) : Decidable (DistinctPairs edges) := by
  unfold DistinctPairs; infer_instance

/-- The edge list is simple: no self-loop and no two lines with the same unordered pair
of endpoints. -/
def SimpleList (edges : List Edge) : Prop :=
  (∀ e ∈ edges, e.src ≠ e.dest) ∧ DistinctPairs edges

instance (edges : List Edge) : Decidable (SimpleList edges) := by
  unfold SimpleList; infer_instance


/-- The two values of `pos` computed by the body of the filling loop for `i = 2 * k`
(lines 67 and 73). -/
def fillPos (row_ptr temp_edges : List Nat) (st : FillState) (k : Nat) : Nat × Nat :=
  let i := 2 * k
  let src := temp_edges.getD i 0
  let dest := temp_edges.getD (i + 1) 0
  let pos := row_ptr.getD src 0 + st.edges_per_vertex.getD src 0
  let c1 := st.edges_per_vertex.set src (st.edges_per_vertex.getD src 0 + 1)
  let pos2 := row_ptr.getD dest 0 + c1.getD dest 0
  (pos, pos2)

/-- The positions written by the filling loop over the iterations `ks`, in the order in
which they are written. -/
def fillPositions (row_ptr temp_edges : List Nat) (temp_weights : List Int) :
    List Nat → FillState → List Nat
  | [], _ => []
  | k :: ks, st =>
    (fillPos row_ptr temp_edges st k).1 :: (fillPos row_ptr temp_edges st k).2 ::
      fillPositions row_ptr temp_edges temp_weights ks
        (fillStep row_ptr temp_edges temp_weights st k)

/-- The positions of `col_idx` and `weights` written by the second pass of
`create_csr_graph` (lines 61-77), in the order in which they are written. -/
def positions_written (num_nodes : Nat) (edges : List Edge) : List Nat :=
  let rd := readEdges num_nodes edges
  let rp := setRowPtr num_nodes rd.edges_per_vertex
  fillPositions rp.1 rd.temp_edges rd.temp_weights (List.range ((rd.edge_count + 1) / 2))
    { col_idx := List.replicate rd.edge_count 0,
      weights := List.replicate rd.edge_count 0,
      edges_per_vertex := rp.2 }

/-- The position at which `place` stores each of the entries `ds`, in order. -/
def placePositions (row_ptr : List Nat) : List Entry → FillState → List Nat
  | [], _ => []
  | d :: ds, st =>
    (row_ptr.getD d.1 0 + st.edges_per_vertex.getD d.1 0) ::
      placePositions row_ptr ds (place row_ptr st d)

/-- The array `a` after the stores `a[p] = v` for the pairs `(p, v)` of `stores`, done in
order. -/
def writeAll {α : Type} (a : List α) (stores : List (Nat × α)) : List α :=
  stores.foldl (fun b s => b.set s.1 s.2) a

/-- The filling loop of `create_csr_graph` (lines 61-77) run on arrays `col_idx` and
`weights` of any initial content: `malloc` (lines 50-51) leaves them unset. -/
def fillFrom (num_nodes : Nat) (edges : List Edge) (col_idx : List Nat)
    (weights : List Int) : FillState :=
  let rd := readEdges num_nodes edges
  let rp := setRowPtr num_nodes rd.edges_per_vertex
  (List.range ((rd.edge_count + 1) / 2)).foldl
    (fillStep rp.1 rd.temp_edges rd.temp_weights)
    { col_idx := col_idx, weights := weights, edges_per_vertex := rp.2 }


/-- A point of a run of `dijkstra_sequential` after the initialisation: the arrays at that
point and, inside the relaxation loop, the chosen vertex `min_vertex`. -/
structure Point where
  st : State
  chosen : Option Nat

/-- The points of the outer loop of `dijkstra_sequential` with `k` iterations left: the
head of every iteration and, for a chosen vertex, the state before each adjacency entry
and after the last one. -/
def seqPoints (g : CSRGraph) : Nat → State → List Point
  | 0, st => [⟨st, none⟩]
  | k + 1, st =>
    let r := scan st (List.range g.num_nodes)
    if r.2 = -1 then [⟨st, none⟩]
    else
      let m := r.2.toNat
      (⟨st, none⟩ ::
        (List.scanl (relaxStep g m) (markVisited st m) (adjRange g m)).map
          (fun s => (⟨s, some m⟩ : Point))) ++
        seqPoints g k ((adjRange g m).foldl (relaxStep g m) (markVisited st m))


/-- Where one worker stands in the relaxation loop of `dijkstra_parallel` (lines 162-172),
which runs under `schedule(dynamic, 512)`: `idle`, it asks the runtime for the next chunk
of 512 indices; `test i stop`, it is at the head of iteration `i` of a chunk that ends
before `stop`; `write i stop adj_vertex new_dist`, it has passed the comparison of line
167 in iteration `i` and has not yet done the store of line 169; `finished`, the runtime
had no chunk left for it. -/
inductive Pc where
  | idle : Pc
  | test (i stop : Nat) : Pc
  | write (i stop : Nat) (adj_vertex : Nat) (new_dist : Int) : Pc
  | finished : Pc
deriving DecidableEq

/-- The relaxation loop in progress: the shared arrays, the first index the runtime has
not handed out, and where each worker stands. -/
structure RelaxState where
  st : State
  next : Nat
  pcs : List Pc

/-- Where a worker stands after iteration `i` of a chunk that ends before `stop`. -/
def advance (i stop : Nat) : Pc :=
  if i + 1 < stop then Pc.test (i + 1) stop else Pc.idle

/-- One step of worker `t` in the relaxation loop of the chosen vertex `m`.  Taking a
chunk, the reads and the comparison of lines 164-167, and the store of line 169 are
steps of their own; other workers may run between them. -/
def workerStep (g : CSRGraph) (m : Nat) (rs : RelaxState) (t : Nat) : RelaxState :=
  match rs.pcs.getD t Pc.finished with
  | Pc.idle =>
    if rs.next < g.row_ptr.getD (m + 1) 0 then
      { rs with
        next := rs.next + 512,
        pcs := rs.pcs.set t (Pc.test rs.next (min (rs.next + 512) (g.row_ptr.getD (m + 1) 0))) }
    else { rs with pcs := rs.pcs.set t Pc.finished }
  | Pc.test i stop =>
    let adj_vertex := g.col_idx.getD i 0
    if !rs.st.visited.getD adj_vertex false then
      let new_dist := wrap32 (rs.st.distances.getD m 0 + g.weights.getD i 0)
      if new_dist < rs.st.distances.getD adj_vertex 0 then
        { rs with pcs := rs.pcs.set t (Pc.write i stop adj_vertex new_dist) }
      else { rs with pcs := rs.pcs.set t (advance i stop) }
    else { rs with pcs := rs.pcs.set t (advance i stop) }
  | Pc.write i stop adj_vertex new_dist =>
    { rs with
      st := { rs.st with distances := rs.st.distances.set adj_vertex new_dist },
      pcs := rs.pcs.set t (advance i stop) }
  | Pc.finished => rs

/-- The relaxation loop of the chosen vertex `m` run by `T` workers whose steps are taken
in the order `interleaving` (a list of worker numbers), from the shared arrays `st`. -/
def relaxRun (g : CSRGraph) (m T : Nat) (interleaving : List Nat) (st : State) :
    RelaxState :=
  interleaving.foldl (workerStep g m)
    { st := st, next := g.row_ptr.getD m 0, pcs := List.replicate T Pc.idle }

/-- 513 lines between vertices 0 and 1: 512 of weight 3, then one of weight 5. -/
def raceEdges : List Edge := List.replicate 512 ⟨0, 1, 3⟩ ++ [⟨0, 1, 5⟩]

/-- Worker 0 takes the first chunk and worker 1 the second, which is the entry of weight
5; worker 1 passes its comparison; worker 0 runs its whole chunk and finds no chunk
left; then worker 1 does its store and finds no chunk left. -/
def raceInterleaving : List Nat :=
  [0, 1, 1, 0, 0] ++ (List.replicate 511 0 ++ [0, 1, 1])


/-- Every worker has left the relaxation loop. -/
def Finished (rs : RelaxState) : Prop := ∀ p ∈ rs.pcs, p = Pc.finished

instance (rs : RelaxState) : Decidable (Finished rs) := by
  unfold Finished; infer_instance

/-- The outer loop of `dijkstra_parallel` (lines 132-173) with `k` iterations left,
`count` being the loop counter.  Of that iteration `sched count` is the schedule of the
minimum search, and `inter count` is the order in which the workers take their steps in
the relaxation loop (lines 162-172), where taking a chunk, the comparison of an entry
and its store are steps of their own (`workerStep`); the team of the relaxation loop has
the size of the team of the minimum search.  The loop has a barrier at its end: the runs
of the program are those in which `inter count` lets every worker leave the loop
(`Complete`). -/
def parLoop (g : CSRGraph) (sched : Nat → Schedule) (inter : Nat → List Nat) :
    Nat → Nat → State → State
  | 0, _, st => st
  | k + 1, count, st =>
    let r := parallelMin (sched count) st g.num_nodes
    if r.2 = -1 then st
    else
      let m := r.2.toNat
      parLoop g sched inter k (count + 1)
        (relaxRun g m (sched count).num_threads (inter count) (markVisited st m)).st

/-- The function `dijkstra_parallel` under the schedules `sched` and the interleavings
`inter`: the final content of `distances`. -/
def dijkstra_parallel (g : CSRGraph) (sched : Nat → Schedule) (inter : Nat → List Nat)
    (source : Nat) : List Int :=
  (parLoop g sched inter g.num_nodes 0 (initState g.num_nodes source)).distances

/-- The interleavings `inter` are whole executions: in every outer iteration of the run
from `st`, every worker has left the relaxation loop when the steps of `inter count` are
taken. -/
def Complete (g : CSRGraph) (sched : Nat → Schedule) (inter : Nat → List Nat) :
    Nat → Nat → State → Prop
  | 0, _, _ => True
  | k + 1, count, st =>
    (parallelMin (sched count) st g.num_nodes).2 ≠ -1 →
      Finished (relaxRun g (parallelMin (sched count) st g.num_nodes).2.toNat
        (sched count).num_threads (inter count)
        (markVisited st (parallelMin (sched count) st g.num_nodes).2.toNat)) ∧
      Complete g sched inter k (count + 1)
        (relaxRun g (parallelMin (sched count) st g.num_nodes).2.toNat
          (sched count).num_threads (inter count)
          (markVisited st (parallelMin (sched count) st g.num_nodes).2.toNat)).st

/-- The arrays `st'` differ from `st1` as a relaxation loop of the vertex `m` can make
them differ: `visited` is the same, and a distance is the same or is, at an unvisited
vertex, the candidate of an adjacency entry of `m` for that vertex. -/
def Relaxed (g : CSRGraph) (m : Nat) (st1 st' : State) : Prop :=
  st'.visited = st1.visited ∧ st'.distances.length = st1.distances.length ∧
  ∀ v, st'.distances.getD v 0 = st1.distances.getD v 0 ∨
    (st1.visited.getD v false = false ∧ ∃ j ∈ adjRange g m, g.col_idx.getD j 0 = v ∧
      st'.distances.getD v 0 = wrap32 (st1.distances.getD m 0 + g.weights.getD j 0))

/-- The interleaving in which worker 0 takes `K` steps and then each of the `T` workers
takes one step. -/
def soloInterleaving (T K : Nat) : List Nat :=
  List.replicate K 0 ++ List.range T

/-- The interleavings of a run of two workers on the graph of `raceEdges`: the first
relaxation loop follows `raceInterleaving`, the later ones are left to worker 0. -/
def raceInter (count : Nat) : List Nat :=
  if count = 0 then raceInterleaving else soloInterleaving 2 3079

/-- Three lines on 3 vertices, two of them between vertices 0 and 1. -/
def doubledLine : List Edge := [⟨0, 1, 5⟩, ⟨0, 1, 3⟩, ⟨1, 2, 4⟩]


/-- The worker standing at `p` still has iteration `j` of its chunk to finish. -/
def Pending : Pc → Nat → Prop
  | Pc.test i stop, j => i ≤ j ∧ j < stop
  | Pc.write i stop _ _, j => i ≤ j ∧ j < stop
  | _, _ => False

/-- The worker standing at `p` is inside a chunk of the adjacency range of `m` that the
runtime has handed out (`nx` is the first index not handed out), and a store it has yet
to do is the candidate of its entry for an unvisited neighbour. -/
def PcOK (g : CSRGraph) (m : Nat) (st1 : State) (nx : Nat) : Pc → Prop
  | Pc.test i stop =>
    g.row_ptr.getD m 0 ≤ i ∧ i < stop ∧ stop ≤ g.row_ptr.getD (m + 1) 0 ∧ stop ≤ nx
  | Pc.write i stop adj_vertex new_dist =>
    g.row_ptr.getD m 0 ≤ i ∧ i < stop ∧ stop ≤ g.row_ptr.getD (m + 1) 0 ∧ stop ≤ nx ∧
    adj_vertex = g.col_idx.getD i 0 ∧ st1.visited.getD adj_vertex false = false ∧
    new_dist = wrap32 (st1.distances.getD m 0 + g.weights.getD i 0)
  | _ => True

/-- Invariant of the relaxation loop of `m` started on `st1`, under every interleaving. -/
def SafeInv (g : CSRGraph) (m : Nat) (st1 : State) (rs : RelaxState) : Prop :=
  Relaxed g m st1 rs.st ∧ g.row_ptr.getD m 0 ≤ rs.next ∧
  ∀ t, PcOK g m st1 rs.next (rs.pcs.getD t Pc.finished)

/-- Iteration `j` is not among those a worker still has to finish. -/
def Done (rs : RelaxState) (j : Nat) : Prop :=
  ∀ t, ¬ Pending (rs.pcs.getD t Pc.finished) j

/-- Two entries of the adjacency range of `m` that name the same vertex unvisited in
`st1` lie in one chunk of 512 entries, the chunks being counted from `row_ptr[m]`. -/
def SameChunk (g : CSRGraph) (m : Nat) (st1 : State) : Prop :=
  ∀ j1 j2, g.row_ptr.getD m 0 ≤ j1 → j1 < g.row_ptr.getD (m + 1) 0 →
    g.row_ptr.getD m 0 ≤ j2 → j2 < g.row_ptr.getD (m + 1) 0 →
    g.col_idx.getD j1 0 = g.col_idx.getD j2 0 →
    st1.visited.getD (g.col_idx.getD j1 0) false = false →
    (j1 - g.row_ptr.getD m 0) / 512 = (j2 - g.row_ptr.getD m 0) / 512

/-- No vertex `m` of the graph has two adjacency entries that name the same vertex other
than `m` in different chunks of 512 entries of its adjacency range: the relaxation loop
of `dijkstra_parallel`, which hands a chunk to one worker, then has no two workers that
store to one element of `distances`. -/
def RaceFree (g : CSRGraph) : Prop :=
  ∀ m, m < g.num_nodes →
    ∀ j1, j1 < g.row_ptr.getD (m + 1) 0 → ∀ j2, j2 < g.row_ptr.getD (m + 1) 0 →
      g.row_ptr.getD m 0 ≤ j1 ∧ g.row_ptr.getD m 0 ≤ j2 ∧
        g.col_idx.getD j1 0 = g.col_idx.getD j2 0 ∧ g.col_idx.getD j1 0 ≠ m →
      (j1 - g.row_ptr.getD m 0) / 512 = (j2 - g.row_ptr.getD m 0) / 512

instance (g : CSRGraph) : Decidable (RaceFree g) := by
  unfold RaceFree; infer_instance

/-- Invariant of the relaxation loop of `m` started on `st1` when two entries that name
the same unvisited vertex lie in one chunk: the workers stand in different chunks, a
worker about to store holds a value below the one now in the slot, no slot has grown, and
the slot of every finished entry is at most the candidate of that entry. -/
def ChunkInv (g : CSRGraph) (m : Nat) (st1 : State) (rs : RelaxState) : Prop :=
  SafeInv g m st1 rs ∧
  (∃ K, rs.next = g.row_ptr.getD m 0 + 512 * K) ∧
  (∀ a b, a ≠ b → ∀ ja jb, Pending (rs.pcs.getD a Pc.finished) ja →
    Pending (rs.pcs.getD b Pc.finished) jb →
    (ja - g.row_ptr.getD m 0) / 512 ≠ (jb - g.row_ptr.getD m 0) / 512) ∧
  (∀ t i stop adj_vertex new_dist,
    rs.pcs.getD t Pc.finished = Pc.write i stop adj_vertex new_dist →
    new_dist < rs.st.distances.getD adj_vertex 0) ∧
  (∀ v, rs.st.distances.getD v 0 ≤ st1.distances.getD v 0) ∧
  (∀ j, g.row_ptr.getD m 0 ≤ j → j < g.row_ptr.getD (m + 1) 0 → j < rs.next → Done rs j →
    st1.visited.getD (g.col_idx.getD j 0) false = false →
    g.col_idx.getD j 0 < st1.distances.length →
    rs.st.distances.getD (g.col_idx.getD j 0) 0 ≤
      wrap32 (st1.distances.getD m 0 + g.weights.getD j 0)) ∧
  ((∃ p ∈ rs.pcs, p = Pc.finished) → g.row_ptr.getD (m + 1) 0 ≤ rs.next)

end Cmp

namespace GraphGenerator

/-- The function `encode_edge` of `graph_generator.c`, in `long long` arithmetic (no
overflow for `int` arguments). -/
def encode_edge (u v : Int) : Int :=
  (if u < v then u else v) * 1000000000 + (if u > v then u else v)

/-- One written edge line `u v weight`. -/
structure Line where
  u : Int
  v : Int
  weight : Int
deriving DecidableEq

/-- The array `edge_set` (its first `edge_count` slots) and the edge lines written to the
file so far. -/
structure GenState where
  edge_set : List Int
  lines : List Line

/-- The duplicate test (lines 50-56): some `edge_set[i]`, `i < edge_count`, equals
`edge`. -/
def is_duplicate (edge_set : List Int) (edge : Int) : Bool :=
  edge_set.any (fun x => x == edge)

/-- The generating loop (lines 37-68) on the values returned by the successive calls of
`rand()`; the run is followed up to the last iteration for which values are given. -/
def genLoop (num_nodes num_edges max_weight : Int) : List Nat → GenState → GenState
  | r1 :: r2 :: rest, st =>
    if (st.edge_set.length : Int) < num_edges then
      let u := Int.tmod (r1 : Int) num_nodes
      let v := Int.tmod (r2 : Int) num_nodes
      if u = v then genLoop num_nodes num_edges max_weight rest st
      else
        let edge := encode_edge u v
        if is_duplicate st.edge_set edge then genLoop num_nodes num_edges max_weight rest st
        else
          match rest with
          | r3 :: rest' =>
            genLoop num_nodes num_edges max_weight rest'
              { edge_set := st.edge_set ++ [edge],
                lines := st.lines ++ [⟨u, v, Int.tmod (r3 : Int) max_weight + 1⟩] }
          | [] => st
    else st
  | _, st => st

/-- How a call of `generate_random_weighted_graph` ends: the `Too many edges` error, a file
that cannot be opened, or the file with its header and edge lines. -/
inductive GenOutcome where
  | too_many_edges
  | open_failed
  | written (num_nodes num_edges : Int) (lines : List Line)
deriving DecidableEq

/-- The function `generate_random_weighted_graph`; `can_open` tells whether `fopen`
succeeds and `rands` are the values of `rand()`.  The product of line 13 is an `int`. -/
def generate_random_weighted_graph (num_nodes num_edges max_weight : Int) (can_open : Bool)
    (rands : List Nat) : GenOutcome :=
  let max_possible_edges := Int.tdiv (Cmp.wrap32 (num_nodes * (num_nodes - 1))) 2
  if num_edges > max_possible_edges then GenOutcome.too_many_edges
  else if !can_open then GenOutcome.open_failed
  else GenOutcome.written num_nodes num_edges
    (genLoop num_nodes num_edges max_weight rands { edge_set := [], lines := [] }).lines

/-- Two edge lines join the same unordered pair of vertices. -/
def SamePair (a b : Line) : Prop := (a.u = b.u ∧ a.v = b.v) ∨ (a.u = b.v ∧ a.v = b.u)

end GraphGenerator

namespace Dfs

/-- The struct `Graph` of `dfs.c`: `adj_list[v]` is the linked list of the neighbours of
`v`, head first. -/
structure Graph where
  num_nodes : Nat
  adj_list : List (List Nat)
deriving DecidableEq

/-- The function `create_graph`: `num_nodes` empty adjacency lists. -/
def create_graph (num_nodes : Nat) : Graph :=
  { num_nodes := num_nodes, adj_list := List.replicate num_nodes [] }

/-- The function `add_edge`: `dest` is pushed on the list of `src`, then `src` on the list
of `dest`. -/
def add_edge (g : Graph) (src dest : Nat) : Graph :=
  let a1 := g.adj_list.set src (dest :: g.adj_list.getD src [])
  let a2 := a1.set dest (src :: a1.getD dest [])
  { g with adj_list := a2 }

/-- The graph obtained from `create_graph` by one `add_edge` per pair, in order. -/
def build_graph (num_nodes : Nat) (pairs : List (Nat × Nat)) : Graph :=
  pairs.foldl (fun g p => add_edge g p.1 p.2) (create_graph num_nodes)

/-- The reading loop of `read_graph` (lines 51-55) with `k` iterations left, on the
integers of the file that follow the header: each iteration reads two integers with
`fscanf(file, "%d %d", &u, &v)`.  The loop is followed as long as two integers are
left. -/
def readLoop : Nat → List Nat → Graph → Graph
  | 0, _, g => g
  | k + 1, u :: v :: rest, g => readLoop k rest (add_edge g u v)
  | _ + 1, _, g => g

/-- The function `read_graph` on an opened file: the header values and the integers that
follow the header. -/
def read_graph (num_nodes num_edges : Nat) (tokens : List Nat) : Graph :=
  readLoop num_edges tokens (create_graph num_nodes)

/-- The integers, after the header, of a file in the format of the graph generator: one
line `u v weight` per edge. -/
def fileTokens (lines : List Cmp.Edge) : List Nat :=
  match lines with
  | [] => []
  | e :: es => e.src :: e.dest :: e.weight.toNat :: fileTokens es

/-- The function `dfs`; `fuel` bounds the depth of the recursion, and `none` means that
the bound was reached. -/
def dfs (g : Graph) : Nat → Nat → List Bool → Option (List Bool)
  | 0, _, _ => none
  | fuel + 1, vertex, visited =>
    (g.adj_list.getD vertex []).foldlM
      (fun vis a => if vis.getD a false then some vis else dfs g fuel a vis)
      (visited.set vertex true)

/-- The function `is_connected`, the recursion of `dfs` being bounded by `fuel`. -/
def is_connected (g : Graph) (fuel : Nat) : Option Int :=
  match dfs g fuel 0 (List.replicate g.num_nodes false) with
  | none => none
  | some visited =>
    if (List.range g.num_nodes).all (fun i => visited.getD i false) then some 1 else some 0

/-- The pair list has the edge `u - a`, in either direction. -/
def Linked (pairs : List (Nat × Nat)) (u a : Nat) : Prop :=
  (u, a) ∈ pairs ∨ (a, u) ∈ pairs

/-- Vertex `u` is reachable from `v` along edges of the pair list. -/
def Reach (pairs : List (Nat × Nat)) (v u : Nat) : Prop :=
  Relation.ReflTransGen (Linked pairs) v u

end Dfs

namespace Dparallel

/-- The function `create_graph` of `dparallel.c`: the adjacency matrix with 0 on the
diagonal and `INF` (the `int` value of `1e9`) elsewhere. -/
def create_graph (num_nodes : Nat) : List (List Int) :=
  (List.range num_nodes).map fun i =>
    (List.range num_nodes).map fun j => if i = j then 0 else Cmp.INF

/-- The read `graph[u][v]`. -/
def entry (graph : List (List Int)) (u v : Nat) : Int :=
  (graph.getD u []).getD v 0

/-- The assignment `graph[u][v] = w`. -/
def setEntry (graph : List (List Int)) (u v : Nat) (w : Int) : List (List Int) :=
  graph.set u ((graph.getD u []).set v w)

/-- Body of the loop of `read_graph` (lines 31-34) for one line `u v weight`. -/
def readStep (graph : List (List Int)) (e : Cmp.Edge) : List (List Int) :=
  setEntry (setEntry graph e.src e.dest e.weight) e.dest e.src e.weight

/-- The function `read_graph` on an opened file with header `num_nodes` and the lines
`edges`. -/
def read_graph (num_nodes : Nat) (edges : List Cmp.Edge) : List (List Int) :=
  edges.foldl readStep (create_graph num_nodes)

/-- The minimum search of `dijkstra_parallel` (lines 53-76) run by one worker: the scan of
`0..num_nodes-1` into `(local_min_distance, local_min_index)`, which is the scan of
`cmp.c`, then the critical section. -/
def minSearch (st : Cmp.State) (num_nodes : Nat) : Int × Int :=
  let r := Cmp.scan st (List.range num_nodes)
  if r.1 < Cmp.INF then r else (Cmp.INF, -1)

/-- Body of the update loop (lines 83-90) for index `i`, the chosen vertex being `m`. -/
def updateStep (graph : List (List Int)) (m : Nat) (st : Cmp.State) (i : Nat) : Cmp.State :=
  if !st.visited.getD i false && decide (entry graph m i ≠ Cmp.INF) &&
      decide (st.distances.getD m 0 ≠ Cmp.INF) then
    let new_distance := Cmp.wrap32 (st.distances.getD m 0 + entry graph m i)
    if new_distance < st.distances.getD i 0 then
      { st with distances := st.distances.set i new_distance }
    else st
  else st

/-- The outer loop of `dijkstra_parallel` (lines 53-91) with `k` iterations left, run by
one worker. -/
def outerLoop (graph : List (List Int)) (num_nodes : Nat) : Nat → Cmp.State → Cmp.State
  | 0, st => st
  | k + 1, st =>
    let r := minSearch st num_nodes
    if r.2 = -1 then st
    else
      let m := r.2.toNat
      outerLoop graph num_nodes k
        ((List.range num_nodes).foldl (updateStep graph m) (Cmp.markVisited st m))

/-- The function `dijkstra_parallel` of `dparallel.c` run by one worker: the content of
`distances` when it is printed.  The arrays start as in `cmp.c`, and the outer loop makes
at most `num_nodes - 1` iterations. -/
def dijkstra_parallel (graph : List (List Int)) (num_nodes source : Nat) : List Int :=
  (outerLoop graph num_nodes (num_nodes - 1) (Cmp.initState num_nodes source)).distances

/-- The matrix has `n` rows of `n` entries. -/
def Square (graph : List (List Int)) (n : Nat) : Prop :=
  graph.length = n ∧ ∀ i, i < n → (graph.getD i []).length = n

end Dparallel

/-! ## Theorems -/

namespace Cmp

theorem getD_set_eq {α : Type} (l : List α) (i : Nat) (a d : α) (h : i < l.length) :
    (l.set i a).getD i d = a := by
  simp [List.getD_eq_getElem?_getD, List.getElem?_set, h]

theorem getD_set_ne {α : Type} (l : List α) {i j : Nat} (a d : α) (h : i ≠ j) :
    (l.set i a).getD j d = l.getD j d := by
  simp [List.getD_eq_getElem?_getD, List.getElem?_set, h]

theorem degree_append (es : List Edge) (e : Edge) (x : Nat) :
    degree (es ++ [e]) x =
      degree es x + ((if e.src = x then 1 else 0) + (if e.dest = x then 1 else 0)) := by
  simp only [degree, List.countP_append, List.countP_cons, List.countP_nil]
  simp only [decide_eq_true_eq]
  omega

/-- State of the reading loop after the lines `es`, the temporaries having `L` slots. -/
theorem readEdges_fold (n L : Nat) (es : List Edge) (hr : InRange n es)
    (hL : 2 * es.length ≤ L) :
    let st := es.foldl readEdge
      { temp_edges := List.replicate L 0, temp_weights := List.replicate L 0,
        edges_per_vertex := List.replicate n 0, edge_count := 0 }
    st.edge_count = 2 * es.length ∧ st.temp_edges.length = L ∧ st.temp_weights.length = L ∧
    st.edges_per_vertex.length = n ∧
    (∀ x, x < n → st.edges_per_vertex.getD x 0 = degree es x) ∧
    (∀ k e, es[k]? = some e →
      st.temp_edges.getD (2 * k) 0 = e.src ∧ st.temp_edges.getD (2 * k + 1) 0 = e.dest ∧
      st.temp_weights.getD k 0 = e.weight) := by
  induction es using List.reverseRecOn with
  | nil => simp [degree]
  | append_singleton es e ih =>
    have hr' : InRange n es := fun a ha => hr a (by simp [ha])
    have he : e.src < n ∧ e.dest < n := hr e (by simp)
    simp only [List.length_append, List.length_singleton] at hL
    obtain ⟨h1, h2, h3, h4, h5, h6⟩ := ih hr' (by omega)
    simp only [List.foldl_append, List.foldl_cons, List.foldl_nil]
    generalize es.foldl readEdge _ = st at h1 h2 h3 h4 h5 h6
    refine ⟨?_, ?_, ?_, ?_, ?_, ?_⟩
    · simp [readEdge, h1]; omega
    · simp [readEdge, h2]
    · simp [readEdge, h3]
    · simp [readEdge, h4]
    · intro x hx
      rw [degree_append, ← h5 x hx]
      simp only [readEdge]
      by_cases hd : e.dest = x
      · subst hd
        rw [getD_set_eq _ _ _ _ (by simp [h4]; exact he.2)]
        by_cases hs : e.src = e.dest
        · rw [hs, getD_set_eq _ _ _ _ (by rw [h4]; exact he.2)]; simp
        · rw [getD_set_ne _ _ _ hs]; simp [hs]
      · rw [getD_set_ne _ _ _ hd]
        by_cases hs : e.src = x
        · subst hs; rw [getD_set_eq _ _ _ _ (by rw [h4]; exact he.1)]; simp [hd]
        · rw [getD_set_ne _ _ _ hs]; simp [hs, hd]
    · intro k e' hk
      simp only [readEdge, h1]
      rw [List.getElem?_append] at hk
      by_cases hlt : k < es.length
      · simp only [hlt, if_true] at hk
        obtain ⟨a, b, c⟩ := h6 k e' hk
        refine ⟨?_, ?_, ?_⟩
        · rw [getD_set_ne _ _ _ (by omega), getD_set_ne _ _ _ (by omega)]; exact a
        · rw [getD_set_ne _ _ _ (by omega), getD_set_ne _ _ _ (by omega)]; exact b
        · rw [getD_set_ne _ _ _ (by omega)]; exact c
      · simp only [hlt, if_false] at hk
        have hk0 : k = es.length := by
          rcases Nat.lt_or_ge (k - es.length) 1 with h | h
          · omega
          · rw [List.getElem?_eq_none (by simpa using h)] at hk; cases hk
        subst hk0
        simp at hk
        subst hk
        refine ⟨?_, ?_, ?_⟩
        · rw [getD_set_ne _ _ _ (by omega), getD_set_eq _ _ _ _ (by omega)]
        · rw [getD_set_eq _ _ _ _ (by simp; omega)]
        · rw [show 2 * es.length / 2 = es.length by omega, getD_set_eq _ _ _ _ (by omega)]


theorem rowStep_fold (n : Nat) (c : List Nat) (hc : c.length = n) (m : Nat) (hm : m ≤ n) :
    let st := (List.range m).foldl rowStep ((List.replicate (n + 1) 0).set 0 0, c)
    st.1.length = n + 1 ∧ st.2.length = n ∧
    (∀ k, k ≤ m → st.1.getD k 0 = ∑ i in Finset.range k, c.getD i 0) ∧
    (∀ x, x < m → st.2.getD x 0 = 0) ∧ (∀ x, m ≤ x → st.2.getD x 0 = c.getD x 0) := by
  induction m with
  | zero =>
    refine ⟨by simp, by simp [hc], ?_, by simp, by simp⟩
    intro k hk
    have : k = 0 := by omega
    subst this
    simp
  | succ m ih =>
    obtain ⟨h1, h2, h3, h4, h5⟩ := ih (by omega)
    simp only [List.range_succ, List.foldl_append, List.foldl_cons, List.foldl_nil]
    generalize (List.range m).foldl rowStep _ = st at h1 h2 h3 h4 h5
    refine ⟨by simp [rowStep, h1], by simp [rowStep, h2], ?_, ?_, ?_⟩
    · intro k hk
      simp only [rowStep]
      by_cases hkm : k = m + 1
      · subst hkm
        rw [getD_set_eq _ _ _ _ (by omega), h3 m (le_refl _), h5 m (le_refl _),
          Finset.sum_range_succ]
      · rw [getD_set_ne _ _ _ (by omega)]
        exact h3 k (by omega)
    · intro x hx
      simp only [rowStep]
      by_cases hxm : x = m
      · subst hxm; rw [getD_set_eq _ _ _ _ (by omega)]
      · rw [getD_set_ne _ _ _ (by omega)]; exact h4 x (by omega)
    · intro x hx
      simp only [rowStep]
      rw [getD_set_ne _ _ _ (by omega)]; exact h5 x (by omega)


theorem incident_eq_rowOf (edges : List Edge) (x : Nat) :
    incident edges x = rowOf (directed edges) x := by
  induction edges with
  | nil => rfl
  | cons e es ih =>
    simp only [incident, directed, rowOf, List.filter_cons] at ih ⊢
    by_cases h1 : e.src = x <;> by_cases h2 : e.dest = x <;> simp [h1, h2, ih]

theorem rowOf_cons (d : Entry) (ds : List Entry) (x : Nat) :
    rowOf (d :: ds) x = (if d.1 = x then [d.2] else []) ++ rowOf ds x := by
  by_cases h : d.1 = x <;> simp [rowOf, List.filter_cons, h]

theorem length_rowOf_directed (edges : List Edge) (x : Nat) :
    (rowOf (directed edges) x).length = degree edges x := by
  induction edges with
  | nil => rfl
  | cons e es ih =>
    rw [directed, rowOf_cons, rowOf_cons]
    simp only [List.length_append, ih, degree, List.countP_cons]
    by_cases h1 : e.src = x <;> by_cases h2 : e.dest = x <;> simp [h1, h2] <;> omega

theorem directed_append (es : List Edge) (e : Edge) :
    directed (es ++ [e]) = directed es ++ [(e.src, e.dest, e.weight), (e.dest, e.src, e.weight)] := by
  induction es with
  | nil => rfl
  | cons a es ih => simp [directed, ih]

theorem rowOf_append (ds : List Entry) (d : Entry) (x : Nat) :
    rowOf (ds ++ [d]) x = rowOf ds x ++ (if d.1 = x then [d.2] else []) := by
  by_cases h : d.1 = x <;> simp [rowOf, List.filter_append, List.filter_cons, h]

/-- Row offsets that advance by `deg` are monotone. -/
theorem rowStart_mono (rp : Nat → Nat) (deg : Nat → Nat) (n : Nat)
    (hstep : ∀ x, x < n → rp (x + 1) = rp x + deg x) (a b : Nat) (hab : a ≤ b) (hb : b ≤ n) :
    rp a ≤ rp b := by
  induction b with
  | zero =>
    have : a = 0 := by omega
    subst this; exact le_refl _
  | succ b ih =>
    by_cases h : a = b + 1
    · subst h; exact le_refl _
    · have := ih (by omega) (by omega)
      have := hstep b (by omega)
      omega

/-- Invariant of the filling loop, one directed entry at a time. -/
theorem place_fold (n L : Nat) (rp : List Nat) (deg : Nat → Nat) (c0 : List Nat)
    (hstep : ∀ x, x < n → rp.getD (x + 1) 0 = rp.getD x 0 + deg x)
    (hL : rp.getD n 0 = L) (hc0 : c0.length = n) (hz : ∀ x, x < n → c0.getD x 0 = 0)
    (ds : List Entry) (hown : ∀ d ∈ ds, d.1 < n)
    (hcnt : ∀ x, x < n → (rowOf ds x).length ≤ deg x) :
    let st := ds.foldl (place rp)
      { col_idx := List.replicate L 0, weights := List.replicate L 0, edges_per_vertex := c0 }
    st.col_idx.length = L ∧ st.weights.length = L ∧ st.edges_per_vertex.length = n ∧
    (∀ x, x < n → st.edges_per_vertex.getD x 0 = (rowOf ds x).length) ∧
    (∀ x, x < n → ∀ t p, (rowOf ds x)[t]? = some p →
      st.col_idx.getD (rp.getD x 0 + t) 0 = p.1 ∧ st.weights.getD (rp.getD x 0 + t) 0 = p.2) := by
  induction ds using List.reverseRecOn with
  | nil =>
    refine ⟨by simp, by simp, hc0, ?_, ?_⟩
    · intro x hx; simpa [rowOf] using hz x hx
    · intro x hx t p hp; simp [rowOf] at hp
  | append_singleton ds d ih =>
    have hown' : ∀ d ∈ ds, d.1 < n := fun a ha => hown a (by simp [ha])
    have hd : d.1 < n := hown d (by simp)
    have hcnt' : ∀ x, x < n → (rowOf ds x).length ≤ deg x := by
      intro x hx
      have := hcnt x hx
      rw [rowOf_append, List.length_append] at this
      omega
    have hfull : (rowOf ds d.1).length < deg d.1 := by
      have := hcnt d.1 hd
      rw [rowOf_append, List.length_append] at this
      simpa using this
    obtain ⟨h1, h2, h3, h4, h5⟩ := ih hown' hcnt'
    simp only [List.foldl_append, List.foldl_cons, List.foldl_nil]
    generalize ds.foldl (place rp) _ = st at h1 h2 h3 h4 h5
    have hmono := rowStart_mono (fun x => rp.getD x 0) deg n hstep
    have hpos : rp.getD d.1 0 + st.edges_per_vertex.getD d.1 0 < L := by
      rw [h4 d.1 hd]
      have a := hstep d.1 hd
      have b := hmono (d.1 + 1) n (by omega) (le_refl _)
      simp only [hL] at b
      omega
    refine ⟨by simp [place, h1], by simp [place, h2], by simp [place, h3], ?_, ?_⟩
    · intro x hx
      rw [rowOf_append, List.length_append]
      simp only [place]
      by_cases hx' : d.1 = x
      · subst hx'; rw [getD_set_eq _ _ _ _ (by omega), h4 d.1 hd]; simp
      · rw [getD_set_ne _ _ _ hx', h4 x hx]; simp [hx']
    · intro x hx t p hp
      rw [rowOf_append] at hp
      simp only [place]
      rw [h4 d.1 hd]
      by_cases hx' : d.1 = x
      · subst hx'
        simp only [if_true] at hp
        rw [List.getElem?_append] at hp
        by_cases ht : t < (rowOf ds d.1).length
        · simp only [ht, if_true] at hp
          rw [getD_set_ne _ _ _ (by omega), getD_set_ne _ _ _ (by omega)]
          exact h5 d.1 hd t p hp
        · simp only [ht, if_false] at hp
          have ht0 : t = (rowOf ds d.1).length := by
            rcases Nat.lt_or_ge (t - (rowOf ds d.1).length) 1 with h | h
            · omega
            · rw [List.getElem?_eq_none (by simpa using h)] at hp; cases hp
          subst ht0
          simp at hp
          subst hp
          rw [h4 d.1 hd] at hpos
          rw [getD_set_eq _ _ _ _ (by omega), getD_set_eq _ _ _ _ (by omega)]
          exact ⟨rfl, rfl⟩
      · simp only [hx', if_false, List.append_nil] at hp
        have ht : t < (rowOf ds x).length := by
          by_contra hcon
          rw [List.getElem?_eq_none (by omega)] at hp; cases hp
        have hne : rp.getD d.1 0 + (rowOf ds d.1).length ≠ rp.getD x 0 + t := by
          have c1 := hcnt' x hx
          have sx := hstep x hx
          have sd := hstep d.1 hd
          rcases Nat.lt_or_gt_of_ne hx' with hlt | hgt
          · have := hmono (d.1 + 1) x (by omega) (by omega)
            simp only at this
            omega
          · have := hmono (x + 1) d.1 (by omega) (by omega)
            simp only at this
            omega
        rw [getD_set_ne _ _ _ hne, getD_set_ne _ _ _ hne]
        exact h5 x hx t p hp


theorem fillStep_eq_place (rp te : List Nat) (tw : List Int) (st : FillState) (k : Nat)
    (e : Edge) (h1 : te.getD (2 * k) 0 = e.src) (h2 : te.getD (2 * k + 1) 0 = e.dest)
    (h3 : tw.getD k 0 = e.weight) :
    fillStep rp te tw st k =
      place rp (place rp st (e.src, e.dest, e.weight)) (e.dest, e.src, e.weight) := by
  simp only [fillStep, place, h1, h2, show 2 * k / 2 = k by omega, h3]

theorem fill_fold_eq (rp te : List Nat) (tw : List Int) (st : FillState) (es : List Edge)
    (h : ∀ k e, es[k]? = some e →
      te.getD (2 * k) 0 = e.src ∧ te.getD (2 * k + 1) 0 = e.dest ∧ tw.getD k 0 = e.weight) :
    (List.range es.length).foldl (fillStep rp te tw) st = (directed es).foldl (place rp) st := by
  induction es using List.reverseRecOn with
  | nil => rfl
  | append_singleton es e ih =>
    have h' : ∀ k e', es[k]? = some e' →
        te.getD (2 * k) 0 = e'.src ∧ te.getD (2 * k + 1) 0 = e'.dest ∧
          tw.getD k 0 = e'.weight := by
      intro k e' hk
      apply h k e'
      rw [List.getElem?_append]
      have : k < es.length := by
        by_contra hcon
        rw [List.getElem?_eq_none (by omega)] at hk; cases hk
      simp [this, hk]
    obtain ⟨a, b, c⟩ := h es.length e (by simp)
    rw [List.length_append, List.length_singleton, List.range_succ, List.foldl_append,
      directed_append, List.foldl_append, ih h']
    simp only [List.foldl_cons, List.foldl_nil]
    exact fillStep_eq_place rp te tw _ _ e a b c

theorem mem_directed (edges : List Edge) (d : Entry) (hd : d ∈ directed edges) :
    ∃ e ∈ edges, d = (e.src, e.dest, e.weight) ∨ d = (e.dest, e.src, e.weight) := by
  induction edges with
  | nil => simp [directed] at hd
  | cons e es ih =>
    simp only [directed, List.mem_cons] at hd
    rcases hd with h | h | h
    · exact ⟨e, by simp, Or.inl h⟩
    · exact ⟨e, by simp, Or.inr h⟩
    · obtain ⟨e', he', h'⟩ := ih h
      exact ⟨e', by simp [he'], h'⟩

theorem sum_degree (n : Nat) (edges : List Edge) (hr : InRange n edges) :
    ∑ i in Finset.range n, degree edges i = 2 * edges.length := by
  induction edges with
  | nil => simp [degree]
  | cons e es ih =>
    have hr' : InRange n es := fun a ha => hr a (by simp [ha])
    have he := hr e (by simp)
    have hdeg : ∀ i, degree (e :: es) i =
        degree es i + ((if e.src = i then 1 else 0) + (if e.dest = i then 1 else 0)) := by
      intro i
      simp only [degree, List.countP_cons, decide_eq_true_eq]
      omega
    simp only [hdeg, Finset.sum_add_distrib, ih hr', Finset.sum_ite_eq, Finset.mem_range,
      he.1, he.2, if_true, List.length_cons]
    omega

/-- What `create_csr_graph` builds from an edge list with in-range endpoints. -/
theorem create_csr_graph_spec (n : Nat) (edges : List Edge) (hr : InRange n edges) :
    (create_csr_graph n edges).row_ptr.length = n + 1 ∧
    (create_csr_graph n edges).col_idx.length = 2 * edges.length ∧
    (create_csr_graph n edges).weights.length = 2 * edges.length ∧
    (∀ k, k ≤ n → (create_csr_graph n edges).row_ptr.getD k 0 =
      ∑ i in Finset.range k, degree edges i) ∧
    (∀ x, x < n → ∀ t p, (incident edges x)[t]? = some p →
      (create_csr_graph n edges).col_idx.getD
        ((create_csr_graph n edges).row_ptr.getD x 0 + t) 0 = p.1 ∧
      (create_csr_graph n edges).weights.getD
        ((create_csr_graph n edges).row_ptr.getD x 0 + t) 0 = p.2) := by
  obtain ⟨r1, r2, r3, r4, r5, r6⟩ := readEdges_fold n (2 * edges.length) edges hr (le_refl _)
  obtain ⟨p1, p2, p3, p4, p5⟩ :=
    rowStep_fold n (readEdges n edges).edges_per_vertex r4 n (le_refl _)
  have hsum : ∀ k, k ≤ n → (setRowPtr n (readEdges n edges).edges_per_vertex).1.getD k 0 =
      ∑ i in Finset.range k, degree edges i := by
    intro k hk
    rw [setRowPtr, p3 k hk]
    apply Finset.sum_congr rfl
    intro i hi
    exact r5 i (by simp at hi; omega)
  have hstep : ∀ x, x < n →
      (setRowPtr n (readEdges n edges).edges_per_vertex).1.getD (x + 1) 0 =
      (setRowPtr n (readEdges n edges).edges_per_vertex).1.getD x 0 + degree edges x := by
    intro x hx
    rw [hsum (x + 1) (by omega), hsum x (by omega), Finset.sum_range_succ]
  have hedge : (readEdges n edges).edge_count = 2 * edges.length := r1
  have hL : (setRowPtr n (readEdges n edges).edges_per_vertex).1.getD n 0 = 2 * edges.length := by
    rw [hsum n (le_refl _), sum_degree n edges hr]
  obtain ⟨q1, q2, q3, q4, q5⟩ := place_fold n (2 * edges.length)
    (setRowPtr n (readEdges n edges).edges_per_vertex).1 (degree edges)
    (setRowPtr n (readEdges n edges).edges_per_vertex).2 hstep hL p2
    (fun x hx => p4 x hx) (directed edges)
    (by
      intro d hd
      obtain ⟨e, he, h | h⟩ := mem_directed edges d hd
      · rw [h]; exact (hr e he).1
      · rw [h]; exact (hr e he).2)
    (fun x _ => le_of_eq (length_rowOf_directed edges x))
  have hg : ∀ (c : List Nat) (w : List Int) (cur : List Nat),
      (List.range (((readEdges n edges).edge_count + 1) / 2)).foldl
        (fillStep (setRowPtr n (readEdges n edges).edges_per_vertex).1
          (readEdges n edges).temp_edges (readEdges n edges).temp_weights)
        { col_idx := c, weights := w, edges_per_vertex := cur } =
      (directed edges).foldl (place (setRowPtr n (readEdges n edges).edges_per_vertex).1)
        { col_idx := c, weights := w, edges_per_vertex := cur } := by
    intro c w cur
    rw [hedge, show (2 * edges.length + 1) / 2 = edges.length by omega]
    exact fill_fold_eq _ _ _ _ edges r6
  simp only [create_csr_graph]
  rw [hg]
  simp only [hedge]
  refine ⟨p1, q1, q2, hsum, ?_⟩
  intro x hx t p hp
  rw [incident_eq_rowOf] at hp
  exact q5 x hx t p hp


theorem length_incident (edges : List Edge) (x : Nat) :
    (incident edges x).length = degree edges x := by
  rw [incident_eq_rowOf, length_rowOf_directed]

/-- The adjacency range of `x` in the built graph is the incidence list of `x`. -/
theorem adjacency_create (n : Nat) (edges : List Edge) (hr : InRange n edges) (x : Nat)
    (hx : x < n) : adjacency (create_csr_graph n edges) x = incident edges x := by
  obtain ⟨_, _, _, h4, h5⟩ := create_csr_graph_spec n edges hr
  have hlen : (create_csr_graph n edges).row_ptr.getD (x + 1) 0 -
      (create_csr_graph n edges).row_ptr.getD x 0 = (incident edges x).length := by
    rw [h4 (x + 1) (by omega), h4 x (by omega), Finset.sum_range_succ, length_incident]
    omega
  apply List.ext_getElem?
  intro t
  rw [adjacency, hlen, List.getElem?_map]
  by_cases ht : t < (incident edges x).length
  · rw [List.getElem?_range' _ _ ht]
    have hp : (incident edges x)[t]? = some ((incident edges x)[t]) :=
      List.getElem?_eq_getElem ht
    obtain ⟨a, b⟩ := h5 x hx t _ hp
    rw [hp]
    simp only [Option.map_some', one_mul, Option.some.injEq]
    exact Prod.ext a b
  · rw [List.getElem?_eq_none (by simpa using ht), List.getElem?_eq_none (by omega)]
    rfl

theorem count_ite_singleton {α : Type} [BEq α] [LawfulBEq α] (c : Prop) [Decidable c]
    (a b : α) :
    (if c then [a] else []).count b = if c ∧ (a == b) = true then 1 else 0 := by
  by_cases hc : c <;> by_cases hab : (a == b) = true <;> simp [hc, hab, List.count_cons]

theorem count_incident (edges : List Edge) (u v : Nat) (w : Int) :
    (incident edges u).count (v, w) =
      edges.countP (fun a => a.src = u ∧ a.dest = v ∧ a.weight = w) +
      edges.countP (fun a => a.dest = u ∧ a.src = v ∧ a.weight = w) := by
  induction edges with
  | nil => rfl
  | cons e es ih =>
    have h1 := count_ite_singleton (e.src = u) (e.dest, e.weight) (v, w)
    have h2 := count_ite_singleton (e.dest = u) (e.src, e.weight) (v, w)
    simp only [beq_iff_eq, Prod.mk.injEq] at h1 h2
    simp only [incident, List.count_append, ih, List.countP_cons, decide_eq_true_eq, h1, h2]
    omega


/-- What a minimum scan over the index list `l` returns. -/
theorem scan_spec (st : State) (l : List Nat) :
    (scan st l).1 ≤ INF ∧
    (∀ j ∈ l, st.visited.getD j false = false → (scan st l).1 ≤ st.distances.getD j 0) ∧
    (((scan st l).2 = -1 ∧ (scan st l).1 = INF) ∨
      ∃ m ∈ l, (scan st l).2 = (m : Int) ∧ st.visited.getD m false = false ∧
        st.distances.getD m 0 = (scan st l).1 ∧ (scan st l).1 < INF) := by
  induction l using List.reverseRecOn with
  | nil => simp [scan]
  | append_singleton l j ih =>
    obtain ⟨h1, h2, h3⟩ := ih
    have hs : scan st (l ++ [j]) = scanStep st (scan st l) j := by
      simp [scan, List.foldl_append]
    rw [hs]
    generalize scan st l = r at h1 h2 h3
    unfold scanStep
    by_cases hv : st.visited.getD j false = false
    · by_cases hd : st.distances.getD j 0 < r.1
      · rw [if_pos (by simp only [hv, Bool.not_false, Bool.true_and, decide_eq_true_eq]; exact hd)]
        refine ⟨by omega, ?_, ?_⟩
        · intro i hi hiv
          rcases List.mem_append.1 hi with hi | hi
          · have := h2 i hi hiv; omega
          · simp at hi; subst hi; exact le_refl _
        · right
          exact ⟨j, by simp, rfl, hv, rfl, by omega⟩
      · rw [if_neg (by simp only [hv, Bool.not_false, Bool.true_and, decide_eq_true_eq]; exact hd)]
        refine ⟨h1, ?_, ?_⟩
        · intro i hi hiv
          rcases List.mem_append.1 hi with hi | hi
          · exact h2 i hi hiv
          · simp at hi; subst hi; omega
        · rcases h3 with h | ⟨m, hm, h⟩
          · exact Or.inl h
          · exact Or.inr ⟨m, by simp [hm], h⟩
    · have hv' : st.visited.getD j false = true := by simpa using hv
      rw [if_neg (by simp only [hv', Bool.not_true, Bool.false_and, Bool.false_eq_true, not_false_eq_true])]
      refine ⟨h1, ?_, ?_⟩
      · intro i hi hiv
        rcases List.mem_append.1 hi with hi | hi
        · exact h2 i hi hiv
        · simp at hi; subst hi; rw [hv'] at hiv; cases hiv
      · rcases h3 with h | ⟨m, hm, h⟩
        · exact Or.inl h
        · exact Or.inr ⟨m, by simp [hm], h⟩

/-- The scan of `dijkstra_sequential` returns a sound result. -/
theorem scan_range_minResult (st : State) (n : Nat) :
    MinResult st n (scan st (List.range n)) := by
  obtain ⟨h1, h2, h3⟩ := scan_spec st (List.range n)
  rcases h3 with ⟨a, b⟩ | ⟨m, hm, a, b, c, d⟩
  · left
    refine ⟨a, ?_⟩
    intro j hj hv
    have := h2 j (List.mem_range.2 hj) hv
    omega
  · right
    refine ⟨m, a, List.mem_range.1 hm, b, by omega, ?_⟩
    intro j hj hv
    have := h2 j (List.mem_range.2 hj) hv
    omega

/-- What the critical sections of the workers `ts`, run in this order, leave in
`(min_distance, min_index)`. -/
theorem combine_spec (s : Schedule) (st : State) (n : Nat) (ts : List Nat) :
    (ts.foldl (combineStep s st n) (INF, -1)).1 ≤ INF ∧
    (∀ t ∈ ts, (ts.foldl (combineStep s st n) (INF, -1)).1 ≤ (localMin s st n t).1) ∧
    (ts.foldl (combineStep s st n) (INF, -1) = (INF, -1) ∨
      ∃ t ∈ ts, ts.foldl (combineStep s st n) (INF, -1) = localMin s st n t ∧
        (localMin s st n t).1 < INF) := by
  induction ts using List.reverseRecOn with
  | nil => simp
  | append_singleton ts t ih =>
    obtain ⟨h1, h2, h3⟩ := ih
    rw [List.foldl_append, List.foldl_cons, List.foldl_nil]
    generalize ts.foldl (combineStep s st n) (INF, -1) = r at h1 h2 h3
    unfold combineStep
    by_cases hlt : (localMin s st n t).1 < r.1
    · simp only [hlt, if_true]
      refine ⟨by omega, ?_, ?_⟩
      · intro t' ht'
        rcases List.mem_append.1 ht' with h | h
        · have := h2 t' h; omega
        · simp at h; subst h; exact le_refl _
      · exact Or.inr ⟨t, by simp, rfl, by omega⟩
    · simp only [hlt, if_false]
      refine ⟨h1, ?_, ?_⟩
      · intro t' ht'
        rcases List.mem_append.1 ht' with h | h
        · exact h2 t' h
        · simp at h; subst h; omega
      · rcases h3 with h | ⟨t', ht', h⟩
        · exact Or.inl h
        · exact Or.inr ⟨t', by simp [ht'], h⟩

/-- The parallel minimum search returns a sound result under every valid schedule. -/
theorem parallelMin_minResult (s : Schedule) (hs : s.Valid) (st : State) (n : Nat) :
    MinResult st n (parallelMin s st n) := by
  obtain ⟨_, hown, hperm⟩ := hs
  obtain ⟨h1, h2, h3⟩ := combine_spec s st n s.combine
  have hle : ∀ j, j < n → st.visited.getD j false = false →
      (parallelMin s st n).1 ≤ st.distances.getD j 0 := by
    intro j hj hv
    have ht : s.owner (j / 1024) ∈ s.combine :=
      hperm.mem_iff.2 (List.mem_range.2 (hown _))
    have a := h2 _ ht
    have hmem : j ∈ workerIndices s n (s.owner (j / 1024)) := by
      simp [workerIndices, hj]
    have b := (scan_spec st (workerIndices s n (s.owner (j / 1024)))).2.1 j hmem hv
    unfold parallelMin
    unfold localMin at a
    omega
  rcases h3 with h | ⟨t, ht, h, hlt⟩
  · left
    have e1 : (parallelMin s st n).1 = INF := by unfold parallelMin; rw [h]
    have e2 : (parallelMin s st n).2 = -1 := by unfold parallelMin; rw [h]
    refine ⟨e2, ?_⟩
    intro j hj hv
    have := hle j hj hv
    omega
  · right
    have e : parallelMin s st n = localMin s st n t := h
    obtain ⟨_, _, c3⟩ := scan_spec st (workerIndices s n t)
    rcases c3 with ⟨_, c⟩ | ⟨m, hm, a, b, c, d⟩
    · unfold localMin at hlt; omega
    · have hmn : m < n := by
        simp [workerIndices] at hm; exact hm.1
      refine ⟨m, by rw [e]; exact a, hmn, b, by omega, ?_⟩
      intro j hj hv
      have := hle j hj hv
      rw [e] at this
      unfold localMin at this
      omega


theorem getD_set {α : Type} (l : List α) (i j : Nat) (a d : α) :
    (l.set i a).getD j d = if i = j ∧ i < l.length then a else l.getD j d := by
  by_cases h : i = j
  · subst h
    by_cases hl : i < l.length
    · rw [getD_set_eq _ _ _ _ hl]; simp [hl]
    · rw [if_neg (by simp [hl])]
      rw [List.getD_eq_default _ _ (by simp; omega), List.getD_eq_default _ _ (by omega)]
  · rw [getD_set_ne _ _ _ h, if_neg (by simp [h])]

/-- What the relaxation of the entries `js` of the visited vertex `m` does to a state,
whatever the graph and the weights are. -/
theorem relax_fold (g : CSRGraph) (m : Nat) (st1 : State)
    (hm : st1.visited.getD m false = true) (js : List Nat) :
    (js.foldl (relaxStep g m) st1).visited = st1.visited ∧
    (js.foldl (relaxStep g m) st1).distances.length = st1.distances.length ∧
    (∀ v, (js.foldl (relaxStep g m) st1).distances.getD v 0 ≤ st1.distances.getD v 0) ∧
    (∀ v, (js.foldl (relaxStep g m) st1).distances.getD v 0 = st1.distances.getD v 0 ∨
      (st1.visited.getD v false = false ∧ ∃ j ∈ js, g.col_idx.getD j 0 = v ∧
        (js.foldl (relaxStep g m) st1).distances.getD v 0 =
          wrap32 (st1.distances.getD m 0 + g.weights.getD j 0))) ∧
    (∀ j ∈ js, st1.visited.getD (g.col_idx.getD j 0) false = false →
      g.col_idx.getD j 0 < st1.distances.length →
      (js.foldl (relaxStep g m) st1).distances.getD (g.col_idx.getD j 0) 0 ≤
        wrap32 (st1.distances.getD m 0 + g.weights.getD j 0)) := by
  induction js using List.reverseRecOn with
  | nil => simp
  | append_singleton js j ih =>
    obtain ⟨h1, h2, h3, h4, h5⟩ := ih
    rw [List.foldl_append, List.foldl_cons, List.foldl_nil]
    generalize js.foldl (relaxStep g m) st1 = st2 at h1 h2 h3 h4 h5
    have hdm : st2.distances.getD m 0 = st1.distances.getD m 0 := by
      rcases h4 m with h | ⟨h, _⟩
      · exact h
      · rw [hm] at h; cases h
    have hold : ∀ j' ∈ js ++ [j], j' ∈ js ∨ j' = j := by
      intro j' hj'
      rcases List.mem_append.1 hj' with h | h
      · exact Or.inl h
      · right; simpa using h
    -- the state is left as it is
    have keep : st1.visited.getD (g.col_idx.getD j 0) false = true ∨
        ¬ wrap32 (st1.distances.getD m 0 + g.weights.getD j 0) <
          st2.distances.getD (g.col_idx.getD j 0) 0 →
        relaxStep g m st2 j = st2 := by
      intro hk
      unfold relaxStep
      rcases hk with hk | hk
      · simp only [h1, hk, Bool.not_true, Bool.false_eq_true, if_false]
      · simp only [hdm, hk, if_false, ite_self]
    by_cases hv : st1.visited.getD (g.col_idx.getD j 0) false = true
    · rw [keep (Or.inl hv)]
      refine ⟨h1, h2, h3, ?_, ?_⟩
      · intro v
        rcases h4 v with h | ⟨a, j', hj', b⟩
        · exact Or.inl h
        · exact Or.inr ⟨a, j', by simp [hj'], b⟩
      · intro j' hj' hvj' hlt
        rcases hold j' hj' with h | h
        · exact h5 j' h hvj' hlt
        · subst h; rw [hv] at hvj'; cases hvj'
    · have hv' : st1.visited.getD (g.col_idx.getD j 0) false = false := by simpa using hv
      by_cases hn : wrap32 (st1.distances.getD m 0 + g.weights.getD j 0) <
          st2.distances.getD (g.col_idx.getD j 0) 0
      · have hst : relaxStep g m st2 j =
            State.mk (st2.distances.set (g.col_idx.getD j 0)
                (wrap32 (st1.distances.getD m 0 + g.weights.getD j 0))) st2.visited := by
          unfold relaxStep
          simp only [h1, hv', hdm, hn, Bool.not_false, if_true]
        rw [hst]
        simp only
        have hget : ∀ v, (st2.distances.set (g.col_idx.getD j 0)
            (wrap32 (st1.distances.getD m 0 + g.weights.getD j 0))).getD v 0 =
            if g.col_idx.getD j 0 = v ∧ g.col_idx.getD j 0 < st1.distances.length then
              wrap32 (st1.distances.getD m 0 + g.weights.getD j 0)
            else st2.distances.getD v 0 := by
          intro v; rw [getD_set, h2]
        refine ⟨h1, by rw [List.length_set, h2], ?_, ?_, ?_⟩
        · intro v
          rw [hget v]
          split_ifs with hc
          · have := h3 v
            rw [← hc.1]
            rw [← hc.1] at this
            omega
          · exact h3 v
        · intro v
          rw [hget v]
          split_ifs with hc
          · right
            rw [← hc.1]
            exact ⟨hv', j, by simp, rfl, rfl⟩
          · rcases h4 v with h | ⟨a, j', hj', b⟩
            · exact Or.inl h
            · exact Or.inr ⟨a, j', by simp [hj'], b⟩
        · intro j' hj' hvj' hlt
          rw [hget]
          split_ifs with hc
          · rcases hold j' hj' with h | h
            · have := h5 j' h hvj' hlt
              rw [hc.1] at hn
              omega
            · subst h; exact le_refl _
          · rcases hold j' hj' with h | h
            · exact h5 j' h hvj' hlt
            · subst h
              exact absurd ⟨rfl, hlt⟩ hc
      · rw [keep (Or.inr hn)]
        refine ⟨h1, h2, h3, ?_, ?_⟩
        · intro v
          rcases h4 v with h | ⟨a, j', hj', b⟩
          · exact Or.inl h
          · exact Or.inr ⟨a, j', by simp [hj'], b⟩
        · intro j' hj' hvj' hlt
          rcases hold j' hj' with h | h
          · exact h5 j' h hvj' hlt
          · subst h; omega


theorem count_false_set (l : List Bool) (m : Nat) (hm : m < l.length)
    (hv : l.getD m false = false) : (l.set m true).count false + 1 = l.count false := by
  induction l generalizing m with
  | nil => simp at hm
  | cons a l ih =>
    cases m with
    | zero =>
      simp only [List.getD_cons_zero] at hv
      subst hv
      simp [List.count_cons]
    | succ m =>
      simp only [List.getD_cons_succ] at hv
      simp only [List.length_cons, Nat.add_lt_add_iff_right] at hm
      have := ih m hm hv
      simp only [List.set_cons_succ, List.count_cons]
      omega

theorem getD_of_count_false (l : List Bool) (h : l.count false = 0) (j : Nat)
    (hj : j < l.length) : l.getD j false = true := by
  rw [List.getD_eq_getElem _ _ hj]
  have hmem : l[j] ∈ l := List.getElem_mem hj
  cases hb : l[j] with
  | true => rfl
  | false =>
    rw [hb] at hmem
    have := List.count_pos_iff.2 hmem
    omega

theorem exhausted_of_all_visited (st : State) (n : Nat) (hl : st.visited.length = n)
    (h : st.visited.count false = 0) : Exhausted st n := by
  intro j hj hv
  rw [getD_of_count_false _ h j (by omega)] at hv
  cases hv

/-- One outer iteration from a state with the legitimate choice `m`: the number of
unvisited vertices drops by one. -/
theorem iteration_count (g : CSRGraph) (st : State) (m : Nat) (js : List Nat)
    (hl : st.visited.length = g.num_nodes) (hm : IsMin st g.num_nodes m) :
    (js.foldl (relaxStep g m) (markVisited st m)).visited.length = g.num_nodes ∧
    (js.foldl (relaxStep g m) (markVisited st m)).visited.count false + 1 =
      st.visited.count false := by
  have hv1 : (markVisited st m).visited.getD m false = true := by
    simp only [markVisited]
    rw [getD_set_eq _ _ _ _ (by rw [hl]; exact hm.1)]
  obtain ⟨h1, _⟩ := relax_fold g m (markVisited st m) hv1 js
  rw [h1]
  simp only [markVisited, List.length_set]
  exact ⟨hl, count_false_set _ _ (by rw [hl]; exact hm.1) hm.2.1⟩

/-- Loop rule of `dijkstra_sequential`: a property kept by every outer iteration holds
when the loop ends, and the loop ends in an exhausted state. -/
theorem seqLoop_rule (g : CSRGraph) (P : State → Prop)
    (hstep : ∀ (st : State) (m : Nat) (js : List Nat), P st → st.visited.length = g.num_nodes → IsMin st g.num_nodes m →
      js.Perm (adjRange g m) → P (js.foldl (relaxStep g m) (markVisited st m))) :
    ∀ k st, P st → st.visited.length = g.num_nodes → st.visited.count false ≤ k →
      P (seqLoop g k st) ∧ Exhausted (seqLoop g k st) g.num_nodes := by
  intro k
  induction k with
  | zero =>
    intro st hP hl hc
    exact ⟨hP, exhausted_of_all_visited st _ hl (by omega)⟩
  | succ k ih =>
    intro st hP hl hc
    rw [seqLoop]
    simp only
    rcases scan_range_minResult st g.num_nodes with ⟨h1, hex⟩ | ⟨m, h1, hmin⟩
    · rw [if_pos h1]; exact ⟨hP, hex⟩
    · rw [if_neg (by rw [h1]; omega), h1, Int.toNat_ofNat]
      obtain ⟨a, b⟩ := iteration_count g st m (adjRange g m) hl hmin
      exact ih _ (hstep st m _ hP hl hmin (List.Perm.refl _)) a (by omega)


theorem wrap32_eq (x : Int) (h1 : -2147483648 ≤ x) (h2 : x < 2147483648) : wrap32 x = x := by
  unfold wrap32; omega

theorem getD_initState (n s : Nat) (v : Nat) (hv : v < n) :
    (initState n s).distances.getD v 0 = if v = s then 0 else INF := by
  simp only [initState]
  rw [getD_set]
  by_cases h : s = v
  · subst h; simp [hv]
  · rw [if_neg (by simp [h]), if_neg (fun e => h e.symm)]
    rw [List.getD_eq_getElem _ _ (by simpa using hv)]
    simp

theorem visited_initState (n s : Nat) (v : Nat) :
    (initState n s).visited.getD v false = false := by
  simp only [initState]
  by_cases hv : v < n
  · rw [List.getD_eq_getElem _ _ (by simpa using hv)]; simp
  · rw [List.getD_eq_default _ _ (by simpa using hv)]

theorem inv_initState (g : CSRGraph) (s : Nat) (hs : s < g.num_nodes) :
    Inv g s (initState g.num_nodes s) := by
  refine ⟨by simp [initState], by simp [initState], ?_, ?_, ?_, ?_, ?_⟩
  · intro v hv
    rw [getD_initState _ _ v hv]
    split_ifs <;> simp [INF]
  · rw [getD_initState _ _ s hs]; simp
  · intro u _ x _ hu; rw [visited_initState] at hu; cases hu
  · intro u _ hu; rw [visited_initState] at hu; cases hu
  · intro v hv hne hlt
    rw [getD_initState _ _ v hv, if_neg hne] at hlt
    exact absurd hlt (lt_irrefl _)

/-- The invariant is kept by an outer iteration that picks any legitimate minimum `m`
and relaxes the adjacency entries of `m` in any order `js`. -/
theorem inv_step (g : CSRGraph) (hg : GraphOK g) (s : Nat) (st : State) (m : Nat)
    (js : List Nat) (hI : Inv g s st) (hm : IsMin st g.num_nodes m)
    (hjs : js.Perm (adjRange g m)) :
    Inv g s (js.foldl (relaxStep g m) (markVisited st m)) := by
  obtain ⟨iL, iV, iB, iS, iO, iT, iW⟩ := hI
  obtain ⟨hmn, hmv, hmd, hmin⟩ := hm
  have hv1 : (markVisited st m).visited.getD m false = true := by
    simp only [markVisited]
    rw [getD_set_eq _ _ _ _ (by rw [iV]; exact hmn)]
  obtain ⟨r1, r2, r3, r4, r5⟩ := relax_fold g m (markVisited st m) hv1 js
  generalize js.foldl (relaxStep g m) (markVisited st m) = st' at r1 r2 r3 r4 r5
  have hd1 : (markVisited st m).distances = st.distances := rfl
  rw [hd1] at r2 r3 r4 r5
  have hvis : ∀ x, (markVisited st m).visited.getD x false =
      if m = x then true else st.visited.getD x false := by
    intro x
    simp only [markVisited]
    rw [getD_set]
    by_cases h : m = x
    · subst h; rw [if_pos ⟨rfl, by rw [iV]; exact hmn⟩, if_pos rfl]
    · rw [if_neg (fun e => h e.1), if_neg h]
  have hjmem : ∀ j, j ∈ js ↔ j ∈ adjRange g m := fun j => hjs.mem_iff
  have hwrap : ∀ j ∈ js, wrap32 (st.distances.getD m 0 + g.weights.getD j 0) =
      st.distances.getD m 0 + g.weights.getD j 0 := by
    intro j hj
    obtain ⟨_, w1, w2⟩ := hg m hmn j ((hjmem j).1 hj)
    have := iB m hmn
    apply wrap32_eq <;> simp only [MAXW, INF] at * <;> omega
  have hsame : ∀ x, (markVisited st m).visited.getD x false = true →
      st'.distances.getD x 0 = st.distances.getD x 0 := by
    intro x hx
    rcases r4 x with h | ⟨h, _⟩
    · exact h
    · rw [hx] at h; cases h
  -- a visited vertex of the new state is at most as far as `m`
  have hle_m : ∀ u, u < g.num_nodes → (markVisited st m).visited.getD u false = true →
      st.distances.getD u 0 ≤ st.distances.getD m 0 := by
    intro u hu hvu
    rw [hvis] at hvu
    by_cases h : m = u
    · subst h; exact le_refl _
    · rw [if_neg h] at hvu
      exact iO u hu m hmn hvu hmv
  refine ⟨by rw [r2]; exact iL, by rw [r1]; simp [markVisited, iV], ?_, ?_, ?_, ?_, ?_⟩
  · intro v hv
    have b := iB v hv
    have c := r3 v
    rcases r4 v with h | ⟨_, j, hj, _, h⟩
    · rw [h]; exact b
    · rw [hwrap j hj] at h
      obtain ⟨_, w1, _⟩ := hg m hmn j ((hjmem j).1 hj)
      have := iB m hmn
      constructor <;> omega
  · rcases r4 s with h | ⟨_, j, hj, _, h⟩
    · rw [h]; exact iS
    · rw [hwrap j hj] at h
      obtain ⟨_, w1, _⟩ := hg m hmn j ((hjmem j).1 hj)
      have := iB m hmn
      have := r3 s
      omega
  · intro u hu x hx hvu hvx
    rw [r1] at hvu hvx
    rw [hsame u hvu]
    have a := hle_m u hu hvu
    rw [hvis] at hvx
    have hxm : ¬ m = x := by
      intro h; rw [if_pos h] at hvx; cases hvx
    rw [if_neg hxm] at hvx
    have b := hmin x hx hvx
    rcases r4 x with h | ⟨_, j, hj, _, h⟩
    · rw [h]; omega
    · rw [hwrap j hj] at h
      obtain ⟨_, w1, _⟩ := hg m hmn j ((hjmem j).1 hj)
      omega
  · intro u hu hvu j hj
    rw [r1] at hvu
    rw [hsame u hvu]
    obtain ⟨c1, w1, _⟩ := hg u hu j hj
    by_cases hum : m = u
    · subst hum
      have hjj : j ∈ js := (hjmem j).2 hj
      by_cases hc : (markVisited st m).visited.getD (g.col_idx.getD j 0) false = true
      · have := hle_m _ c1 hc
        have := r3 (g.col_idx.getD j 0)
        omega
      · have hc' : (markVisited st m).visited.getD (g.col_idx.getD j 0) false = false := by
          simpa using hc
        have := r5 j hjj hc' (by rw [iL]; exact c1)
        rw [hwrap j hjj] at this
        exact this
    · rw [hvis, if_neg hum] at hvu
      have := iT u hu hvu j hj
      have := r3 (g.col_idx.getD j 0)
      omega
  · intro v hv hne hlt
    rcases r4 v with h | ⟨_, j, hj, hc, h⟩
    · rw [h] at hlt
      obtain ⟨u, hu, hvu, j, hj, hc, he⟩ := iW v hv hne hlt
      have hvu' : (markVisited st m).visited.getD u false = true := by
        rw [hvis]; split_ifs
        · rfl
        · exact hvu
      refine ⟨u, hu, by rw [r1]; exact hvu', j, hj, hc, ?_⟩
      rw [h, hsame u hvu']; exact he
    · refine ⟨m, hmn, by rw [r1]; exact hv1, j, (hjmem j).1 hj, hc, ?_⟩
      rw [h, hwrap j hj, hsame m hv1]


theorem final_of_inv (g : CSRGraph) (hg : GraphOK g) (s : Nat) (st : State)
    (hI : Inv g s st) (hE : Exhausted st g.num_nodes) : Final g s st.distances := by
  obtain ⟨iL, iV, iB, iS, iO, iT, iW⟩ := hI
  refine ⟨iL, iB, iS, ?_, ?_⟩
  · intro u hu j hj
    obtain ⟨c1, w1, _⟩ := hg u hu j hj
    by_cases hv : st.visited.getD u false = true
    · exact iT u hu hv j hj
    · have hv' : st.visited.getD u false = false := by
        cases h : st.visited.getD u false with
        | true => exact absurd h hv
        | false => rfl
      have := hE u hu hv'
      have := (iB _ c1).2
      omega
  · intro v hv hne hlt
    obtain ⟨u, hu, _, j, hj, hc, he⟩ := iW v hv hne hlt
    exact ⟨u, hu, j, hj, hc, he⟩

/-- Lower half of uniqueness: a solution of the capped equations is below any other. -/
theorem final_le (g : CSRGraph) (hg : GraphOK g) (s : Nat) (d1 d2 : List Int)
    (h1 : Final g s d1) (h2 : Final g s d2) :
    ∀ N : Nat, ∀ v, v < g.num_nodes → d2.getD v 0 ≤ N → d1.getD v 0 ≤ d2.getD v 0 := by
  obtain ⟨_, b1, s1, t1, _⟩ := h1
  obtain ⟨_, b2, s2, _, w2⟩ := h2
  intro N
  induction N with
  | zero =>
    intro v hv hN
    by_cases hvs : v = s
    · subst hvs; rw [s1, s2]
    · have hb := b2 v hv
      obtain ⟨u, hu, j, hj, _, he⟩ := w2 v hv hvs (by simp only [INF]; push_cast at hN; omega)
      obtain ⟨_, w1, _⟩ := hg u hu j hj
      have := b2 u hu
      push_cast at hN
      omega
  | succ N ih =>
    intro v hv hN
    by_cases hvs : v = s
    · subst hvs; rw [s1, s2]
    · by_cases hinf : d2.getD v 0 < INF
      · obtain ⟨u, hu, j, hj, hc, he⟩ := w2 v hv hvs hinf
        obtain ⟨_, w1, _⟩ := hg u hu j hj
        have a := ih u hu (by push_cast at hN; omega)
        have b := t1 u hu j hj
        rw [hc] at b
        omega
      · have := (b1 v hv).2
        omega

/-- The capped shortest path equations of a graph with positive weights have one
solution. -/
theorem final_unique (g : CSRGraph) (hg : GraphOK g) (s : Nat) (d1 d2 : List Int)
    (h1 : Final g s d1) (h2 : Final g s d2) : d1 = d2 := by
  apply List.ext_getElem (by rw [h1.1, h2.1])
  intro v hv1 hv2
  have hv : v < g.num_nodes := by rw [← h1.1]; exact hv1
  have a := final_le g hg s d1 d2 h1 h2 (d2.getD v 0).toNat v hv
    (by rw [Int.toNat_of_nonneg (h2.2.1 v hv).1])
  have b := final_le g hg s d2 d1 h2 h1 (d1.getD v 0).toNat v hv
    (by rw [Int.toNat_of_nonneg (h1.2.1 v hv).1])
  rw [List.getD_eq_getElem _ _ hv1] at a b
  rw [List.getD_eq_getElem _ _ hv2] at a b
  omega

theorem count_false_initState (n s : Nat) : (initState n s).visited.count false ≤ n := by
  have := List.count_le_length false (initState n s).visited
  simp only [initState, List.length_replicate] at this ⊢
  exact this

theorem sequential_final (g : CSRGraph) (hg : GraphOK g) (s : Nat) (hs : s < g.num_nodes) :
    Final g s (dijkstra_sequential g s) := by
  obtain ⟨a, b⟩ := seqLoop_rule g (Inv g s)
    (fun st m js hP _ hm hjs => inv_step g hg s st m js hP hm hjs)
    g.num_nodes (initState g.num_nodes s) (inv_initState g s hs) (by simp [initState])
    (count_false_initState _ _)
  exact final_of_inv g hg s _ a b


theorem mem_incident (edges : List Edge) (x v : Nat) (w : Int) :
    (v, w) ∈ incident edges x ↔ Joins edges x v w := by
  induction edges with
  | nil => simp [incident, Joins]
  | cons e es ih =>
    simp only [incident, List.mem_append, ih, Joins, List.mem_cons, exists_eq_or_imp]
    constructor
    · rintro (h | h | h)
      · by_cases hs : e.src = x
        · rw [if_pos hs] at h
          simp only [List.mem_singleton, Prod.mk.injEq] at h
          exact Or.inl ⟨h.2.symm, Or.inl ⟨hs, h.1.symm⟩⟩
        · rw [if_neg hs] at h; cases h
      · by_cases hd : e.dest = x
        · rw [if_pos hd] at h
          simp only [List.mem_singleton, Prod.mk.injEq] at h
          exact Or.inl ⟨h.2.symm, Or.inr ⟨h.1.symm, hd⟩⟩
        · rw [if_neg hd] at h; cases h
      · exact Or.inr h
    · rintro (⟨hw, ⟨hs, hd⟩ | ⟨hs, hd⟩⟩ | h)
      · left; rw [if_pos hs]; simp [hd, hw]
      · right; left; rw [if_pos hd]; simp [hs, hw]
      · right; right; exact h

theorem adjacency_eq_map (g : CSRGraph) (x : Nat) :
    adjacency g x = (adjRange g x).map (fun j => (g.col_idx.getD j 0, g.weights.getD j 0)) :=
  rfl

/-- The adjacency entries of a vertex of the built graph are the lines of the edge list
at that vertex. -/
theorem entry_iff_joins (n : Nat) (edges : List Edge) (hr : InRange n edges) (u : Nat)
    (hu : u < n) (v : Nat) (w : Int) :
    (∃ j ∈ adjRange (create_csr_graph n edges) u,
      (create_csr_graph n edges).col_idx.getD j 0 = v ∧
      (create_csr_graph n edges).weights.getD j 0 = w) ↔ Joins edges u v w := by
  rw [← mem_incident, ← adjacency_create n edges hr u hu, adjacency_eq_map, List.mem_map]
  constructor
  · rintro ⟨j, hj, a, b⟩
    exact ⟨j, hj, by rw [a, b]⟩
  · rintro ⟨j, hj, h⟩
    simp only [Prod.mk.injEq] at h
    exact ⟨j, hj, h.1, h.2⟩

theorem joins_lt (n : Nat) (edges : List Edge) (hr : InRange n edges) (u v : Nat) (w : Int)
    (h : Joins edges u v w) : u < n ∧ v < n := by
  obtain ⟨e, he, _, ⟨a, b⟩ | ⟨a, b⟩⟩ := h
  · rw [← a, ← b]; exact hr e he
  · rw [← a, ← b]; exact ⟨(hr e he).2, (hr e he).1⟩

theorem graphOK_create (n : Nat) (edges : List Edge) (hr : InRange n edges)
    (hw : ∀ e ∈ edges, 1 ≤ e.weight ∧ e.weight ≤ MAXW) :
    GraphOK (create_csr_graph n edges) := by
  intro u hu j hj
  have hu' : u < n := hu
  have hJ := (entry_iff_joins n edges hr u hu' _ _).1 ⟨j, hj, rfl, rfl⟩
  have hlt := joins_lt n edges hr _ _ _ hJ
  obtain ⟨e, he, hwe, _⟩ := hJ
  have := hw e he
  rw [hwe] at this
  exact ⟨hlt.2, this.1, this.2⟩


theorem sum_filter_mono (edges : List Edge) (hpos : ∀ a ∈ edges, 0 ≤ a.weight)
    (P Q : Edge → Bool) (hPQ : ∀ a ∈ edges, P a = true → Q a = true) :
    0 ≤ ((edges.filter P).map (fun a => a.weight)).sum ∧
    ((edges.filter P).map (fun a => a.weight)).sum ≤
      ((edges.filter Q).map (fun a => a.weight)).sum := by
  induction edges with
  | nil => simp
  | cons x xs ih =>
    obtain ⟨i1, i2⟩ := ih (fun a ha => hpos a (by simp [ha]))
      (fun a ha => hPQ a (by simp [ha]))
    have hx := hpos x (by simp)
    have hxPQ := hPQ x (by simp)
    cases hp : P x <;> cases hq : Q x <;>
      simp only [List.filter_cons, hp, hq, if_true, if_false, Bool.false_eq_true,
        List.map_cons, List.sum_cons]
    · exact ⟨i1, i2⟩
    · exact ⟨i1, by omega⟩
    · rw [hp] at hxPQ; rw [hxPQ rfl] at hq; cases hq
    · exact ⟨by omega, by omega⟩

theorem sum_filter_add (edges : List Edge) (hpos : ∀ a ∈ edges, 0 ≤ a.weight)
    (P Q : Edge → Bool) (hPQ : ∀ a ∈ edges, P a = true → Q a = true) (e : Edge)
    (he : e ∈ edges) (hQ : Q e = true) (hP : P e = false) :
    ((edges.filter P).map (fun a => a.weight)).sum + e.weight ≤
      ((edges.filter Q).map (fun a => a.weight)).sum := by
  induction edges with
  | nil => cases he
  | cons x xs ih =>
    have hpos' : ∀ a ∈ xs, 0 ≤ a.weight := fun a ha => hpos a (by simp [ha])
    have hPQ' : ∀ a ∈ xs, P a = true → Q a = true := fun a ha => hPQ a (by simp [ha])
    have hx := hpos x (by simp)
    have hxPQ := hPQ x (by simp)
    obtain ⟨_, m2⟩ := sum_filter_mono xs hpos' P Q hPQ'
    rcases List.mem_cons.1 he with h | h
    · subst h
      simp only [List.filter_cons, hP, hQ, if_true, if_false, Bool.false_eq_true,
        List.map_cons, List.sum_cons]
      omega
    · have i := ih hpos' hPQ' h
      cases hp : P x <;> cases hq : Q x <;>
        simp only [List.filter_cons, hp, hq, if_true, if_false, Bool.false_eq_true,
          List.map_cons, List.sum_cons]
      · exact i
      · omega
      · rw [hp] at hxPQ; rw [hxPQ rfl] at hq; cases hq
      · omega

/-- The solution of the capped equations, read on the edge list the graph was built
from. -/
theorem final_edges (n : Nat) (edges : List Edge) (hr : InRange n edges) (s : Nat)
    (dist : List Int) (hF : Final (create_csr_graph n edges) s dist) :
    (∀ u v w, Joins edges u v w → dist.getD v 0 ≤ dist.getD u 0 + w) ∧
    (∀ v, v < n → v ≠ s → dist.getD v 0 < INF →
      ∃ u w, Joins edges u v w ∧ dist.getD v 0 = dist.getD u 0 + w) := by
  obtain ⟨_, _, _, t, w⟩ := hF
  constructor
  · intro u v w' hJ
    have hu := (joins_lt n edges hr u v w' hJ).1
    obtain ⟨j, hj, a, b⟩ := (entry_iff_joins n edges hr u hu v w').2 hJ
    have := t u hu j hj
    rw [a, b] at this
    exact this
  · intro v hv hne hlt
    obtain ⟨u, hu, j, hj, hc, he⟩ := w v hv hne hlt
    exact ⟨u, _, (entry_iff_joins n edges hr u hu v _).1 ⟨j, hj, hc, rfl⟩, he⟩

theorem walk_lower (n : Nat) (edges : List Edge) (hr : InRange n edges) (s : Nat)
    (hs : s < n) (dist : List Int) (hF : Final (create_csr_graph n edges) s dist)
    (v : Nat) (vs : List Nat) (d : Int) (hW : Walk edges s v vs d) :
    v < n ∧ dist.getD v 0 ≤ d := by
  have ht := (final_edges n edges hr s dist hF).1
  induction hW with
  | start => exact ⟨hs, le_of_eq hF.2.2.1⟩
  | step _ hJ ih =>
    have := ht _ _ _ hJ
    exact ⟨(joins_lt n edges hr _ _ _ hJ).2, by omega⟩

theorem walk_attained (n : Nat) (edges : List Edge) (hr : InRange n edges)
    (hw : ∀ e ∈ edges, 1 ≤ e.weight) (s : Nat) (hs : s < n) (dist : List Int)
    (hF : Final (create_csr_graph n edges) s dist) :
    ∀ N : Nat, ∀ v, v < n → dist.getD v 0 < INF → dist.getD v 0 ≤ N →
      ∃ vs, Walk edges s v vs (dist.getD v 0) ∧ vs.Nodup ∧
        ∀ x ∈ vs, dist.getD x 0 ≤ dist.getD v 0 := by
  have hwit := (final_edges n edges hr s dist hF).2
  have hb := hF.2.1
  have hs0 := hF.2.2.1
  have key : ∀ v, v < n → dist.getD v 0 < INF →
      (∀ u, u < n → dist.getD u 0 < INF → dist.getD u 0 < dist.getD v 0 →
        ∃ vs, Walk edges s u vs (dist.getD u 0) ∧ vs.Nodup ∧
          ∀ x ∈ vs, dist.getD x 0 ≤ dist.getD u 0) →
      ∃ vs, Walk edges s v vs (dist.getD v 0) ∧ vs.Nodup ∧
        ∀ x ∈ vs, dist.getD x 0 ≤ dist.getD v 0 := by
    intro v hv hlt hrec
    by_cases hvs : v = s
    · subst hvs
      refine ⟨[v], ?_, by simp, by simp⟩
      rw [hs0]; exact Walk.start
    · obtain ⟨u, w, hJ, he⟩ := hwit v hv hvs hlt
      have hu := (joins_lt n edges hr u v w hJ).1
      have hw1 : 1 ≤ w := by
        obtain ⟨e, he', hwe, _⟩ := hJ
        rw [← hwe]; exact hw e he'
      have hbu := hb u hu
      obtain ⟨vs, hW, hnd, hall⟩ := hrec u hu (by omega) (by omega)
      refine ⟨vs ++ [v], ?_, ?_, ?_⟩
      · rw [he]; exact Walk.step hW hJ
      · rw [List.nodup_append]
        refine ⟨hnd, by simp, ?_⟩
        intro x hx hx'
        simp only [List.mem_singleton] at hx'
        subst hx'
        have := hall x hx
        omega
      · intro x hx
        rcases List.mem_append.1 hx with h | h
        · have := hall x h; omega
        · simp only [List.mem_singleton] at h; subst h; exact le_refl _
  intro N
  induction N with
  | zero =>
    intro v hv hlt hN
    apply key v hv hlt
    intro u hu _ hlt'
    have := (hb u hu).1
    push_cast at hN
    omega
  | succ N ih =>
    intro v hv hlt hN
    apply key v hv hlt
    intro u hu hu' hlt'
    exact ih u hu hu' (by push_cast at hN; omega)


/-- A distance below `INF` is paid for by lines whose two endpoints are at most that
far: it is at most the sum of their weights. -/
theorem dist_le_inner_weight (n : Nat) (edges : List Edge) (hr : InRange n edges)
    (hw : ∀ e ∈ edges, 1 ≤ e.weight) (s : Nat) (dist : List Int)
    (hF : Final (create_csr_graph n edges) s dist) :
    ∀ N : Nat, ∀ v, v < n → dist.getD v 0 < INF → dist.getD v 0 ≤ N →
      dist.getD v 0 ≤ ((edges.filter (fun a => decide (dist.getD a.src 0 ≤ dist.getD v 0) &&
        decide (dist.getD a.dest 0 ≤ dist.getD v 0))).map (fun a => a.weight)).sum := by
  have hwit := (final_edges n edges hr s dist hF).2
  have hb := hF.2.1
  have hs0 := hF.2.2.1
  have hpos : ∀ a ∈ edges, 0 ≤ a.weight := fun a ha => by have := hw a ha; omega
  have key : ∀ v, v < n → dist.getD v 0 < INF →
      (∀ u, u < n → dist.getD u 0 < INF → dist.getD u 0 < dist.getD v 0 →
        dist.getD u 0 ≤ ((edges.filter (fun a => decide (dist.getD a.src 0 ≤ dist.getD u 0) &&
          decide (dist.getD a.dest 0 ≤ dist.getD u 0))).map (fun a => a.weight)).sum) →
      dist.getD v 0 ≤ ((edges.filter (fun a => decide (dist.getD a.src 0 ≤ dist.getD v 0) &&
        decide (dist.getD a.dest 0 ≤ dist.getD v 0))).map (fun a => a.weight)).sum := by
    intro v hv hlt hrec
    by_cases hvs : v = s
    · subst hvs
      rw [hs0]
      exact (sum_filter_mono edges hpos _ _ (fun _ _ h => h)).1
    · obtain ⟨u, w, hJ, he⟩ := hwit v hv hvs hlt
      have hu := (joins_lt n edges hr u v w hJ).1
      obtain ⟨e, hem, hwe, hends⟩ := hJ
      have hw1 := hw e hem
      have hbu := hb u hu
      have i := hrec u hu (by omega) (by omega)
      have hadd := sum_filter_add edges hpos
        (fun a => decide (dist.getD a.src 0 ≤ dist.getD u 0) &&
          decide (dist.getD a.dest 0 ≤ dist.getD u 0))
        (fun a => decide (dist.getD a.src 0 ≤ dist.getD v 0) &&
          decide (dist.getD a.dest 0 ≤ dist.getD v 0))
        (by
          intro a _ ha
          simp only [Bool.and_eq_true, decide_eq_true_eq] at ha ⊢
          constructor <;> omega)
        e hem
        (by
          simp only [Bool.and_eq_true, decide_eq_true_eq]
          rcases hends with ⟨a, b⟩ | ⟨a, b⟩ <;> rw [a, b] <;> constructor <;> omega)
        (by
          rw [Bool.and_eq_false_iff]
          simp only [decide_eq_false_iff_not]
          rcases hends with ⟨a, b⟩ | ⟨a, b⟩ <;> rw [a, b]
          · right; omega
          · left; omega)
      omega
  intro N
  induction N with
  | zero =>
    intro v hv hlt hN
    apply key v hv hlt
    intro u hu _ hlt'
    have := (hb u hu).1
    push_cast at hN
    omega
  | succ N ih =>
    intro v hv hlt hN
    apply key v hv hlt
    intro u hu hu' hlt'
    exact ih u hu hu' (by push_cast at hN; omega)

/-- When all the weights together stay below `INF`, every vertex with a path to the
source ends below `INF`. -/
theorem finite_of_walk (n : Nat) (edges : List Edge) (hr : InRange n edges)
    (hw : ∀ e ∈ edges, 1 ≤ e.weight) (htot : totalWeight edges < INF) (s : Nat)
    (dist : List Int) (hF : Final (create_csr_graph n edges) s dist)
    (v : Nat) (vs : List Nat) (d : Int) (hW : Walk edges s v vs d) :
    dist.getD v 0 < INF := by
  have ht := (final_edges n edges hr s dist hF).1
  have hpos : ∀ a ∈ edges, 0 ≤ a.weight := fun a ha => by have := hw a ha; omega
  induction hW with
  | start => rw [hF.2.2.1]; simp [INF]
  | @step u v' vs' d' w _ hJ ih =>
    have htri := ht _ _ _ hJ
    have hu := (joins_lt n edges hr _ _ _ hJ).1
    by_contra hcon
    have hbu := hF.2.1 u hu
    have i := dist_le_inner_weight n edges hr hw s dist hF (dist.getD u 0).toNat u hu ih
      (by rw [Int.toNat_of_nonneg hbu.1])
    obtain ⟨e, hem, hwe, hends⟩ := hJ
    have hadd := sum_filter_add edges hpos
      (fun a => decide (dist.getD a.src 0 ≤ dist.getD u 0) &&
        decide (dist.getD a.dest 0 ≤ dist.getD u 0))
      (fun _ => true) (fun _ _ _ => rfl) e hem rfl
      (by
        rw [Bool.and_eq_false_iff]
        simp only [decide_eq_false_iff_not]
        rcases hends with ⟨a, b⟩ | ⟨a, b⟩ <;> rw [a, b]
        · right; omega
        · left; omega)
    rw [List.filter_true] at hadd
    unfold totalWeight at htot
    omega


theorem getElem?_of_length {α : Type} (l : List α) (n v : Nat) (d : α) (hl : l.length = n)
    (hv : v < n) : l[v]? = some (l.getD v d) := by
  rw [List.getElem?_eq_getElem (by omega), List.getD_eq_getElem _ _ (by omega)]

theorem visited_markVisited (st : State) (n m : Nat) (hl : st.visited.length = n)
    (hm : m < n) (x : Nat) :
    (markVisited st m).visited.getD x false =
      if m = x then true else st.visited.getD x false := by
  simp only [markVisited]
  rw [getD_set]
  by_cases h : m = x
  · subst h; rw [if_pos ⟨rfl, by rw [hl]; exact hm⟩, if_pos rfl]
  · rw [if_neg (fun e => h e.1), if_neg h]

/-- An outer iteration keeps the distance `c` of a vertex `x` that is visited, or that is
the only unvisited vertex below `INF`, whatever the graph and its weights are. -/
theorem pinned_step (g : CSRGraph) (x : Nat) (c : Int) (st : State) (m : Nat)
    (js : List Nat)
    (hP : st.distances.length = g.num_nodes ∧ st.distances.getD x 0 = c ∧
      (st.visited.getD x false = true ∨
        ∀ v, v < g.num_nodes → v ≠ x → st.visited.getD v false = false →
          INF ≤ st.distances.getD v 0))
    (hl : st.visited.length = g.num_nodes) (hm : IsMin st g.num_nodes m) :
    (js.foldl (relaxStep g m) (markVisited st m)).distances.length = g.num_nodes ∧
    (js.foldl (relaxStep g m) (markVisited st m)).distances.getD x 0 = c ∧
    ((js.foldl (relaxStep g m) (markVisited st m)).visited.getD x false = true ∨
      ∀ v, v < g.num_nodes → v ≠ x →
        (js.foldl (relaxStep g m) (markVisited st m)).visited.getD v false = false →
        INF ≤ (js.foldl (relaxStep g m) (markVisited st m)).distances.getD v 0) := by
  obtain ⟨pL, pS, pV⟩ := hP
  obtain ⟨hmn, hmv, hmd, _⟩ := hm
  have hvis := visited_markVisited st g.num_nodes m hl hmn
  have hv1 : (markVisited st m).visited.getD m false = true := by rw [hvis, if_pos rfl]
  obtain ⟨r1, r2, _, r4, _⟩ := relax_fold g m (markVisited st m) hv1 js
  have hs1 : (markVisited st m).visited.getD x false = true := by
    rw [hvis]
    by_cases h : m = x
    · rw [if_pos h]
    · rw [if_neg h]
      rcases pV with h' | h'
      · exact h'
      · have := h' m hmn h hmv; omega
  refine ⟨by rw [r2]; exact pL, ?_, Or.inl (by rw [r1]; exact hs1)⟩
  rcases r4 x with h | ⟨h, _⟩
  · rw [h]; exact pS
  · rw [hs1] at h; cases h

/-- An outer iteration only lowers the distance of vertices that have a path to the
source, whatever the weights are. -/
theorem reach_step (n : Nat) (edges : List Edge) (hr : InRange n edges) (s : Nat)
    (st : State) (m : Nat) (js : List Nat)
    (hP : st.distances.length = n ∧
      ∀ v, v < n → st.distances.getD v 0 ≠ INF → Reachable edges s v)
    (hl : st.visited.length = n) (hm : IsMin st n m)
    (hjs : js.Perm (adjRange (create_csr_graph n edges) m)) :
    (js.foldl (relaxStep (create_csr_graph n edges) m) (markVisited st m)).distances.length
      = n ∧
    ∀ v, v < n →
      (js.foldl (relaxStep (create_csr_graph n edges) m) (markVisited st m)).distances.getD v 0
        ≠ INF → Reachable edges s v := by
  obtain ⟨pL, pR⟩ := hP
  obtain ⟨hmn, hmv, hmd, _⟩ := hm
  have hvis := visited_markVisited st n m hl hmn
  have hv1 : (markVisited st m).visited.getD m false = true := by rw [hvis, if_pos rfl]
  obtain ⟨_, r2, _, r4, _⟩ := relax_fold (create_csr_graph n edges) m (markVisited st m) hv1 js
  refine ⟨by rw [r2]; exact pL, ?_⟩
  intro v hv hne
  rcases r4 v with h | ⟨_, j, hj, hc, _⟩
  · rw [h] at hne; exact pR v hv hne
  · obtain ⟨vs, d, hW⟩ := pR m hmn (by omega)
    have hJ := (entry_iff_joins n edges hr m hmn v _).1 ⟨j, hjs.mem_iff.1 hj, hc, rfl⟩
    exact ⟨_, _, Walk.step hW hJ⟩

theorem reach_initState (n : Nat) (edges : List Edge) (s : Nat) :
    (initState n s).distances.length = n ∧
      ∀ v, v < n → (initState n s).distances.getD v 0 ≠ INF → Reachable edges s v := by
  refine ⟨by simp [initState], ?_⟩
  intro v hv hne
  rw [getD_initState _ _ v hv] at hne
  by_cases h : v = s
  · subst h; exact ⟨_, _, Walk.start⟩
  · rw [if_neg h] at hne; exact absurd rfl hne

theorem seqLoop_exhausted (g : CSRGraph) (k : Nat) (st : State)
    (h : Exhausted st g.num_nodes) : seqLoop g k st = st := by
  cases k with
  | zero => rfl
  | succ k =>
    rw [seqLoop]
    simp only
    rcases scan_range_minResult st g.num_nodes with ⟨h1, _⟩ | ⟨m, _, hmn, hmv, hmd, _⟩
    · rw [if_pos h1]
    · have := h m hmn hmv; omega


theorem roundRobin_valid (T : Nat) (hT : 1 ≤ T) : (roundRobin T).Valid :=
  ⟨hT, fun b => Nat.mod_lt b (by omega), List.reverse_perm _⟩

theorem relax_adjRange (g : CSRGraph) (m : Nat) (st : State) :
    (adjRange g m).foldl (relaxStep g m) st = (adjacency g m).foldl (relaxPair m) st := by
  rw [adjacency_eq_map, List.foldl_map]
  rfl

/-- The scan of `0..k-1` returns the first unvisited index of least distance, if that
distance is below `INF`, and `(INF, -1)` otherwise. -/
theorem scan_range_first (st : State) (k : Nat) :
    (scan st (List.range k) = (INF, -1) ∧
      ∀ j, j < k → st.visited.getD j false = false → INF ≤ st.distances.getD j 0) ∨
    (∃ m, m < k ∧ scan st (List.range k) = (st.distances.getD m 0, (m : Int)) ∧
      st.visited.getD m false = false ∧ st.distances.getD m 0 < INF ∧
      (∀ j, j < k → st.visited.getD j false = false →
        st.distances.getD m 0 ≤ st.distances.getD j 0) ∧
      (∀ j, j < m → st.visited.getD j false = false →
        st.distances.getD m 0 < st.distances.getD j 0)) := by
  induction k with
  | zero => left; exact ⟨rfl, fun j hj => by omega⟩
  | succ k ih =>
    have hs : scan st (List.range (k + 1)) = scanStep st (scan st (List.range k)) k := by
      simp [scan, List.range_succ, List.foldl_append]
    rw [hs]
    by_cases hv : st.visited.getD k false = false
    · rcases ih with ⟨h1, h2⟩ | ⟨m, hm, h1, h2, h3, h4, h5⟩
      · rw [h1]
        by_cases hd : st.distances.getD k 0 < INF
        · right
          refine ⟨k, by omega, ?_, hv, hd, ?_, ?_⟩
          · unfold scanStep
            rw [if_pos (by
              simp only [hv, Bool.not_false, Bool.true_and, decide_eq_true_eq]; exact hd)]
          · intro j hj hjv
            by_cases hjk : j = k
            · subst hjk; exact le_refl _
            · have := h2 j (by omega) hjv; omega
          · intro j hj hjv
            have := h2 j hj hjv; omega
        · left
          refine ⟨?_, ?_⟩
          · unfold scanStep
            rw [if_neg (by
              simp only [hv, Bool.not_false, Bool.true_and, decide_eq_true_eq]; exact hd)]
          · intro j hj hjv
            by_cases hjk : j = k
            · subst hjk; omega
            · exact h2 j (by omega) hjv
      · rw [h1]
        right
        by_cases hd : st.distances.getD k 0 < st.distances.getD m 0
        · refine ⟨k, by omega, ?_, hv, by omega, ?_, ?_⟩
          · unfold scanStep
            rw [if_pos (by
              simp only [hv, Bool.not_false, Bool.true_and, decide_eq_true_eq]; exact hd)]
          · intro j hj hjv
            by_cases hjk : j = k
            · subst hjk; exact le_refl _
            · have := h4 j (by omega) hjv; omega
          · intro j hj hjv
            have := h4 j hj hjv; omega
        · refine ⟨m, by omega, ?_, h2, h3, ?_, h5⟩
          · unfold scanStep
            rw [if_neg (by
              simp only [hv, Bool.not_false, Bool.true_and, decide_eq_true_eq]; exact hd)]
          · intro j hj hjv
            by_cases hjk : j = k
            · subst hjk; omega
            · exact h4 j (by omega) hjv
    · have hv' : st.visited.getD k false = true := by
        cases h : st.visited.getD k false with
        | true => rfl
        | false => exact absurd h hv
      have hstep : ∀ r, scanStep st r k = r := by
        intro r
        unfold scanStep
        rw [if_neg (by
          simp only [hv', Bool.not_true, Bool.false_and, Bool.false_eq_true,
            not_false_eq_true])]
      rw [hstep]
      rcases ih with ⟨h1, h2⟩ | ⟨m, hm, h1, h2, h3, h4, h5⟩
      · left
        refine ⟨h1, ?_⟩
        intro j hj hjv
        by_cases hjk : j = k
        · subst hjk; rw [hv'] at hjv; cases hjv
        · exact h2 j (by omega) hjv
      · right
        refine ⟨m, by omega, h1, h2, h3, ?_, h5⟩
        intro j hj hjv
        by_cases hjk : j = k
        · subst hjk; rw [hv'] at hjv; cases hjv
        · exact h4 j (by omega) hjv

/-- The scan of `0..k-1` on a tracked state returns the first unvisited index of least
distance. -/
theorem scan_range_eq (st : State) (n : Nat) (f : Nat → Int) (b : Nat → Bool)
    (ht : Tracks st n f b) (k : Nat) (hk : k ≤ n) (m : Nat) (hm : m < k)
    (hb : b m = false) (hf : f m < INF)
    (hmin : ∀ j, j < k → b j = false → f m ≤ f j)
    (hfirst : ∀ j, j < m → b j = false → f m < f j) :
    scan st (List.range k) = (f m, (m : Int)) := by
  obtain ⟨_, _, hp⟩ := ht
  have hd : ∀ j, j < k → st.distances.getD j 0 = f j := fun j hj => (hp j (by omega)).1
  have hvv : ∀ j, j < k → st.visited.getD j false = b j := fun j hj => (hp j (by omega)).2
  rcases scan_range_first st k with ⟨_, h2⟩ | ⟨m', hm', h1, h2, h3, h4, h5⟩
  · have := h2 m hm (by rw [hvv m hm]; exact hb)
    rw [hd m hm] at this
    omega
  · have a := h4 m hm (by rw [hvv m hm]; exact hb)
    have c := hmin m' hm' (by rw [← hvv m' hm']; exact h2)
    rw [hd m' hm', hd m hm] at a
    have hmm : m' = m := by
      rcases Nat.lt_trichotomy m' m with h | h | h
      · have := hfirst m' h (by rw [← hvv m' hm']; exact h2); omega
      · exact h
      · have := h5 m h (by rw [hvv m hm]; exact hb)
        rw [hd m' hm', hd m hm] at this
        omega
    rw [h1, hmm, hd m hm]

theorem tracks_initState (n s : Nat) :
    Tracks (initState n s) n (fun j => if j = s then 0 else INF) (fun _ => false) := by
  refine ⟨by simp [initState], by simp [initState], ?_⟩
  intro j hj
  exact ⟨getD_initState n s j hj, visited_initState n s j⟩

theorem tracks_markVisited (st : State) (n : Nat) (f : Nat → Int) (b : Nat → Bool)
    (ht : Tracks st n f b) (m : Nat) (hm : m < n) :
    Tracks (markVisited st m) n f (fun j => if m = j then true else b j) := by
  obtain ⟨h1, h2, h3⟩ := ht
  refine ⟨h1, by simp [markVisited, h2], ?_⟩
  intro j hj
  refine ⟨(h3 j hj).1, ?_⟩
  rw [visited_markVisited st n m h2 hm, (h3 j hj).2]

theorem tracks_relaxPair (st : State) (n : Nat) (f : Nat → Int) (b : Nat → Bool)
    (ht : Tracks st n f b) (m : Nat) (hm : m < n) (p : Nat × Int) (hp : p.1 < n) :
    Tracks (relaxPair m st p) n
      (fun j => if p.1 = j ∧ b p.1 = false ∧ wrap32 (f m + p.2) < f p.1 then
        wrap32 (f m + p.2) else f j) b := by
  obtain ⟨h1, h2, h3⟩ := ht
  unfold relaxPair
  rw [(h3 p.1 hp).2, (h3 p.1 hp).1, (h3 m hm).1]
  by_cases hb : b p.1 = false
  · by_cases hlt : wrap32 (f m + p.2) < f p.1
    · rw [if_pos (by rw [hb]; rfl)]
      simp only
      rw [if_pos hlt]
      refine ⟨by simp [h1], h2, ?_⟩
      intro j hj
      simp only
      refine ⟨?_, (h3 j hj).2⟩
      rw [getD_set, h1]
      by_cases hj' : p.1 = j
      · rw [if_pos ⟨hj', hp⟩, if_pos ⟨hj', hb, hlt⟩]
      · rw [if_neg (fun h => hj' h.1), if_neg (fun h => hj' h.1)]
        exact (h3 j hj).1
    · rw [if_pos (by rw [hb]; rfl)]
      simp only
      rw [if_neg hlt]
      refine ⟨h1, h2, ?_⟩
      intro j hj
      simp only
      rw [if_neg (fun h => hlt h.2.2)]
      exact h3 j hj
  · have hb' : b p.1 = true := by
      cases h : b p.1 with
      | true => rfl
      | false => exact absurd h hb
    rw [if_neg (by rw [hb']; simp)]
    refine ⟨h1, h2, ?_⟩
    intro j hj
    simp only
    rw [if_neg (fun h => hb h.2.1)]
    exact h3 j hj

theorem tracks_congr (st : State) (n : Nat) (f f' : Nat → Int) (b b' : Nat → Bool)
    (ht : Tracks st n f b) (hf : ∀ j, j < n → f j = f' j) (hb : ∀ j, j < n → b j = b' j) :
    Tracks st n f' b' := by
  obtain ⟨h1, h2, h3⟩ := ht
  refine ⟨h1, h2, ?_⟩
  intro j hj
  rw [← hf j hj, ← hb j hj]
  exact h3 j hj


/-- Loop rule of `dijkstra_sequential` without the count of iterations: a property kept by
every outer iteration holds when the loop ends. -/
theorem seqLoop_keeps (g : CSRGraph) (P : State → Prop)
    (hstep : ∀ (st : State) (m : Nat) (js : List Nat), P st →
      st.visited.length = g.num_nodes → IsMin st g.num_nodes m →
      js.Perm (adjRange g m) → P (js.foldl (relaxStep g m) (markVisited st m))) :
    ∀ k st, P st → st.visited.length = g.num_nodes → P (seqLoop g k st) := by
  intro k
  induction k with
  | zero => intro st hP _; exact hP
  | succ k ih =>
    intro st hP hl
    rw [seqLoop]
    simp only
    rcases scan_range_minResult st g.num_nodes with ⟨h1, _⟩ | ⟨m, h1, hmin⟩
    · rw [if_pos h1]; exact hP
    · rw [if_neg (by rw [h1]; omega), h1, Int.toNat_ofNat]
      exact ih _ (hstep st m _ hP hl hmin (List.Perm.refl _))
        (iteration_count g st m (adjRange g m) hl hmin).1

theorem seqLoop_iter (g : CSRGraph) (k : Nat) (st : State) (d : Int) (m : Nat)
    (h : scan st (List.range g.num_nodes) = (d, (m : Int))) :
    seqLoop g (k + 1) st =
      seqLoop g k ((adjacency g m).foldl (relaxPair m) (markVisited st m)) := by
  rw [seqLoop]
  simp only
  rw [h]
  simp only
  rw [if_neg (by omega), Int.toNat_ofNat, relax_adjRange]

theorem overflowEdges_inRange : InRange 1025 overflowEdges := by decide

theorem overflow_adjacency :
    adjacency (create_csr_graph 1025 overflowEdges) 0 = [(1, 5), (1024, 5)] ∧
    adjacency (create_csr_graph 1025 overflowEdges) 1 = [(0, 5), (1024, 2147483647)] := by
  rw [adjacency_create 1025 overflowEdges overflowEdges_inRange 0 (by omega),
    adjacency_create 1025 overflowEdges overflowEdges_inRange 1 (by omega)]
  decide

/-- The state of both solvers on `overflowEdges` after the source has been chosen and
its two entries relaxed, in either order. -/
theorem overflow_first_iteration (st : State)
    (ht : Tracks st 1025 (fun j => if j = 0 then 0 else INF) (fun _ => false)) :
    Tracks (relaxPair 0 (relaxPair 0 (markVisited st 0) (1, 5)) (1024, 5)) 1025
      (fun j => if j = 0 then 0 else if j = 1 then 5 else if j = 1024 then 5 else INF)
      (fun j => decide (j = 0)) ∧
    Tracks (relaxPair 0 (relaxPair 0 (markVisited st 0) (1024, 5)) (1, 5)) 1025
      (fun j => if j = 0 then 0 else if j = 1 then 5 else if j = 1024 then 5 else INF)
      (fun j => decide (j = 0)) := by
  have t0 := tracks_markVisited st 1025 _ _ ht 0 (by omega)
  constructor
  · have t1 := tracks_relaxPair _ 1025 _ _ t0 0 (by omega) (1, 5) (by simp)
    have t2 := tracks_relaxPair _ 1025 _ _ t1 0 (by omega) (1024, 5) (by simp)
    refine tracks_congr _ 1025 _ _ _ _ t2 ?_ ?_
    · intro j hj
      by_cases h0 : j = 0
      · subst h0; simp [wrap32, INF]
      · by_cases h1 : j = 1
        · subst h1; simp [wrap32, INF]
        · by_cases h2 : j = 1024
          · subst h2; simp [wrap32, INF]
          · have e1 : ¬ 1 = j := fun h => h1 h.symm
            have e2 : ¬ 1024 = j := fun h => h2 h.symm
            simp [h0, h1, h2, e1, e2]
    · intro j hj
      by_cases h0 : j = 0
      · subst h0; simp
      · have : ¬ 0 = j := fun h => h0 h.symm
        simp [h0, this]
  · have t1 := tracks_relaxPair _ 1025 _ _ t0 0 (by omega) (1024, 5) (by simp)
    have t2 := tracks_relaxPair _ 1025 _ _ t1 0 (by omega) (1, 5) (by simp)
    refine tracks_congr _ 1025 _ _ _ _ t2 ?_ ?_
    · intro j hj
      by_cases h0 : j = 0
      · subst h0; simp [wrap32, INF]
      · by_cases h1 : j = 1
        · subst h1; simp [wrap32, INF]
        · by_cases h2 : j = 1024
          · subst h2; simp [wrap32, INF]
          · have e1 : ¬ 1 = j := fun h => h1 h.symm
            have e2 : ¬ 1024 = j := fun h => h2 h.symm
            simp [h0, h1, h2, e1, e2]
    · intro j hj
      by_cases h0 : j = 0
      · subst h0; simp
      · have : ¬ 0 = j := fun h => h0 h.symm
        simp [h0, this]


/-- With two workers and 1025 vertices, worker 1 scans index 1024 alone and enters the
critical section first; worker 0 scans `0..1023`. -/
theorem parallelMin_two_workers (st : State) :
    parallelMin (roundRobin 2) st 1025 =
      combineStep (roundRobin 2) st 1025 (combineStep (roundRobin 2) st 1025 (INF, -1) 1) 0 ∧
    localMin (roundRobin 2) st 1025 1 = scanStep st (INF, -1) 1024 ∧
    localMin (roundRobin 2) st 1025 0 = scan st (List.range 1024) := by
  have hsplit : List.range 1025 = List.range 1024 ++ [1024] := List.range_succ 1024
  refine ⟨?_, ?_, ?_⟩
  · have hc : (roundRobin 2).combine = [1, 0] := by decide
    unfold parallelMin
    rw [hc]
    simp only [List.foldl_cons, List.foldl_nil]
  · unfold localMin workerIndices
    rw [hsplit, List.filter_append]
    have h1 : (List.range 1024).filter (fun i => (roundRobin 2).owner (i / 1024) = 1) = [] := by
      rw [List.filter_eq_nil_iff]
      intro i hi
      have hi' : i < 1024 := List.mem_range.1 hi
      simp only [roundRobin, decide_eq_true_eq]
      omega
    rw [h1]
    rfl
  · unfold localMin workerIndices
    rw [hsplit, List.filter_append]
    have h1 : (List.range 1024).filter (fun i => (roundRobin 2).owner (i / 1024) = 0) =
        List.range 1024 := by
      rw [List.filter_eq_self]
      intro i hi
      have hi' : i < 1024 := List.mem_range.1 hi
      simp only [roundRobin, decide_eq_true_eq]
      omega
    rw [h1]
    simp [roundRobin]

/-- The rest of a sequential run from a state in which vertex `x` at distance `c` is
visited or is the only unvisited vertex below `INF`: the loop leaves
`distances[x] = c`. -/
theorem pinned_run (g : CSRGraph) (x : Nat) (c : Int) (st : State)
    (hl : st.distances.length = g.num_nodes) (hv : st.visited.length = g.num_nodes)
    (hx : st.distances.getD x 0 = c)
    (hP : st.visited.getD x false = true ∨
      ∀ v, v < g.num_nodes → v ≠ x → st.visited.getD v false = false →
        INF ≤ st.distances.getD v 0) :
    ∀ k, (seqLoop g k st).distances.getD x 0 = c := by
  intro k
  exact (seqLoop_keeps g _ (fun st m js hP hl hm _ => pinned_step g x c st m js hP hl hm)
    k st ⟨hl, hx, hP⟩ hv).2.1

theorem overflow_scan_second (st1 : State) (t1 : Tracks st1 1025
        (fun j => if j = 0 then 0 else if j = 1 then 5 else if j = 1024 then 5 else INF)
        (fun j => decide (j = 0))) : scan st1 (List.range 1025) = (5, ((1 : Nat) : Int)) := by
  have := scan_range_eq _ 1025 _ _ t1 1025 (le_refl _) 1 (by omega) (by simp)
    (by simp [INF])
    (by
      intro j _ hb
      have h0 : j ≠ 0 := by simpa using hb
      simp only [h0, if_false]
      split_ifs <;> simp [INF])
    (by
      intro j hj hb
      have h0 : j ≠ 0 := by simpa using hb
      omega)
  simpa using this

theorem overflow_second_iteration (st1 : State) (t1 : Tracks st1 1025
        (fun j => if j = 0 then 0 else if j = 1 then 5 else if j = 1024 then 5 else INF)
        (fun j => decide (j = 0))) :
      Tracks (relaxPair 1 (relaxPair 1 (markVisited st1 1) (0, 5)) (1024, 2147483647)) 1025
        (fun j => if j = 0 then 0 else if j = 1 then 5 else
          if j = 1024 then -2147483644 else INF)
        (fun j => decide (j = 0 ∨ j = 1)) := by
    have t := tracks_relaxPair _ 1025 _ _
      (tracks_relaxPair _ 1025 _ _ (tracks_markVisited st1 1025 _ _ t1 1 (by omega))
        1 (by omega) (0, 5) (by simp)) 1 (by omega) (1024, 2147483647) (by simp)
    refine tracks_congr _ 1025 _ _ _ _ t ?_ ?_
    · intro j hj
      by_cases h0 : j = 0
      · subst h0; simp [wrap32, INF]
      · by_cases h1 : j = 1
        · subst h1; simp [wrap32, INF]
        · by_cases h2 : j = 1024
          · subst h2; simp [wrap32, INF]
          · have e0 : ¬ 0 = j := fun h => h0 h.symm
            have e2 : ¬ 1024 = j := fun h => h2 h.symm
            simp [h0, h1, h2, e0, e2]
    · intro j hj
      by_cases h0 : j = 0
      · subst h0; simp
      · by_cases h1 : j = 1
        · subst h1; simp
        · have e1 : ¬ 1 = j := fun h => h1 h.symm
          simp [h0, h1, e1]


theorem overflow_seqLoop_second (st1 : State) (t1 : Tracks st1 1025
        (fun j => if j = 0 then 0 else if j = 1 then 5 else if j = 1024 then 5 else INF)
        (fun j => decide (j = 0))) :
    seqLoop (create_csr_graph 1025 overflowEdges) 1024 st1 =
    seqLoop (create_csr_graph 1025 overflowEdges) 1023
      (relaxPair 1 (relaxPair 1 (markVisited st1 1) (0, 5)) (1024, 2147483647)) := by
  have e2 := seqLoop_iter (create_csr_graph 1025 overflowEdges) 1023 st1 5 1 (overflow_scan_second st1 t1)
  rw [overflow_adjacency.2] at e2
  simp only [List.foldl_cons, List.foldl_nil] at e2
  exact e2


theorem dijkstra_sequential_eq (g : CSRGraph) (s : Nat) :
    dijkstra_sequential g s = (seqLoop g g.num_nodes (initState g.num_nodes s)).distances :=
  rfl

theorem num_nodes_create (n : Nat) (edges : List Edge) :
    (create_csr_graph n edges).num_nodes = n := rfl

theorem overflow_scan_first : scan (initState 1025 0) (List.range 1025) = (0, ((0 : Nat) : Int)) := by
  have t0 := tracks_initState 1025 0
  have := scan_range_eq _ 1025 _ _ t0 1025 (le_refl _) 0 (by omega) rfl (by simp [INF])
    (by intro j _ _; simp only; split_ifs <;> simp [INF])
    (by intro j hj; omega)
  simpa using this

theorem overflow_seqLoop_first : seqLoop (create_csr_graph 1025 overflowEdges) 1025 (initState 1025 0) =
    seqLoop (create_csr_graph 1025 overflowEdges) 1024
      (relaxPair 0 (relaxPair 0 (markVisited (initState 1025 0) 0) (1, 5)) (1024, 5)) := by
  have e1 := seqLoop_iter (create_csr_graph 1025 overflowEdges) 1024 (initState 1025 0)
      0 0 overflow_scan_first
  rw [overflow_adjacency.1] at e1
  simp only [List.foldl_cons, List.foldl_nil] at e1
  exact e1

theorem overflow_sequential :
    (dijkstra_sequential (create_csr_graph 1025 overflowEdges) 0).getD 1024 0 =
      -2147483644 := by
  have t1 := (overflow_first_iteration _ (tracks_initState 1025 0)).1
  have t2 := overflow_second_iteration _ t1
  rw [dijkstra_sequential_eq, num_nodes_create, overflow_seqLoop_first, overflow_seqLoop_second _ t1]
  refine pinned_run (create_csr_graph 1025 overflowEdges) 1024 (-2147483644) _ t2.1 t2.2.1
    ?_ (Or.inr ?_) 1023
  · rw [(t2.2.2 1024 (by omega)).1]; simp
  · intro v hv hne hvis
    have hv' : v < 1025 := hv
    rw [(t2.2.2 v hv').2] at hvis
    rw [(t2.2.2 v hv').1]
    have h01 : ¬ (v = 0 ∨ v = 1) := by simpa using hvis
    have h0 : v ≠ 0 := fun h => h01 (Or.inl h)
    have h1 : v ≠ 1 := fun h => h01 (Or.inr h)
    simp [h0, h1, hne]

/-- The parallel minimum search of two workers on a tracked state of 1025 vertices. -/
theorem parallelMin_two_tracked (st : State) (f : Nat → Int) (b : Nat → Bool)
    (ht : Tracks st 1025 f b) (r : Int × Int) (h0 : scan st (List.range 1024) = r) :
    parallelMin (roundRobin 2) st 1025 =
      if b 1024 = false ∧ f 1024 < INF then
        (if r.1 < f 1024 then r else (f 1024, ((1024 : Nat) : Int)))
      else (if r.1 < INF then r else (INF, -1)) := by
  obtain ⟨e, e1, e0⟩ := parallelMin_two_workers st
  rw [e]
  unfold combineStep
  rw [e1, e0, h0]
  unfold scanStep
  rw [(ht.2.2 1024 (by omega)).1, (ht.2.2 1024 (by omega)).2]
  by_cases hc : b 1024 = false ∧ f 1024 < INF
  · rw [if_pos hc]
    have hc' : (!b 1024 && decide (f 1024 < (INF, (-1 : Int)).1)) = true := by
      simp only [hc.1, Bool.not_false, Bool.true_and, decide_eq_true_eq]; exact hc.2
    rw [if_pos hc']
    simp only
    rw [if_pos hc.2]
  · rw [if_neg hc]
    have hc' : ¬ (!b 1024 && decide (f 1024 < (INF, (-1 : Int)).1)) = true := by
      intro h
      simp only [Bool.and_eq_true, Bool.not_eq_true', decide_eq_true_eq] at h
      exact hc h
    rw [if_neg hc']
    simp only
    rw [if_neg (lt_irrefl _)]

theorem overflow_parallelMin_first : parallelMin (roundRobin 2) (initState 1025 0) 1025 = (0, ((0 : Nat) : Int)) := by
  have t0 := tracks_initState 1025 0
  have s0 : scan (initState 1025 0) (List.range 1024) = (0, ((0 : Nat) : Int)) := by
    have := scan_range_eq _ 1025 _ _ t0 1024 (by omega) 0 (by omega) rfl (by simp [INF])
      (by intro j _ _; simp only; split_ifs <;> simp [INF])
      (by intro j hj; omega)
    simpa using this
  rw [parallelMin_two_tracked _ _ _ t0 _ s0]
  simp [INF]

theorem overflow_parallelMin_second (st1 : State) (t1 : Tracks st1 1025
        (fun j => if j = 0 then 0 else if j = 1 then 5 else if j = 1024 then 5 else INF)
        (fun j => decide (j = 0))) :
    parallelMin (roundRobin 2) st1 1025 = (5, ((1024 : Nat) : Int)) := by
  have s1 : scan st1 (List.range 1024) = (5, ((1 : Nat) : Int)) := by
    have := scan_range_eq _ 1025 _ _ t1 1024 (by omega) 1 (by omega) (by simp)
      (by simp [INF])
      (by
        intro j _ hb
        have h0 : j ≠ 0 := by simpa using hb
        simp only [h0, if_false]
        split_ifs <;> simp [INF])
      (by
        intro j hj hb
        have h0 : j ≠ 0 := by simpa using hb
        omega)
    simpa using this
  rw [parallelMin_two_tracked _ _ _ t1 _ s1]
  simp [INF]


theorem weight_le_total (edges : List Edge) (hpos : ∀ a ∈ edges, 0 ≤ a.weight) (e : Edge)
    (he : e ∈ edges) : e.weight ≤ totalWeight edges := by
  have h := sum_filter_add edges hpos (fun _ => false) (fun _ => true) (fun _ _ h => by cases h)
    e he rfl rfl
  rw [List.filter_true] at h
  simp only [List.filter_false, List.map_nil, List.sum_nil, zero_add] at h
  exact h

theorem walk_scenario_disconnected (v : Nat) (vs : List Nat) (d : Int)
    (h : Walk [(⟨0, 1, 5⟩ : Edge)] 0 v vs d) : v = 0 ∨ v = 1 := by
  induction h with
  | start => exact Or.inl rfl
  | step _ hJ _ =>
    obtain ⟨e, he, _, ⟨_, b⟩ | ⟨a, _⟩⟩ := hJ
    · simp only [List.mem_singleton] at he; subst he; exact Or.inr b.symm
    · simp only [List.mem_singleton] at he; subst he; exact Or.inl a.symm

/-- Every line of the edge list is stored, with its weight, in the adjacency range of
each of its endpoints. -/
theorem line_mem_adjacency (n : Nat) (edges : List Edge) (hr : InRange n edges) :
    ∀ e ∈ edges, (e.dest, e.weight) ∈ adjacency (create_csr_graph n edges) e.src ∧
      (e.src, e.weight) ∈ adjacency (create_csr_graph n edges) e.dest := by
  intro e he
  rw [adjacency_create n edges hr _ (hr e he).1, adjacency_create n edges hr _ (hr e he).2,
    mem_incident, mem_incident]
  exact ⟨⟨e, he, rfl, Or.inl ⟨rfl, rfl⟩⟩, ⟨e, he, rfl, Or.inr ⟨rfl, rfl⟩⟩⟩

/-- C7: for an edge list with in-range endpoints, `row_ptr` has `num_nodes + 1` slots,
starts at 0, never decreases, ends at `2 * num_edges`, and each step
`row_ptr[v+1] - row_ptr[v]` is the number of times `v` occurs as an endpoint. -/
theorem row_ptr_offsets (n : Nat) (edges : List Edge) (hr : InRange n edges) :
    (create_csr_graph n edges).row_ptr.length = n + 1 ∧
    (create_csr_graph n edges).row_ptr.getD 0 0 = 0 ∧
    (∀ v, v < n → (create_csr_graph n edges).row_ptr.getD v 0 ≤
      (create_csr_graph n edges).row_ptr.getD (v + 1) 0) ∧
    (create_csr_graph n edges).row_ptr.getD n 0 = 2 * (create_csr_graph n edges).num_edges ∧
    (create_csr_graph n edges).num_edges = edges.length ∧
    (∀ v, v < n → (create_csr_graph n edges).row_ptr.getD (v + 1) 0 -
      (create_csr_graph n edges).row_ptr.getD v 0 = degree edges v) := by
  obtain ⟨h1, _, _, h4, _⟩ := create_csr_graph_spec n edges hr
  refine ⟨h1, ?_, ?_, ?_, rfl, ?_⟩
  · rw [h4 0 (by omega)]; simp
  · intro v hv
    rw [h4 v (by omega), h4 (v + 1) (by omega), Finset.sum_range_succ]
    omega
  · rw [h4 n (le_refl _), sum_degree n edges hr]; rfl
  · intro v hv
    rw [h4 v (by omega), h4 (v + 1) (by omega), Finset.sum_range_succ]
    omega

/-- C7 on the 4-vertex scenario of the specification. -/
theorem row_ptr_offsets_witness :
    (create_csr_graph 4 scenario4).row_ptr = [0, 2, 4, 6, 8] ∧
    (create_csr_graph 4 scenario4).row_ptr.getD 4 0 =
      2 * (create_csr_graph 4 scenario4).num_edges ∧
    (create_csr_graph 4 scenario4).row_ptr.getD 3 0 -
      (create_csr_graph 4 scenario4).row_ptr.getD 2 0 = degree scenario4 2 :=
  ⟨by decide, (row_ptr_offsets 4 scenario4 (by decide)).2.2.2.1,
    (row_ptr_offsets 4 scenario4 (by decide)).2.2.2.2.2 2 (by decide)⟩

/-- C8: for an edge list with in-range endpoints and a vertex `x`, the entries
`(col_idx[j], weights[j])` of the adjacency range of `x` are, in input order, the
`(other endpoint, weight)` of the lines at `x` (a line `(x, x, w)` giving two consecutive
entries); so every line is stored with its weight in the range of each endpoint. -/
theorem adjacency_in_input_order (n : Nat) (edges : List Edge) (hr : InRange n edges) :
    (∀ x, x < n → adjacency (create_csr_graph n edges) x = incident edges x) ∧
    (∀ e ∈ edges, (e.dest, e.weight) ∈ adjacency (create_csr_graph n edges) e.src ∧
      (e.src, e.weight) ∈ adjacency (create_csr_graph n edges) e.dest) :=
  ⟨fun x hx => adjacency_create n edges hr x hx, line_mem_adjacency n edges hr⟩

/-- C8 on an edge list with a self-loop at vertex 1. -/
theorem adjacency_in_input_order_witness :
    adjacency (create_csr_graph 4 [⟨0, 1, 2⟩, ⟨1, 1, 7⟩, ⟨2, 1, 3⟩, ⟨0, 3, 9⟩]) 1 =
      [(0, 2), (1, 7), (1, 7), (2, 3)] :=
  ((adjacency_in_input_order 4 [⟨0, 1, 2⟩, ⟨1, 1, 7⟩, ⟨2, 1, 3⟩, ⟨0, 3, 9⟩] (by decide)).1 1
    (by decide)).trans (by decide)

/-- C6, as stated, fails: with the line `(0, 1, 5)` given twice, the adjacency range of
vertex 0 holds two entries with neighbour 1 and weight 5, not exactly one. -/
theorem duplicate_line_stored_twice :
    InRange 2 [⟨0, 1, 5⟩, ⟨0, 1, 5⟩] ∧ (∀ e ∈ [(⟨0, 1, 5⟩ : Edge), ⟨0, 1, 5⟩], 0 < e.weight) ∧
    (⟨0, 1, 5⟩ : Edge) ∈ [(⟨0, 1, 5⟩ : Edge), ⟨0, 1, 5⟩] ∧
    (adjacency (create_csr_graph 2 [⟨0, 1, 5⟩, ⟨0, 1, 5⟩]) 0).count (1, 5) = 2 := by
  decide

/-- C6, amended: for an edge list with in-range endpoints and an input line `(u, v, w)`,
the adjacency range of `u` holds at least one entry with neighbour `v` and weight `w`,
and exactly as many as the edge list has lines joining `u` and `v` with weight `w` (a
self-loop counted twice); the same holds for the range of `v` and neighbour `u`. -/
theorem entries_per_line (n : Nat) (edges : List Edge) (hr : InRange n edges) (e : Edge)
    (he : e ∈ edges) :
    (adjacency (create_csr_graph n edges) e.src).count (e.dest, e.weight) =
      linesJoining edges e.src e.dest e.weight ∧
    (adjacency (create_csr_graph n edges) e.dest).count (e.src, e.weight) =
      linesJoining edges e.dest e.src e.weight ∧
    1 ≤ (adjacency (create_csr_graph n edges) e.src).count (e.dest, e.weight) ∧
    1 ≤ (adjacency (create_csr_graph n edges) e.dest).count (e.src, e.weight) := by
  obtain ⟨a, b⟩ := line_mem_adjacency n edges hr e he
  refine ⟨?_, ?_, List.count_pos_iff.2 a, List.count_pos_iff.2 b⟩
  · rw [adjacency_create n edges hr _ (hr e he).1, count_incident]; rfl
  · rw [adjacency_create n edges hr _ (hr e he).2, count_incident]; rfl

/-- C6, amended, on the line `(2, 3, 2)` of the 4-vertex scenario: one entry on each side. -/
theorem entries_per_line_witness :
    (adjacency (create_csr_graph 4 scenario4) 2).count (3, 2) = 1 ∧
    (adjacency (create_csr_graph 4 scenario4) 3).count (2, 2) = 1 :=
  ⟨(entries_per_line 4 scenario4 (by decide) ⟨2, 3, 2⟩ (by decide)).1.trans (by decide),
    (entries_per_line 4 scenario4 (by decide) ⟨2, 3, 2⟩ (by decide)).2.1.trans (by decide)⟩

/-- C9, as stated, fails: a file whose only line has a negative weight is not rejected;
`create_csr_graph` returns the graph with the weight stored as it is. -/
theorem negative_weight_accepted :
    (∃ e ∈ (GraphFile.mk 2 [⟨0, 1, -5⟩]).edges, e.weight < 0) ∧
    create_csr_graph_file (some ⟨2, [⟨0, 1, -5⟩]⟩) =
      Outcome.graph ⟨2, 1, [0, 1, 2], [1, 0], [-5, -5]⟩ := by
  decide

/-- C9, amended: the only fatal error of `create_csr_graph` is a file that cannot be
opened; an opened file whose lines have in-range endpoints gives a graph whatever the
weights are, a negative weight being stored like any other. -/
theorem fatal_only_when_unopened (file : Option GraphFile) :
    (create_csr_graph_file file = Outcome.fatal ↔ file = none) ∧
    (∀ f, file = some f → InRange f.num_nodes f.edges →
      ∃ g, create_csr_graph_file file = Outcome.graph g ∧
        ∀ e ∈ f.edges, (e.dest, e.weight) ∈ adjacency g e.src ∧
          (e.src, e.weight) ∈ adjacency g e.dest) := by
  constructor
  · cases file with
    | none => simp [create_csr_graph_file]
    | some f => simp [create_csr_graph_file]
  · intro f hf hr
    subst hf
    exact ⟨_, rfl, line_mem_adjacency f.num_nodes f.edges hr⟩


/-- C9, amended, on a file that cannot be opened and on a file with a negative weight. -/
theorem fatal_only_when_unopened_witness :
    create_csr_graph_file none = Outcome.fatal ∧
    ∃ g, create_csr_graph_file (some ⟨2, [⟨0, 1, -5⟩]⟩) = Outcome.graph g ∧
      ∀ e ∈ (GraphFile.mk 2 [⟨0, 1, -5⟩]).edges, (e.dest, e.weight) ∈ adjacency g e.src ∧
        (e.src, e.weight) ∈ adjacency g e.dest :=
  ⟨(fatal_only_when_unopened none).1.2 rfl,
    (fatal_only_when_unopened (some ⟨2, [⟨0, 1, -5⟩]⟩)).2 ⟨2, [⟨0, 1, -5⟩]⟩ rfl (by decide)⟩

/-- C2: for an edge list with in-range endpoints and positive weights whose sum is below
`10^9`, a source in range and a vertex `v` with a path to the source,
`dijkstra_sequential` leaves in `distances[v]` the weight of a path from the source to
`v`, and no path from the source to `v` weighs less. -/
theorem sequential_distance_is_minimal (n : Nat) (edges : List Edge) (hr : InRange n edges)
    (hw : ∀ e ∈ edges, 0 < e.weight) (htot : totalWeight edges < 1000000000)
    (source : Nat) (hs : source < n) (v : Nat) (hreach : Reachable edges source v) :
    ∃ dv, (dijkstra_sequential (create_csr_graph n edges) source)[v]? = some dv ∧
      (∃ vs, vs.Nodup ∧ Walk edges source v vs dv) ∧
      ∀ vs d, Walk edges source v vs d → dv ≤ d := by
  have hw1 : ∀ e ∈ edges, 1 ≤ e.weight := fun e he => hw e he
  have hw2 : ∀ e ∈ edges, 1 ≤ e.weight ∧ e.weight ≤ MAXW := by
    intro e he
    have := weight_le_total edges (fun a ha => le_of_lt (hw a ha)) e he
    have := hw e he
    simp only [MAXW]
    constructor <;> omega
  have hF := sequential_final _ (graphOK_create n edges hr hw2) source hs
  obtain ⟨vs0, d0, hW0⟩ := hreach
  have hv := (walk_lower n edges hr source hs _ hF v vs0 d0 hW0).1
  have hfin := finite_of_walk n edges hr hw1 htot source _ hF v vs0 d0 hW0
  obtain ⟨vs, hW, hnd, _⟩ := walk_attained n edges hr hw1 source hs _ hF
    ((dijkstra_sequential (create_csr_graph n edges) source).getD v 0).toNat v hv hfin
    (by rw [Int.toNat_of_nonneg (hF.2.1 v hv).1])
  refine ⟨_, getElem?_of_length _ n v 0 hF.1 hv, ⟨vs, hnd, hW⟩, ?_⟩
  intro vs' d' hW'
  exact (walk_lower n edges hr source hs _ hF v vs' d' hW').2

/-- C2 on the 4-vertex scenario: vertex 3 is reached through 0, 1, 2 at distance 6. -/
theorem sequential_distance_is_minimal_witness :
    dijkstra_sequential (create_csr_graph 4 scenario4) 0 = [0, 2, 4, 6] ∧
    ∃ dv, (dijkstra_sequential (create_csr_graph 4 scenario4) 0)[3]? = some dv ∧
      (∃ vs, vs.Nodup ∧ Walk scenario4 0 3 vs dv) ∧
      ∀ vs d, Walk scenario4 0 3 vs d → dv ≤ d :=
  ⟨by decide, sequential_distance_is_minimal 4 scenario4 (by decide) (by decide) (by decide)
    0 (by decide) 3
    ⟨_, _, Walk.step Walk.start ⟨⟨0, 3, 9⟩, by decide, rfl, Or.inl ⟨rfl, rfl⟩⟩⟩⟩

end Cmp

namespace GraphGenerator

theorem encode_edge_comm (u v : Int) : encode_edge u v = encode_edge v u := by
  unfold encode_edge
  by_cases h1 : u < v
  · have h2 : ¬ v < u := by omega
    have h3 : ¬ u > v := by omega
    have h4 : v > u := h1
    rw [if_pos h1, if_neg h3, if_neg h2, if_pos h4]
  · by_cases h5 : v < u
    · have h6 : u > v := h5
      have h7 : ¬ v > u := by omega
      rw [if_neg h1, if_pos h6, if_pos h5, if_neg h7]
    · have h8 : u = v := by omega
      subst h8
      rfl

theorem is_duplicate_iff (edge_set : List Int) (edge : Int) :
    is_duplicate edge_set edge = true ↔ edge ∈ edge_set := by
  unfold is_duplicate
  rw [List.any_eq_true]
  constructor
  · rintro ⟨x, hx, h⟩
    have : x = edge := by simpa using h
    rw [← this]; exact hx
  · intro h
    exact ⟨edge, h, by simp⟩

/-- Invariant of the generating loop: `edge_set` holds the codes of the written lines,
no written line is a self-loop, and no two written lines join the same pair. -/
theorem genLoop_invariant (num_nodes num_edges max_weight : Int) :
    ∀ (k : Nat) (rands : List Nat) (st : GenState), rands.length ≤ k →
      st.edge_set = st.lines.map (fun l => encode_edge l.u l.v) →
      (∀ l ∈ st.lines, l.u ≠ l.v) → st.lines.Pairwise (fun a b => ¬ SamePair a b) →
      (∀ l ∈ (genLoop num_nodes num_edges max_weight rands st).lines, l.u ≠ l.v) ∧
      (genLoop num_nodes num_edges max_weight rands st).lines.Pairwise
        (fun a b => ¬ SamePair a b) := by
  intro k
  induction k with
  | zero =>
    intro rands st hk _ h2 h3
    have : rands = [] := List.length_eq_zero.1 (by omega)
    subst this
    exact ⟨h2, h3⟩
  | succ k ih =>
    intro rands st hk h1 h2 h3
    match rands, hk with
    | [], _ => exact ⟨h2, h3⟩
    | [_], _ => exact ⟨h2, h3⟩
    | r1 :: r2 :: rest, hk =>
      simp only [List.length_cons] at hk
      rw [genLoop]
      by_cases hc : (st.edge_set.length : Int) < num_edges
      · rw [if_pos hc]
        simp only []
        by_cases hu : Int.tmod (r1 : Int) num_nodes = Int.tmod (r2 : Int) num_nodes
        · rw [if_pos hu]
          exact ih rest st (by omega) h1 h2 h3
        · rw [if_neg hu]
          by_cases hd : is_duplicate st.edge_set
              (encode_edge (Int.tmod (r1 : Int) num_nodes) (Int.tmod (r2 : Int) num_nodes))
              = true
          · rw [if_pos hd]
            exact ih rest st (by omega) h1 h2 h3
          · rw [if_neg hd]
            match rest, hk with
            | [], _ => exact ⟨h2, h3⟩
            | r3 :: rest', hk =>
              simp only [List.length_cons] at hk
              apply ih rest' _ (by omega)
              · simp [h1]
              · intro l hl
                rcases List.mem_append.1 hl with h | h
                · exact h2 l h
                · simp only [List.mem_singleton] at h; subst h; exact hu
              · rw [List.pairwise_append]
                refine ⟨h3, by simp, ?_⟩
                intro a ha b hb
                simp only [List.mem_singleton] at hb
                subst hb
                intro hsame
                apply hd
                rw [is_duplicate_iff, h1, List.mem_map]
                refine ⟨a, ha, ?_⟩
                rcases hsame with ⟨e1, e2⟩ | ⟨e1, e2⟩
                · simp only at e1 e2; rw [e1, e2]
                · simp only at e1 e2; rw [e1, e2, encode_edge_comm]
      · rw [if_neg hc]
        exact ⟨h2, h3⟩

/-- C10: whenever `generate_random_weighted_graph` writes a file, whatever `rand()`
returns, no written edge line has `u = v` and no two written edge lines have the same
unordered pair `{u, v}`; and `encode_edge(u, v) = encode_edge(v, u)` for all `u`, `v`. -/
theorem generated_lines_simple (num_nodes num_edges max_weight : Int) (can_open : Bool)
    (rands : List Nat) (n e : Int) (lines : List Line)
    (h : generate_random_weighted_graph num_nodes num_edges max_weight can_open rands =
      GenOutcome.written n e lines) :
    (∀ l ∈ lines, l.u ≠ l.v) ∧ lines.Pairwise (fun a b => ¬ SamePair a b) ∧
    ∀ u v, encode_edge u v = encode_edge v u := by
  unfold generate_random_weighted_graph at h
  simp only at h
  split_ifs at h
  simp only [GenOutcome.written.injEq] at h
  obtain ⟨_, _, h⟩ := h
  subst h
  obtain ⟨a, b⟩ := genLoop_invariant num_nodes num_edges max_weight rands.length rands
    { edge_set := [], lines := [] } (le_refl _) rfl (by simp) List.Pairwise.nil
  exact ⟨a, b, encode_edge_comm⟩

/-- C10 on a run that draws a repeated pair and a self-loop before its second line. -/
theorem generated_lines_simple_witness :
    generate_random_weighted_graph 3 2 10 true [0, 1, 4, 1, 0, 2, 2, 1, 2, 7, 5, 5, 5] =
      GenOutcome.written 3 2 [⟨0, 1, 5⟩, ⟨1, 2, 8⟩] ∧
    (∀ l ∈ [(⟨0, 1, 5⟩ : Line), ⟨1, 2, 8⟩], l.u ≠ l.v) :=
  ⟨by decide, (generated_lines_simple 3 2 10 true [0, 1, 4, 1, 0, 2, 2, 1, 2, 7, 5, 5, 5] 3 2
    [⟨0, 1, 5⟩, ⟨1, 2, 8⟩] (by decide)).1⟩

end GraphGenerator

namespace Cmp

theorem getD_replicate {α : Type} (n j : Nat) (a d : α) :
    (List.replicate n a).getD j d = if j < n then a else d := by
  by_cases h : j < n
  · rw [if_pos h, List.getD_eq_getElem _ _ (by simpa using h)]
    simp
  · rw [if_neg h, List.getD_eq_default _ _ (by simpa using h)]

/-- What the parallel minimum search returns under a valid schedule: `(INF, -1)` on an
exhausted state, and otherwise a legitimate choice together with its distance. -/
theorem parallelMin_spec (s : Schedule) (hs : s.Valid) (st : State) (n : Nat) :
    (parallelMin s st n = (INF, -1) ∧ Exhausted st n) ∨
    (∃ m : Nat, parallelMin s st n = (st.distances.getD m 0, (m : Int)) ∧ IsMin st n m) := by
  obtain ⟨_, hown, hperm⟩ := hs
  obtain ⟨h1, h2, h3⟩ := combine_spec s st n s.combine
  have hle : ∀ j, j < n → st.visited.getD j false = false →
      (parallelMin s st n).1 ≤ st.distances.getD j 0 := by
    intro j hj hv
    have ht : s.owner (j / 1024) ∈ s.combine :=
      hperm.mem_iff.2 (List.mem_range.2 (hown _))
    have a := h2 _ ht
    have hmem : j ∈ workerIndices s n (s.owner (j / 1024)) := by
      simp [workerIndices, hj]
    have b := (scan_spec st (workerIndices s n (s.owner (j / 1024)))).2.1 j hmem hv
    unfold parallelMin
    unfold localMin at a
    omega
  rcases h3 with h | ⟨t, ht, h, hlt⟩
  · left
    have e : parallelMin s st n = (INF, -1) := h
    refine ⟨e, ?_⟩
    intro j hj hv
    have := hle j hj hv
    rw [e] at this
    exact this
  · right
    have e : parallelMin s st n = localMin s st n t := h
    obtain ⟨_, _, c3⟩ := scan_spec st (workerIndices s n t)
    rcases c3 with ⟨_, c⟩ | ⟨m, hm, a, b, c, d⟩
    · unfold localMin at hlt; omega
    · have hmn : m < n := by
        simp [workerIndices] at hm; exact hm.1
      refine ⟨m, ?_, hmn, b, by omega, ?_⟩
      · rw [e]
        unfold localMin
        exact Prod.ext c.symm a
      · intro j hj hv
        have := hle j hj hv
        rw [e] at this
        unfold localMin at this
        omega

/-- With one worker the parallel minimum search is the sequential scan. -/
theorem parallelMin_one_worker (s : Schedule) (hs : s.Valid) (h1 : s.num_threads = 1)
    (st : State) (n : Nat) : parallelMin s st n = scan st (List.range n) := by
  obtain ⟨_, hown, hperm⟩ := hs
  rw [h1] at hperm hown
  have hc : s.combine = [0] := by
    have : List.range 1 = [0] := rfl
    rw [this] at hperm
    exact List.perm_singleton.1 hperm
  have hw : workerIndices s n 0 = List.range n := by
    unfold workerIndices
    rw [List.filter_eq_self]
    intro i _
    have := hown (i / 1024)
    simp only [decide_eq_true_eq]
    omega
  unfold parallelMin
  rw [hc]
  simp only [List.foldl_cons, List.foldl_nil]
  unfold combineStep localMin
  rw [hw]
  rcases scan_range_first st n with ⟨h, _⟩ | ⟨m, _, h, _, hlt, _⟩
  · rw [h]; simp
  · rw [h]
    simp only
    rw [if_pos hlt]

theorem tracks_tieState : Tracks tieState 1025 (fun _ => 5) (fun _ => false) := by
  refine ⟨List.length_replicate _ _, List.length_replicate _ _, ?_⟩
  intro j hj
  simp only [tieState]
  rw [getD_replicate, getD_replicate, if_pos hj, if_pos hj]
  exact ⟨rfl, rfl⟩

/-- C11, as stated, fails: on 1025 unvisited vertices all at distance 5, with two workers
of which worker 1 enters the critical section first, the parallel minimum search selects
vertex 1024 and the sequential scan selects vertex 0. -/
theorem tie_across_blocks :
    (roundRobin 2).Valid ∧ parallelMin (roundRobin 2) tieState 1025 = (5, 1024) ∧
    scan tieState (List.range 1025) = (5, 0) := by
  have s1 : scan tieState (List.range 1025) = (5, ((0 : Nat) : Int)) :=
    scan_range_eq _ 1025 _ _ tracks_tieState 1025 (le_refl _) 0 (by omega) rfl
      (by simp [INF]) (fun _ _ _ => le_refl _) (fun j hj => by omega)
  have s0 : scan tieState (List.range 1024) = (5, ((0 : Nat) : Int)) :=
    scan_range_eq _ 1025 _ _ tracks_tieState 1024 (by omega) 0 (by omega) rfl
      (by simp [INF]) (fun _ _ _ => le_refl _) (fun j hj => by omega)
  refine ⟨roundRobin_valid 2 (by omega), ?_, by simpa using s1⟩
  rw [parallelMin_two_tracked _ _ _ tracks_tieState _ s0]
  simp [INF]

/-- C11, amended: for every distance array, visited array and valid schedule, the parallel
minimum search ends with the same `min_distance` as the sequential scan and with
`min_index = -1` exactly when the scan does; otherwise it selects an unvisited vertex of
lowest distance, which is the vertex of the scan when one unvisited vertex only has that
distance, or when there is one worker. -/
theorem parallelMin_agrees (s : Schedule) (hs : s.Valid) (st : State) (n : Nat) :
    (parallelMin s st n).1 = (scan st (List.range n)).1 ∧
    ((parallelMin s st n).2 = -1 ↔ (scan st (List.range n)).2 = -1) ∧
    ((parallelMin s st n).2 ≠ -1 →
      ∃ m : Nat, (parallelMin s st n).2 = (m : Int) ∧ IsMin st n m) ∧
    ((∀ a b, IsMin st n a → IsMin st n b → a = b) →
      parallelMin s st n = scan st (List.range n)) ∧
    (s.num_threads = 1 → parallelMin s st n = scan st (List.range n)) := by
  have hseq : (scan st (List.range n) = (INF, -1) ∧ Exhausted st n) ∨
      (∃ m : Nat, scan st (List.range n) = (st.distances.getD m 0, (m : Int)) ∧
        IsMin st n m) := by
    rcases scan_range_first st n with ⟨h, he⟩ | ⟨m, hm, h, hv, hlt, hmin, _⟩
    · exact Or.inl ⟨h, he⟩
    · exact Or.inr ⟨m, h, hm, hv, hlt, hmin⟩
  have hex : ∀ m, Exhausted st n → IsMin st n m → False := by
    intro m he hm
    have := he m hm.1 hm.2.1
    have := hm.2.2.1
    omega
  have hdist : ∀ a b, IsMin st n a → IsMin st n b →
      st.distances.getD a 0 = st.distances.getD b 0 := by
    intro a b ha hb
    have := ha.2.2.2 b hb.1 hb.2.1
    have := hb.2.2.2 a ha.1 ha.2.1
    omega
  refine ⟨?_, ?_, ?_, ?_, fun h1 => parallelMin_one_worker s hs h1 st n⟩
  · rcases parallelMin_spec s hs st n with ⟨hp, he⟩ | ⟨m, hp, hm⟩ <;>
      rcases hseq with ⟨hq, he'⟩ | ⟨m', hq, hm'⟩
    · rw [hp, hq]
    · exact (hex m' he hm').elim
    · exact (hex m he' hm).elim
    · rw [hp, hq]; exact hdist m m' hm hm'
  · rcases parallelMin_spec s hs st n with ⟨hp, he⟩ | ⟨m, hp, hm⟩ <;>
      rcases hseq with ⟨hq, he'⟩ | ⟨m', hq, hm'⟩
    · rw [hp, hq]
    · exact (hex m' he hm').elim
    · exact (hex m he' hm).elim
    · rw [hp, hq]
      simp only
      constructor <;> intro h <;> omega
  · intro hne
    rcases parallelMin_spec s hs st n with ⟨hp, _⟩ | ⟨m, hp, hm⟩
    · rw [hp] at hne; exact absurd rfl hne
    · exact ⟨m, by rw [hp], hm⟩
  · intro huniq
    rcases parallelMin_spec s hs st n with ⟨hp, he⟩ | ⟨m, hp, hm⟩ <;>
      rcases hseq with ⟨hq, he'⟩ | ⟨m', hq, hm'⟩
    · rw [hp, hq]
    · exact (hex m' he hm').elim
    · exact (hex m he' hm).elim
    · rw [hp, hq, huniq m m' hm hm']

theorem parallelMin_agrees_witness :
    (parallelMin (roundRobin 3) (initState 4 2) 4).1 = (scan (initState 4 2) (List.range 4)).1 ∧
    parallelMin (roundRobin 1) (initState 4 2) 4 = scan (initState 4 2) (List.range 4) ∧
    scan (initState 4 2) (List.range 4) = (0, 2) :=
  ⟨(parallelMin_agrees (roundRobin 3) (roundRobin_valid 3 (by omega)) (initState 4 2) 4).1,
    (parallelMin_agrees (roundRobin 1) (roundRobin_valid 1 (by omega))
      (initState 4 2) 4).2.2.2.2 rfl, by decide⟩

/-- C12: the scan of an outer iteration of `dijkstra_sequential` ends with
`min_vertex = -1` exactly when no unvisited vertex has a distance below `INF`; otherwise
`min_vertex` is the smallest index among the unvisited vertices whose distance is the
least distance of an unvisited vertex, and `min_dist` is that distance. -/
theorem scan_selects_first_minimum (st : State) (n : Nat) :
    ((scan st (List.range n)).2 = -1 ↔
      ∀ j, j < n → st.visited.getD j false = false → 1000000000 ≤ st.distances.getD j 0) ∧
    ((scan st (List.range n)).2 ≠ -1 →
      ∃ m : Nat, m < n ∧ (scan st (List.range n)).2 = (m : Int) ∧
        (scan st (List.range n)).1 = st.distances.getD m 0 ∧
        st.visited.getD m false = false ∧
        (∀ j, j < n → st.visited.getD j false = false →
          st.distances.getD m 0 ≤ st.distances.getD j 0) ∧
        (∀ j, j < m → st.visited.getD j false = false →
          st.distances.getD m 0 < st.distances.getD j 0)) := by
  rcases scan_range_first st n with ⟨h, he⟩ | ⟨m, hm, h, hv, hlt, hmin, hfirst⟩
  · refine ⟨⟨fun _ => he, fun _ => by rw [h]⟩, ?_⟩
    intro hne
    rw [h] at hne
    exact absurd rfl hne
  · refine ⟨⟨?_, ?_⟩, ?_⟩
    · intro h1
      rw [h] at h1
      simp only at h1
      omega
    · intro hall
      have := hall m hm hv
      simp only [INF] at hlt
      omega
    · intro _
      exact ⟨m, hm, by rw [h], by rw [h], hv, hmin, hfirst⟩


theorem joins_sameEnds (es : List Edge) (e : Edge) (w : Int)
    (h : Joins es e.src e.dest w ∨ Joins es e.dest e.src w) : ∃ a ∈ es, SameEnds e a := by
  rcases h with ⟨a, ha, _, ⟨h1, h2⟩ | ⟨h1, h2⟩⟩ | ⟨a, ha, _, ⟨h1, h2⟩ | ⟨h1, h2⟩⟩
  · exact ⟨a, ha, Or.inl ⟨h1.symm, h2.symm⟩⟩
  · exact ⟨a, ha, Or.inr ⟨h2.symm, h1.symm⟩⟩
  · exact ⟨a, ha, Or.inr ⟨h2.symm, h1.symm⟩⟩
  · exact ⟨a, ha, Or.inl ⟨h1.symm, h2.symm⟩⟩

/-- The neighbours listed for a vertex by a simple edge list are pairwise distinct. -/
theorem nodup_incident (edges : List Edge) (hs : SimpleList edges) (x : Nat) :
    ((incident edges x).map Prod.fst).Nodup := by
  induction edges with
  | nil => simp [incident]
  | cons e es ih =>
    obtain ⟨hloop, hpair⟩ := hs
    have hpair' := List.pairwise_cons.1 hpair
    have ih' := ih ⟨fun a ha => hloop a (by simp [ha]), hpair'.2⟩
    have hne := hloop e (by simp)
    have hnot : ∀ v w, (v = e.dest ∧ e.src = x ∨ v = e.src ∧ e.dest = x) →
        (v, w) ∉ incident es x := by
      intro v w hv hmem
      rw [mem_incident] at hmem
      obtain ⟨a, ha, hsame⟩ := joins_sameEnds es e w (by
        rcases hv with ⟨h1, h2⟩ | ⟨h1, h2⟩
        · left; rw [h2, ← h1]; exact hmem
        · right; rw [h2, ← h1]; exact hmem)
      exact hpair'.1 a ha hsame
    simp only [incident]
    by_cases h1 : e.src = x
    · have h2 : ¬ e.dest = x := fun h => hne (h1.trans h.symm)
      rw [if_pos h1, if_neg h2]
      simp only [List.nil_append, List.singleton_append, List.map_cons, List.nodup_cons]
      refine ⟨?_, ih'⟩
      intro hmem
      obtain ⟨p, hp, hpe⟩ := List.mem_map.1 hmem
      have : p = (e.dest, p.2) := Prod.ext hpe rfl
      rw [this] at hp
      exact hnot e.dest p.2 (Or.inl ⟨rfl, h1⟩) hp
    · rw [if_neg h1]
      by_cases h2 : e.dest = x
      · rw [if_pos h2]
        simp only [List.nil_append, List.singleton_append, List.map_cons, List.nodup_cons]
        refine ⟨?_, ih'⟩
        intro hmem
        obtain ⟨p, hp, hpe⟩ := List.mem_map.1 hmem
        have : p = (e.src, p.2) := Prod.ext hpe rfl
        rw [this] at hp
        exact hnot e.src p.2 (Or.inr ⟨rfl, h2⟩) hp
      · rw [if_neg h2]
        simpa using ih'

/-- C14: for a graph built from a simple edge list with in-range endpoints, the
neighbours `col_idx[j]` inside the adjacency range of a vertex are pairwise distinct: two
different entries `i`, `j` of the chosen vertex never write the same slot of
`distances`. -/
theorem neighbours_distinct (n : Nat) (edges : List Edge) (hr : InRange n edges)
    (hs : SimpleList edges) (x : Nat) (hx : x < n) :
    ((adjacency (create_csr_graph n edges) x).map Prod.fst).Nodup ∧
    ∀ i ∈ adjRange (create_csr_graph n edges) x, ∀ j ∈ adjRange (create_csr_graph n edges) x,
      i ≠ j → (create_csr_graph n edges).col_idx.getD i 0 ≠
        (create_csr_graph n edges).col_idx.getD j 0 := by
  have h1 : ((adjacency (create_csr_graph n edges) x).map Prod.fst).Nodup := by
    rw [adjacency_create n edges hr x hx]
    exact nodup_incident edges hs x
  refine ⟨h1, ?_⟩
  intro i hi j hj hij heq
  rw [adjacency_eq_map, List.map_map] at h1
  exact hij (List.inj_on_of_nodup_map h1 hi hj heq)

/-- C14 on the 4-vertex scenario: vertex 0 has the neighbours 1 and 3. -/
theorem neighbours_distinct_witness :
    (adjacency (create_csr_graph 4 scenario4) 0).map Prod.fst = [1, 3] ∧
    ((adjacency (create_csr_graph 4 scenario4) 0).map Prod.fst).Nodup :=
  ⟨by decide, (neighbours_distinct 4 scenario4 (by decide) (by decide) 0 (by decide)).1⟩


theorem placePositions_append (rp : List Nat) (ds : List Entry) (d : Entry) (st : FillState) :
    placePositions rp (ds ++ [d]) st = placePositions rp ds st ++
      [rp.getD d.1 0 + (ds.foldl (place rp) st).edges_per_vertex.getD d.1 0] := by
  induction ds generalizing st with
  | nil => rfl
  | cons a ds ih =>
    show _ :: placePositions rp (ds ++ [d]) _ = _
    rw [ih]
    rfl

theorem fillPositions_append (rp te : List Nat) (tw : List Int) (ks : List Nat) (k : Nat)
    (st : FillState) :
    fillPositions rp te tw (ks ++ [k]) st = fillPositions rp te tw ks st ++
      [(fillPos rp te (ks.foldl (fillStep rp te tw) st) k).1,
        (fillPos rp te (ks.foldl (fillStep rp te tw) st) k).2] := by
  induction ks generalizing st with
  | nil => rfl
  | cons a ks ih =>
    show _ :: _ :: fillPositions rp te tw (ks ++ [k]) _ = _
    rw [ih]
    rfl

/-- The positions computed by the filling loop are those of `place`, two per line. -/
theorem fillPositions_eq (rp te : List Nat) (tw : List Int) (st : FillState)
    (es : List Edge)
    (h : ∀ k e, es[k]? = some e →
      te.getD (2 * k) 0 = e.src ∧ te.getD (2 * k + 1) 0 = e.dest ∧ tw.getD k 0 = e.weight) :
    fillPositions rp te tw (List.range es.length) st = placePositions rp (directed es) st := by
  induction es using List.reverseRecOn with
  | nil => rfl
  | append_singleton es e ih =>
    have h' : ∀ k e', es[k]? = some e' →
        te.getD (2 * k) 0 = e'.src ∧ te.getD (2 * k + 1) 0 = e'.dest ∧
          tw.getD k 0 = e'.weight := by
      intro k e' hk
      apply h k e'
      rw [List.getElem?_append]
      have : k < es.length := by
        by_contra hcon
        rw [List.getElem?_eq_none (by omega)] at hk; cases hk
      simp [this, hk]
    obtain ⟨a, b, _⟩ := h es.length e (by simp)
    rw [List.length_append, List.length_singleton, List.range_succ, fillPositions_append,
      directed_append, ih h', fill_fold_eq rp te tw st es h']
    have e2 : directed es ++ [(e.src, e.dest, e.weight), (e.dest, e.src, e.weight)] =
        (directed es ++ [(e.src, e.dest, e.weight)]) ++ [(e.dest, e.src, e.weight)] := by
      simp
    rw [e2, placePositions_append, placePositions_append, List.foldl_append]
    simp only [fillPos, a, b, place, List.foldl_cons, List.foldl_nil, List.append_assoc,
      List.singleton_append]

theorem getElem?_directed (es : List Edge) (k : Nat) (e : Edge) (h : es[k]? = some e) :
    (directed es)[2 * k]? = some (e.src, e.dest, e.weight) ∧
    (directed es)[2 * k + 1]? = some (e.dest, e.src, e.weight) := by
  induction es generalizing k with
  | nil => simp at h
  | cons a es ih =>
    cases k with
    | zero =>
      simp only [List.getElem?_cons_zero, Option.some.injEq] at h
      subst h
      simp [directed]
    | succ k =>
      simp only [List.getElem?_cons_succ] at h
      obtain ⟨i1, i2⟩ := ih k h
      simp only [directed]
      constructor
      · rw [show 2 * (k + 1) = (2 * k + 1) + 1 by omega, List.getElem?_cons_succ,
          List.getElem?_cons_succ]
        exact i1
      · rw [show 2 * (k + 1) + 1 = (2 * k + 1 + 1) + 1 by omega, List.getElem?_cons_succ,
          List.getElem?_cons_succ]
        exact i2

theorem length_directed (es : List Edge) : (directed es).length = 2 * es.length := by
  induction es with
  | nil => rfl
  | cons a es ih => simp only [directed, List.length_cons, ih]; omega

/-- Invariant of the positions written by `place`: each lies in the filled part of the
row of its entry, and no position is written twice. -/
theorem placePositions_spec (n L : Nat) (rp : List Nat) (deg : Nat → Nat) (c0 : List Nat)
    (hstep : ∀ x, x < n → rp.getD (x + 1) 0 = rp.getD x 0 + deg x)
    (hL : rp.getD n 0 = L) (hc0 : c0.length = n) (hz : ∀ x, x < n → c0.getD x 0 = 0)
    (ds : List Entry) (hown : ∀ d ∈ ds, d.1 < n)
    (hcnt : ∀ x, x < n → (rowOf ds x).length ≤ deg x) :
    (placePositions rp ds
      { col_idx := List.replicate L 0, weights := List.replicate L 0,
        edges_per_vertex := c0 }).length = ds.length ∧
    (∀ p ∈ placePositions rp ds
      { col_idx := List.replicate L 0, weights := List.replicate L 0,
        edges_per_vertex := c0 },
      ∃ x, x < n ∧ rp.getD x 0 ≤ p ∧ p < rp.getD x 0 + (rowOf ds x).length) ∧
    (placePositions rp ds
      { col_idx := List.replicate L 0, weights := List.replicate L 0,
        edges_per_vertex := c0 }).Nodup ∧
    (∀ (i : Nat) (d : Entry), ds[i]? = some d → ∃ p, (placePositions rp ds
      { col_idx := List.replicate L 0, weights := List.replicate L 0,
        edges_per_vertex := c0 })[i]? = some p ∧
      rp.getD d.1 0 ≤ p ∧ p < rp.getD (d.1 + 1) 0) := by
  induction ds using List.reverseRecOn with
  | nil => simp [placePositions]
  | append_singleton ds d ih =>
    have hown' : ∀ d ∈ ds, d.1 < n := fun a ha => hown a (by simp [ha])
    have hd : d.1 < n := hown d (by simp)
    have hcnt' : ∀ x, x < n → (rowOf ds x).length ≤ deg x := by
      intro x hx
      have := hcnt x hx
      rw [rowOf_append, List.length_append] at this
      omega
    have hfull : (rowOf ds d.1).length < deg d.1 := by
      have := hcnt d.1 hd
      rw [rowOf_append, List.length_append] at this
      simpa using this
    obtain ⟨h1, h2, h3, h4⟩ := ih hown' hcnt'
    obtain ⟨_, _, _, q4, _⟩ := place_fold n L rp deg c0 hstep hL hc0 hz ds hown' hcnt'
    rw [placePositions_append, q4 d.1 hd]
    generalize placePositions rp ds _ = P at h1 h2 h3 h4
    have hmono := rowStart_mono (fun x => rp.getD x 0) deg n hstep
    refine ⟨by simp [h1], ?_, ?_, ?_⟩
    · intro p hp
      rcases List.mem_append.1 hp with hp | hp
      · obtain ⟨x, hx, a, b⟩ := h2 p hp
        refine ⟨x, hx, a, ?_⟩
        rw [rowOf_append, List.length_append]
        omega
      · simp only [List.mem_singleton] at hp
        subst hp
        refine ⟨d.1, hd, by omega, ?_⟩
        rw [rowOf_append, List.length_append]
        simp
    · rw [List.nodup_append]
      refine ⟨h3, by simp, ?_⟩
      intro p hp hp'
      simp only [List.mem_singleton] at hp'
      obtain ⟨x, hx, a, b⟩ := h2 p hp
      have c1 := hcnt' x hx
      have sx := hstep x hx
      have sd := hstep d.1 hd
      rcases Nat.lt_trichotomy x d.1 with hlt | heq | hgt
      · have := hmono (x + 1) d.1 (by omega) (by omega)
        simp only at this
        omega
      · subst heq; omega
      · have := hmono (d.1 + 1) x (by omega) (by omega)
        simp only at this
        omega
    · intro i d' hi
      by_cases hlt : i < ds.length
      · rw [List.getElem?_append_left hlt] at hi
        obtain ⟨p, hp, a, b⟩ := h4 i d' hi
        exact ⟨p, by rw [List.getElem?_append_left (by omega)]; exact hp, a, b⟩
      · have hi0 : i = ds.length := by
          rcases Nat.lt_or_ge (i - ds.length) 1 with h | h
          · omega
          · rw [List.getElem?_eq_none (by simp; omega)] at hi; cases hi
        subst hi0
        simp only [List.getElem?_concat_length, Option.some.injEq] at hi
        subst hi
        refine ⟨rp.getD d.1 0 + (rowOf ds d.1).length, ?_, by omega, ?_⟩
        · rw [List.getElem?_append_right (by omega), h1, Nat.sub_self]
          rfl
        · have := hstep d.1 hd
          omega


theorem mem_scanl_fold {α β : Type} (f : α → β → α) (l : List β) (a s : α)
    (h : s ∈ List.scanl f a l) : ∃ l1 l2, l = l1 ++ l2 ∧ s = l1.foldl f a := by
  induction l generalizing a with
  | nil =>
    simp only [List.scanl, List.mem_singleton] at h
    exact ⟨[], [], rfl, h⟩
  | cons b l ih =>
    simp only [List.scanl, List.mem_cons] at h
    rcases h with h | h
    · exact ⟨[], b :: l, rfl, h⟩
    · obtain ⟨l1, l2, e, hs⟩ := ih (f a b) h
      exact ⟨b :: l1, l2, by rw [e]; rfl, hs⟩

theorem seqPoints_last (g : CSRGraph) (k : Nat) (st : State) :
    (⟨seqLoop g k st, none⟩ : Point) ∈ seqPoints g k st := by
  induction k generalizing st with
  | zero => simp [seqPoints, seqLoop]
  | succ k ih =>
    rw [seqPoints, seqLoop]
    simp only
    by_cases h : (scan st (List.range g.num_nodes)).2 = -1
    · rw [if_pos h, if_pos h]; simp
    · rw [if_neg h, if_neg h]
      exact List.mem_append_right _ (ih _)

/-- The bounds of C15 at every point of the outer loop started from a state whose
distances lie in `0..INF`. -/
theorem seqPoints_bounds (g : CSRGraph) (hg : GraphOK g) :
    ∀ (k : Nat) (st : State), st.distances.length = g.num_nodes →
      st.visited.length = g.num_nodes →
      (∀ v, v < g.num_nodes → 0 ≤ st.distances.getD v 0 ∧ st.distances.getD v 0 ≤ INF) →
      ∀ p ∈ seqPoints g k st,
        (∀ i, i < g.num_nodes →
          0 ≤ p.st.distances.getD i 0 ∧ p.st.distances.getD i 0 ≤ 1000000000) ∧
        (∀ m, p.chosen = some m → m < g.num_nodes ∧
          p.st.distances.getD m 0 < 1000000000 ∧
          ∀ j ∈ adjRange g m,
            -2147483648 ≤ p.st.distances.getD m 0 + g.weights.getD j 0 ∧
            p.st.distances.getD m 0 + g.weights.getD j 0 ≤ 2147483647) := by
  intro k
  induction k with
  | zero =>
    intro st _ _ hb p hp
    simp only [seqPoints, List.mem_singleton] at hp
    subst hp
    exact ⟨hb, fun m hm => by cases hm⟩
  | succ k ih =>
    intro st hl hv hb p hp
    rw [seqPoints] at hp
    simp only at hp
    rcases scan_range_minResult st g.num_nodes with ⟨h1, _⟩ | ⟨m, h1, hmin⟩
    · rw [if_pos h1] at hp
      simp only [List.mem_singleton] at hp
      subst hp
      exact ⟨hb, fun m hm => by cases hm⟩
    · rw [if_neg (by rw [h1]; omega), h1, Int.toNat_ofNat] at hp
      obtain ⟨hmn, hmv, hmd, _⟩ := hmin
      have hv1 : (markVisited st m).visited.getD m false = true := by
        rw [visited_markVisited st g.num_nodes m hv hmn, if_pos rfl]
      -- the state after any part of the relaxation loop
      have key : ∀ js : List Nat, (∀ j ∈ js, j ∈ adjRange g m) →
          (js.foldl (relaxStep g m) (markVisited st m)).distances.length = g.num_nodes ∧
          (js.foldl (relaxStep g m) (markVisited st m)).visited.length = g.num_nodes ∧
          (∀ v, v < g.num_nodes →
            0 ≤ (js.foldl (relaxStep g m) (markVisited st m)).distances.getD v 0 ∧
            (js.foldl (relaxStep g m) (markVisited st m)).distances.getD v 0 ≤ INF) ∧
          (js.foldl (relaxStep g m) (markVisited st m)).distances.getD m 0 =
            st.distances.getD m 0 := by
        intro js hjs
        obtain ⟨r1, r2, r3, r4, _⟩ := relax_fold g m (markVisited st m) hv1 js
        have hd1 : (markVisited st m).distances = st.distances := rfl
        rw [hd1] at r2 r3 r4
        refine ⟨by rw [r2]; exact hl, by rw [r1]; simp [markVisited, hv], ?_, ?_⟩
        · intro v hvn
          have b := hb v hvn
          have c := r3 v
          rcases r4 v with h | ⟨_, j, hj, _, h⟩
          · rw [h]; exact b
          · obtain ⟨_, w1, w2⟩ := hg m hmn j (hjs j hj)
            have bm := hb m hmn
            rw [wrap32_eq _ (by simp only [MAXW, INF] at *; omega)
              (by simp only [MAXW, INF] at *; omega)] at h
            constructor <;> omega
        · rcases r4 m with h | ⟨h, _⟩
          · exact h
          · rw [hv1] at h; cases h
      rcases List.mem_append.1 hp with hp | hp
      · rcases List.mem_cons.1 hp with hp | hp
        · subst hp
          exact ⟨hb, fun m hm => by cases hm⟩
        · obtain ⟨s, hs, hps⟩ := List.mem_map.1 hp
          obtain ⟨l1, l2, e, hfold⟩ := mem_scanl_fold _ _ _ _ hs
          obtain ⟨_, _, kb, km⟩ := key l1 (fun j hj => by rw [e]; simp [hj])
          rw [← hfold] at kb km
          subst hps
          refine ⟨kb, ?_⟩
          intro m' hm'
          simp only [Option.some.injEq] at hm'
          subst hm'
          simp only
          rw [km]
          refine ⟨hmn, hmd, ?_⟩
          intro j hj
          obtain ⟨_, w1, w2⟩ := hg m hmn j hj
          have bm := hb m hmn
          simp only [MAXW, INF] at *
          constructor <;> omega
      · obtain ⟨ka, kv, kb, _⟩ := key (adjRange g m) (fun j hj => hj)
        exact ih _ ka kv kb p hp


/-- C15: for an edge list with in-range endpoints and weights from 1 to
`2^31 - 1 - 10^9` and a source in range, at every point of `dijkstra_sequential` after the
initialisation every `distances[i]` lies in `0..1000000000`; inside the relaxation loop
the chosen vertex has `distances[min_vertex] < 1000000000`, and every sum
`distances[min_vertex] + weights[j]` over its adjacency range lies in the range of a
signed 32-bit `int`.  The last point is the state the function returns. -/
theorem sums_stay_in_range (n : Nat) (edges : List Edge) (hr : InRange n edges)
    (hw : ∀ e ∈ edges, 1 ≤ e.weight ∧ e.weight ≤ 1147483647) (source : Nat)
    (hs : source < n) :
    (∀ p ∈ seqPoints (create_csr_graph n edges) n (initState n source),
      (∀ i, i < n →
        0 ≤ p.st.distances.getD i 0 ∧ p.st.distances.getD i 0 ≤ 1000000000) ∧
      (∀ m, p.chosen = some m → m < n ∧ p.st.distances.getD m 0 < 1000000000 ∧
        ∀ j ∈ adjRange (create_csr_graph n edges) m,
          -2147483648 ≤ p.st.distances.getD m 0 +
            (create_csr_graph n edges).weights.getD j 0 ∧
          p.st.distances.getD m 0 + (create_csr_graph n edges).weights.getD j 0 ≤
            2147483647)) ∧
    (⟨seqLoop (create_csr_graph n edges) n (initState n source), none⟩ : Point) ∈
      seqPoints (create_csr_graph n edges) n (initState n source) := by
  have hg := graphOK_create n edges hr hw
  have hI := inv_initState (create_csr_graph n edges) source hs
  refine ⟨?_, seqPoints_last _ n _⟩
  exact seqPoints_bounds (create_csr_graph n edges) hg n (initState n source) hI.1 hI.2.1
    hI.2.2.1

/-- C15 on the 4-vertex scenario: the run goes through 17 points. -/
theorem sums_stay_in_range_witness :
    (seqPoints (create_csr_graph 4 scenario4) 4 (initState 4 0)).length = 17 ∧
    ∀ p ∈ seqPoints (create_csr_graph 4 scenario4) 4 (initState 4 0),
      (∀ i, i < 4 →
        0 ≤ p.st.distances.getD i 0 ∧ p.st.distances.getD i 0 ≤ 1000000000) ∧
      (∀ m, p.chosen = some m → m < 4 ∧ p.st.distances.getD m 0 < 1000000000 ∧
        ∀ j ∈ adjRange (create_csr_graph 4 scenario4) m,
          -2147483648 ≤ p.st.distances.getD m 0 +
            (create_csr_graph 4 scenario4).weights.getD j 0 ∧
          p.st.distances.getD m 0 + (create_csr_graph 4 scenario4).weights.getD j 0 ≤
            2147483647) :=
  ⟨by decide, (sums_stay_in_range 4 scenario4 (by decide) (by decide) 0 (by decide)).1⟩

end Cmp

namespace GraphGenerator

/-- C18: the check of line 14 departs from the exact comparison.  With `num_nodes = 46342` the product of line 13 leaves the range
of `int`; its wrapped value is negative and one edge is refused as too many, although
46342 vertices have 1073767311 distinct pairs.  For `num_nodes` up to 46341 the product
fits and the check refuses exactly the requests above `num_nodes * (num_nodes - 1) / 2`. -/
theorem too_many_edges_after_overflow :
    (∀ (max_weight : Int) (can_open : Bool) (rands : List Nat),
      generate_random_weighted_graph 46342 1 max_weight can_open rands =
        GenOutcome.too_many_edges) ∧
    ¬ ((1 : Int) > 46342 * (46342 - 1) / 2) ∧
    (∀ (num_nodes num_edges max_weight : Int) (can_open : Bool) (rands : List Nat),
      1 ≤ num_nodes → num_nodes ≤ 46341 →
      (generate_random_weighted_graph num_nodes num_edges max_weight can_open rands =
        GenOutcome.too_many_edges ↔ num_edges > num_nodes * (num_nodes - 1) / 2)) := by
  refine ⟨?_, by decide, ?_⟩
  · intro mw co rands
    unfold generate_random_weighted_graph
    simp only
    rw [if_pos (by decide)]
  · intro nn ne mw co rands h1 h2
    have hprod : 0 ≤ nn * (nn - 1) ∧ nn * (nn - 1) ≤ 2147441940 := by
      constructor
      · exact Int.mul_nonneg (by omega) (by omega)
      · have := Int.mul_le_mul (a := nn) (b := nn - 1) (c := 46341) (d := 46340) h2
          (by omega) (by omega) (by omega)
        omega
    have hw : Cmp.wrap32 (nn * (nn - 1)) = nn * (nn - 1) :=
      Cmp.wrap32_eq _ (by omega) (by omega)
    unfold generate_random_weighted_graph
    simp only
    rw [hw, Int.tdiv_eq_ediv hprod.1 (by omega)]
    by_cases hc : ne > nn * (nn - 1) / 2
    · rw [if_pos hc]; simp [hc]
    · rw [if_neg hc]
      constructor
      · intro h
        split_ifs at h
      · intro h; exact absurd h hc

end GraphGenerator

namespace Cmp

theorem incident_replicate (k : Nat) (es : List Edge) (w : Int) :
    incident (List.replicate k ⟨0, 1, w⟩ ++ es) 0 =
      List.replicate k (1, w) ++ incident es 0 := by
  induction k with
  | zero => rfl
  | succ k ih =>
    rw [List.replicate_succ, List.cons_append, incident, ih]
    simp [List.replicate_succ]

theorem incident_raceEdges :
    incident raceEdges 0 = List.replicate 512 (1, 3) ++ [(1, 5)] := by
  rw [raceEdges, incident_replicate]
  rfl

theorem inRange_raceEdges : InRange 2 raceEdges := by
  intro e he
  rw [raceEdges, List.mem_append, List.mem_replicate, List.mem_singleton] at he
  rcases he with ⟨_, h⟩ | h <;> rw [h] <;> exact ⟨by decide, by decide⟩

theorem length_replicate_append {α : Type} (k : Nat) (a b : α) :
    (List.replicate k a ++ [b]).length = k + 1 := by
  simp

theorem getElem?_replicate_append {α : Type} (k : Nat) (a b : α) (t : Nat) :
    ((List.replicate k a ++ [b])[t]? = some a ↔ (t < k ∨ (t = k ∧ a = b))) ∧
    (List.replicate k a ++ [b])[k]? = some b := by
  constructor
  · by_cases ht : t < k
    · rw [List.getElem?_append_left (by simpa using ht)]
      simp [List.getElem?_replicate, ht]
    · rw [List.getElem?_append_right (by simpa using ht)]
      simp only [List.length_replicate]
      by_cases h2 : t = k
      · subst h2; simp [eq_comm]
      · have : t - k ≠ 0 := by omega
        obtain ⟨r, hr⟩ := Nat.exists_eq_succ_of_ne_zero this
        rw [hr]
        simp
        omega
  · rw [List.getElem?_append_right (by simp)]
    simp

/-- The arrays of the graph built from `raceEdges`, in the row of vertex 0. -/
theorem race_graph :
    (create_csr_graph 2 raceEdges).row_ptr.getD 0 0 = 0 ∧
    (create_csr_graph 2 raceEdges).row_ptr.getD 1 0 = 513 ∧
    (∀ j, j < 513 → (create_csr_graph 2 raceEdges).col_idx.getD j 0 = 1) ∧
    (∀ j, j < 512 → (create_csr_graph 2 raceEdges).weights.getD j 0 = 3) ∧
    (create_csr_graph 2 raceEdges).weights.getD 512 0 = 5 := by
  obtain ⟨_, _, _, h4, h5⟩ := create_csr_graph_spec 2 raceEdges inRange_raceEdges
  have h0 : (create_csr_graph 2 raceEdges).row_ptr.getD 0 0 = 0 := by
    rw [h4 0 (by omega)]; rfl
  have h1 : (create_csr_graph 2 raceEdges).row_ptr.getD 1 0 = 513 := by
    rw [h4 1 (by omega), Finset.sum_range_one, ← length_incident, incident_raceEdges,
      length_replicate_append]
  have h5' := h5 0 (by omega)
  rw [h0, incident_raceEdges] at h5'
  have hlast := h5' 512 (1, 5) (getElem?_replicate_append 512 (1, 3) (1, 5) 512).2
  have hfirst : ∀ j, j < 512 →
      (create_csr_graph 2 raceEdges).col_idx.getD (0 + j) 0 = 1 ∧
      (create_csr_graph 2 raceEdges).weights.getD (0 + j) 0 = 3 := fun j hj =>
    h5' j (1, 3) ((getElem?_replicate_append 512 (1, 3) (1, 5) j).1.2 (Or.inl hj))
  refine ⟨h0, h1, ?_, ?_, ?_⟩
  · intro j hj
    by_cases hj2 : j < 512
    · have := (hfirst j hj2).1
      rw [Nat.zero_add] at this
      exact this
    · have hj3 : j = 512 := by omega
      subst hj3
      exact hlast.1
  · intro j hj
    have := (hfirst j hj).2
    rw [Nat.zero_add] at this
    exact this
  · exact hlast.2


theorem wrap32_three : wrap32 (0 + 3) = 3 := by decide

theorem wrap32_five : wrap32 (0 + 5) = 5 := by decide

/-- Worker 0 alone in the rest of the first chunk, the distance of vertex 1 being 3
already: no comparison is passed. -/
theorem race_chunk (g : CSRGraph) (hc : ∀ j, j < 513 → g.col_idx.getD j 0 = 1)
    (hw : ∀ j, j < 512 → g.weights.getD j 0 = 3) (nx : Nat) (p : Pc) :
    ∀ k i, i < 512 → i + k ≤ 512 →
      (List.replicate k 0).foldl (workerStep g 0)
        ⟨⟨[0, 3], [true, false]⟩, nx, [Pc.test i 512, p]⟩ =
      ⟨⟨[0, 3], [true, false]⟩, nx,
        [if i + k < 512 then Pc.test (i + k) 512 else Pc.idle, p]⟩ := by
  intro k
  induction k with
  | zero =>
    intro i hi _
    rw [List.replicate_zero, List.foldl_nil, Nat.add_zero, if_pos hi]
  | succ k ih =>
    intro i hi hik
    have hstep : workerStep g 0 ⟨⟨[0, 3], [true, false]⟩, nx, [Pc.test i 512, p]⟩ 0 =
        ⟨⟨[0, 3], [true, false]⟩, nx, [advance i 512, p]⟩ := by
      simp only [workerStep, List.getD_cons_zero]
      rw [hc i (by omega), hw i hi]
      simp only [List.getD_cons_succ, List.getD_cons_zero, wrap32_three]
      simp
    rw [List.replicate_succ, List.foldl_cons, hstep]
    by_cases h1 : i + 1 < 512
    · rw [advance, if_pos h1, ih (i + 1) h1 (by omega)]
      have : i + 1 + k = i + (k + 1) := by omega
      rw [this]
    · have hk : k = 0 := by omega
      subst hk
      rw [advance, if_neg h1, List.replicate_zero, List.foldl_nil]

/-- The run of the relaxation loop of vertex 0 under `raceInterleaving`, on any graph with
the arrays of `race_graph`. -/
theorem race_run (g : CSRGraph) (h0 : g.row_ptr.getD 0 0 = 0)
    (h1 : g.row_ptr.getD (0 + 1) 0 = 513)
    (hc : ∀ j, j < 513 → g.col_idx.getD j 0 = 1)
    (hw : ∀ j, j < 512 → g.weights.getD j 0 = 3) (hw5 : g.weights.getD 512 0 = 5) :
    relaxRun g 0 2 raceInterleaving ⟨[0, INF], [true, false]⟩ =
      ⟨⟨[0, 5], [true, false]⟩, 1024, [Pc.finished, Pc.finished]⟩ := by
  have s1 : workerStep g 0 ⟨⟨[0, INF], [true, false]⟩, 0, [Pc.idle, Pc.idle]⟩ 0 =
      ⟨⟨[0, INF], [true, false]⟩, 512, [Pc.test 0 512, Pc.idle]⟩ := by
    simp only [workerStep, List.getD_cons_zero, List.getD_cons_succ]
    rw [h1]
    simp
  have s2 : workerStep g 0 ⟨⟨[0, INF], [true, false]⟩, 512, [Pc.test 0 512, Pc.idle]⟩ 1 =
      ⟨⟨[0, INF], [true, false]⟩, 1024, [Pc.test 0 512, Pc.test 512 513]⟩ := by
    simp only [workerStep, List.getD_cons_zero, List.getD_cons_succ]
    rw [h1]
    simp
  have s3 : workerStep g 0
      ⟨⟨[0, INF], [true, false]⟩, 1024, [Pc.test 0 512, Pc.test 512 513]⟩ 1 =
      ⟨⟨[0, INF], [true, false]⟩, 1024, [Pc.test 0 512, Pc.write 512 513 1 5]⟩ := by
    simp only [workerStep, List.getD_cons_zero, List.getD_cons_succ]
    rw [hc 512 (by omega), hw5]
    simp only [List.getD_cons_succ, List.getD_cons_zero, wrap32_five]
    simp [INF]
  have s4 : workerStep g 0
      ⟨⟨[0, INF], [true, false]⟩, 1024, [Pc.test 0 512, Pc.write 512 513 1 5]⟩ 0 =
      ⟨⟨[0, INF], [true, false]⟩, 1024, [Pc.write 0 512 1 3, Pc.write 512 513 1 5]⟩ := by
    simp only [workerStep, List.getD_cons_zero, List.getD_cons_succ]
    rw [hc 0 (by omega), hw 0 (by omega)]
    simp only [List.getD_cons_succ, List.getD_cons_zero, wrap32_three]
    simp [INF]
  have s5 : workerStep g 0
      ⟨⟨[0, INF], [true, false]⟩, 1024, [Pc.write 0 512 1 3, Pc.write 512 513 1 5]⟩ 0 =
      ⟨⟨[0, 3], [true, false]⟩, 1024, [Pc.test 1 512, Pc.write 512 513 1 5]⟩ := by
    simp [workerStep, advance]
  have s6 := race_chunk g hc hw 1024 (Pc.write 512 513 1 5) 511 1 (by omega) (by omega)
  rw [if_neg (by omega)] at s6
  have s7 : workerStep g 0
      ⟨⟨[0, 3], [true, false]⟩, 1024, [Pc.idle, Pc.write 512 513 1 5]⟩ 0 =
      ⟨⟨[0, 3], [true, false]⟩, 1024, [Pc.finished, Pc.write 512 513 1 5]⟩ := by
    simp only [workerStep, List.getD_cons_zero, List.getD_cons_succ]
    rw [h1]
    simp
  have s8 : workerStep g 0
      ⟨⟨[0, 3], [true, false]⟩, 1024, [Pc.finished, Pc.write 512 513 1 5]⟩ 1 =
      ⟨⟨[0, 5], [true, false]⟩, 1024, [Pc.finished, Pc.idle]⟩ := by
    simp [workerStep, advance]
  have s9 : workerStep g 0
      ⟨⟨[0, 5], [true, false]⟩, 1024, [Pc.finished, Pc.idle]⟩ 1 =
      ⟨⟨[0, 5], [true, false]⟩, 1024, [Pc.finished, Pc.finished]⟩ := by
    simp only [workerStep, List.getD_cons_zero, List.getD_cons_succ]
    rw [h1]
    simp
  have hstart : (List.replicate 2 Pc.idle) = [Pc.idle, Pc.idle] := rfl
  rw [relaxRun, raceInterleaving, h0, hstart]
  simp only [List.cons_append, List.nil_append, List.foldl_cons, List.foldl_append,
    List.foldl_nil]
  rw [s1, s2, s3, s4, s5, s6, s7, s8, s9]


theorem race_start : markVisited (initState 2 0) 0 = ⟨[0, INF], [true, false]⟩ := rfl

theorem race_weights : ∀ e ∈ raceEdges, 1 ≤ e.weight ∧ e.weight ≤ MAXW := by
  intro e he
  rw [raceEdges, List.mem_append, List.mem_replicate, List.mem_singleton] at he
  rcases he with ⟨_, h⟩ | h <;> rw [h] <;> exact ⟨by decide, by decide⟩

theorem race_joins (u : Nat) (w : Int) (h : Joins raceEdges u 1 w) :
    u = 0 ∧ (w = 3 ∨ w = 5) := by
  obtain ⟨e, he, hw, hends⟩ := h
  rw [raceEdges, List.mem_append, List.mem_replicate, List.mem_singleton] at he
  rcases he with ⟨_, h⟩ | h
  · subst h
    simp only at hw hends
    refine ⟨?_, Or.inl hw.symm⟩
    rcases hends with ⟨a, _⟩ | ⟨a, _⟩
    · exact a.symm
    · cases a
  · subst h
    simp only at hw hends
    refine ⟨?_, Or.inr hw.symm⟩
    rcases hends with ⟨a, _⟩ | ⟨a, _⟩
    · exact a.symm
    · cases a

theorem race_joins_three : Joins raceEdges 0 1 3 :=
  ⟨⟨0, 1, 3⟩, by
    rw [raceEdges, List.mem_append, List.mem_replicate]
    exact Or.inl ⟨by decide, rfl⟩, rfl, Or.inl ⟨rfl, rfl⟩⟩

theorem race_joins_five : Joins raceEdges 0 1 5 :=
  ⟨⟨0, 1, 5⟩, by
    rw [raceEdges, List.mem_append, List.mem_singleton]
    exact Or.inr rfl, rfl, Or.inl ⟨rfl, rfl⟩⟩

/-- C13: in the relaxation loop of `dijkstra_parallel` the comparison of line 167
and the store of line 169 are two steps.  On the graph built from `raceEdges`, where the
chosen vertex 0 has entries of weights 3 and 5 for its neighbour 1 (a duplicated line),
the interleaving `raceInterleaving` of two workers ends, both workers finished, with
`distances[1] = 5`; the relaxation loop of `dijkstra_sequential` leaves 3 there in
whatever order it takes the entries, and so does `dijkstra_sequential` at its end. -/
theorem racy_store_keeps_larger_candidate :
    (1, 3) ∈ adjacency (create_csr_graph 2 raceEdges) 0 ∧
    (1, 5) ∈ adjacency (create_csr_graph 2 raceEdges) 0 ∧
    scan (initState 2 0) (List.range 2) = (0, 0) ∧
    relaxRun (create_csr_graph 2 raceEdges) 0 2 raceInterleaving
        (markVisited (initState 2 0) 0) =
      ⟨⟨[0, 5], [true, false]⟩, 1024, [Pc.finished, Pc.finished]⟩ ∧
    (∀ js : List Nat, js.Perm (adjRange (create_csr_graph 2 raceEdges) 0) →
      (js.foldl (relaxStep (create_csr_graph 2 raceEdges) 0)
        (markVisited (initState 2 0) 0)).distances.getD 1 0 = 3) ∧
    (dijkstra_sequential (create_csr_graph 2 raceEdges) 0).getD 1 0 = 3 := by
  obtain ⟨g0, g1, gc, gw, gw5⟩ := race_graph
  have hr := inRange_raceEdges
  have hadj := adjacency_create 2 raceEdges hr 0 (by omega)
  refine ⟨?_, ?_, by decide, ?_, ?_, ?_⟩
  · rw [hadj, mem_incident]; exact race_joins_three
  · rw [hadj, mem_incident]; exact race_joins_five
  · rw [race_start]
    exact race_run _ g0 g1 gc gw gw5
  · intro js hjs
    have hv1 : (markVisited (initState 2 0) 0).visited.getD 0 false = true := rfl
    obtain ⟨_, _, _, r4, r5⟩ :=
      relax_fold (create_csr_graph 2 raceEdges) 0 (markVisited (initState 2 0) 0) hv1 js
    have hmem : ∀ j, j ∈ js ↔ j < 513 := by
      intro j
      rw [hjs.mem_iff, adjRange, g0, g1, List.mem_range']
      constructor
      · rintro ⟨i, hi, rfl⟩; omega
      · intro h; exact ⟨j, by omega, by omega⟩
    have hd0 : (markVisited (initState 2 0) 0).distances.getD 0 0 = 0 := rfl
    have hd1 : (markVisited (initState 2 0) 0).distances.getD 1 0 = INF := rfl
    have hle := r5 0 ((hmem 0).2 (by omega)) (by rw [gc 0 (by omega)]; rfl)
      (by rw [gc 0 (by omega)]; decide)
    rw [gc 0 (by omega), gw 0 (by omega), hd0, wrap32_three] at hle
    rcases r4 1 with h | ⟨_, j, hj, _, h⟩
    · rw [hd1] at h
      rw [h] at hle
      exact absurd hle (by decide)
    · rw [hd0] at h
      have hj' := (hmem j).1 hj
      by_cases hj2 : j < 512
      · rw [gw j hj2, wrap32_three] at h; exact h
      · have hj3 : j = 512 := by omega
        rw [hj3, gw5, wrap32_five] at h
        rw [h] at hle
        exact absurd hle (by decide)
  · have hF := sequential_final (create_csr_graph 2 raceEdges)
      (graphOK_create 2 raceEdges hr race_weights) 0 (by decide)
    obtain ⟨e1, e2⟩ := final_edges 2 raceEdges hr 0 _ hF
    have h0 : (dijkstra_sequential (create_csr_graph 2 raceEdges) 0).getD 0 0 = 0 :=
      hF.2.2.1
    have hle := e1 0 1 3 race_joins_three
    rw [h0] at hle
    obtain ⟨u, w, hJ, hw⟩ := e2 1 (by omega) (by omega) (by
      have : (3 : Int) < INF := by decide
      omega)
    obtain ⟨hu, hw'⟩ := race_joins u w hJ
    subst hu
    rw [h0] at hw
    rcases hw' with h | h <;> omega

end Cmp

namespace Dfs

theorem count_false_mono (l l' : List Bool) (hlen : l.length = l'.length)
    (h : ∀ u, l.getD u false = true → l'.getD u false = true) :
    l'.count false ≤ l.count false := by
  induction l generalizing l' with
  | nil =>
    cases l' with
    | nil => exact le_refl _
    | cons b l' => simp at hlen
  | cons a l ih =>
    cases l' with
    | nil => simp at hlen
    | cons b l' =>
      simp only [List.length_cons, Nat.add_right_cancel_iff] at hlen
      have h0 := h 0
      simp only [List.getD_cons_zero] at h0
      have hrec := ih l' hlen (fun u hu => by
        have := h (u + 1)
        simp only [List.getD_cons_succ] at this
        exact this hu)
      simp only [List.count_cons]
      cases a <;> cases b <;> simp at h0 ⊢ <;> omega

/-- What the loop of `dfs` over the neighbours `as` does, given that `dfs` with the
remaining fuel meets its specification. -/
theorem dfs_loop_spec (g : Graph) (n fuel : Nat)
    (H : ∀ v vis, vis.length = n → v < n → vis.getD v false = false →
      vis.count false ≤ fuel →
      ∃ vis', dfs g fuel v vis = some vis' ∧ vis'.length = n ∧
        (∀ u, vis.getD u false = true → vis'.getD u false = true) ∧
        vis'.getD v false = true ∧
        (∀ u, u < n → vis'.getD u false = true → vis.getD u false = false →
          ∀ a ∈ g.adj_list.getD u [], vis'.getD a false = true) ∧
        (∀ u, u < n → vis'.getD u false = true → vis.getD u false = false →
          Relation.ReflTransGen (fun x y => y ∈ g.adj_list.getD x []) v u)) :
    ∀ (as : List Nat) (vis0 : List Bool), (∀ a ∈ as, a < n) → vis0.length = n →
      vis0.count false ≤ fuel →
      ∃ vis', as.foldlM
          (fun vis a => if vis.getD a false then some vis else dfs g fuel a vis) vis0 =
          some vis' ∧ vis'.length = n ∧
        (∀ u, vis0.getD u false = true → vis'.getD u false = true) ∧
        (∀ a ∈ as, vis'.getD a false = true) ∧
        (∀ u, u < n → vis'.getD u false = true → vis0.getD u false = false →
          ∀ a ∈ g.adj_list.getD u [], vis'.getD a false = true) ∧
        (∀ u, u < n → vis'.getD u false = true → vis0.getD u false = false →
          ∃ a ∈ as, Relation.ReflTransGen (fun x y => y ∈ g.adj_list.getD x []) a u) := by
  intro as
  induction as with
  | nil =>
    intro vis0 _ hl _
    refine ⟨vis0, rfl, hl, fun _ h => h, by simp, ?_, ?_⟩
    · intro u _ h1 h2; rw [h1] at h2; cases h2
    · intro u _ h1 h2; rw [h1] at h2; cases h2
  | cons a rest ih =>
    intro vis0 has hl hc
    have hrest : ∀ b ∈ rest, b < n := fun b hb => has b (by simp [hb])
    rw [List.foldlM_cons]
    by_cases hva : vis0.getD a false = true
    · rw [if_pos hva]
      obtain ⟨vis', e, l', m', a', c', s'⟩ := ih vis0 hrest hl hc
      refine ⟨vis', e, l', m', ?_, c', ?_⟩
      · intro b hb
        rcases List.mem_cons.1 hb with h | h
        · rw [h]; exact m' a hva
        · exact a' b h
      · intro u hu h1 h2
        obtain ⟨b, hb, hr⟩ := s' u hu h1 h2
        exact ⟨b, by simp [hb], hr⟩
    · have hva' : vis0.getD a false = false := by
        cases h : vis0.getD a false with
        | true => exact absurd h hva
        | false => rfl
      rw [if_neg hva]
      obtain ⟨vis1, e1, l1, m1, a1, c1, s1⟩ := H a vis0 hl (has a (by simp)) hva' hc
      have hc1 : vis1.count false ≤ fuel :=
        le_trans (count_false_mono vis0 vis1 (by rw [hl, l1]) m1) hc
      obtain ⟨vis', e, l', m', a', c', s'⟩ := ih vis1 hrest l1 hc1
      refine ⟨vis', ?_, l', fun u h => m' u (m1 u h), ?_, ?_, ?_⟩
      · rw [e1]; exact e
      · intro b hb
        rcases List.mem_cons.1 hb with h | h
        · rw [h]; exact m' a a1
        · exact a' b h
      · intro u hu h1 h2 b hb
        by_cases h3 : vis1.getD u false = true
        · exact m' b (c1 u hu h3 h2 b hb)
        · have h3' : vis1.getD u false = false := by
            cases h : vis1.getD u false with
            | true => exact absurd h h3
            | false => rfl
          exact c' u hu h1 h3' b hb
      · intro u hu h1 h2
        by_cases h3 : vis1.getD u false = true
        · exact ⟨a, by simp, s1 u hu h3 h2⟩
        · have h3' : vis1.getD u false = false := by
            cases h : vis1.getD u false with
            | true => exact absurd h h3
            | false => rfl
          obtain ⟨b, hb, hr⟩ := s' u hu h1 h3'
          exact ⟨b, by simp [hb], hr⟩

/-- Specification of `dfs` on a graph whose adjacency lists name vertices: with fuel for
every unvisited vertex it returns; it only adds marks, it marks its vertex, every vertex
it marks has all its neighbours marked, and is reachable from its vertex. -/
theorem dfs_spec (g : Graph) (n : Nat)
    (hin : ∀ u, u < n → ∀ a ∈ g.adj_list.getD u [], a < n) :
    ∀ (fuel : Nat) (v : Nat) (vis : List Bool), vis.length = n → v < n →
      vis.getD v false = false → vis.count false ≤ fuel →
      ∃ vis', dfs g fuel v vis = some vis' ∧ vis'.length = n ∧
        (∀ u, vis.getD u false = true → vis'.getD u false = true) ∧
        vis'.getD v false = true ∧
        (∀ u, u < n → vis'.getD u false = true → vis.getD u false = false →
          ∀ a ∈ g.adj_list.getD u [], vis'.getD a false = true) ∧
        (∀ u, u < n → vis'.getD u false = true → vis.getD u false = false →
          Relation.ReflTransGen (fun x y => y ∈ g.adj_list.getD x []) v u) := by
  intro fuel
  induction fuel with
  | zero =>
    intro v vis hl hv hvis hc
    have h1 := Cmp.count_false_set vis v (by omega) hvis
    omega
  | succ fuel ih =>
    intro v vis hl hv hvis hc
    have hcnt := Cmp.count_false_set vis v (by omega) hvis
    have hget : ∀ x, (vis.set v true).getD x false =
        if v = x then true else vis.getD x false := by
      intro x
      rw [Cmp.getD_set]
      by_cases h : v = x
      · subst h; rw [if_pos ⟨rfl, by omega⟩, if_pos rfl]
      · rw [if_neg (fun e => h e.1), if_neg h]
    obtain ⟨vis', e, l', m', a', c', s'⟩ := dfs_loop_spec g n fuel ih
      (g.adj_list.getD v []) (vis.set v true) (hin v hv) (by simp [hl]) (by omega)
    refine ⟨vis', ?_, l', ?_, ?_, ?_, ?_⟩
    · rw [dfs]; exact e
    · intro u hu
      apply m'
      rw [hget]; split_ifs
      · rfl
      · exact hu
    · apply m'
      rw [hget, if_pos rfl]
    · intro u hu h1 h2 b hb
      by_cases huv : v = u
      · subst huv; exact a' b hb
      · exact c' u hu h1 (by rw [hget, if_neg huv]; exact h2) b hb
    · intro u hu h1 h2
      by_cases huv : v = u
      · subst huv; exact Relation.ReflTransGen.refl
      · obtain ⟨a, ha, hr⟩ := s' u hu h1 (by rw [hget, if_neg huv]; exact h2)
        exact Relation.ReflTransGen.head ha hr

/-- Started with no mark, `dfs` marks exactly the vertices reachable from its vertex
through the adjacency lists. -/
theorem dfs_marks_reachable (g : Graph) (n : Nat)
    (hin : ∀ u, u < n → ∀ a ∈ g.adj_list.getD u [], a < n) (fuel : Nat) (hf : n ≤ fuel)
    (v : Nat) (hv : v < n) :
    ∃ vis', dfs g fuel v (List.replicate n false) = some vis' ∧ vis'.length = n ∧
      ∀ u, u < n → (vis'.getD u false = true ↔
        Relation.ReflTransGen (fun x y => y ∈ g.adj_list.getD x []) v u) := by
  have hall : ∀ u, (List.replicate n false).getD u false = false := by
    intro u
    rw [Cmp.getD_replicate]; split_ifs <;> rfl
  obtain ⟨vis', e, l', _, a', c', s'⟩ := dfs_spec g n hin fuel v
    (List.replicate n false) (by simp) hv (hall v)
    (le_trans (List.count_le_length _ _) (by simpa using hf))
  refine ⟨vis', e, l', ?_⟩
  intro u hu
  constructor
  · intro h; exact s' u hu h (hall u)
  · intro h
    have key : ∀ x, Relation.ReflTransGen (fun x y => y ∈ g.adj_list.getD x []) v x →
        x < n ∧ vis'.getD x false = true := by
      intro x hx
      induction hx with
      | refl => exact ⟨hv, a'⟩
      | tail _ hstep ih =>
        exact ⟨hin _ ih.1 _ hstep, c' _ ih.1 ih.2 (hall _) _ hstep⟩
    exact (key u h).2


theorem add_edge_length (g : Graph) (s d : Nat) :
    (add_edge g s d).adj_list.length = g.adj_list.length := by
  simp [add_edge]

theorem add_edge_num_nodes (g : Graph) (s d : Nat) :
    (add_edge g s d).num_nodes = g.num_nodes := rfl

theorem mem_add_edge (g : Graph) (s d : Nat) (hs : s < g.adj_list.length)
    (hd : d < g.adj_list.length) (u a : Nat) :
    a ∈ (add_edge g s d).adj_list.getD u [] ↔
      (a ∈ g.adj_list.getD u [] ∨ (u = s ∧ a = d) ∨ (u = d ∧ a = s)) := by
  have hd' : d < (g.adj_list.set s (d :: g.adj_list.getD s [])).length := by
    rw [List.length_set]; exact hd
  simp only [add_edge]
  rw [Cmp.getD_set, Cmp.getD_set, Cmp.getD_set]
  by_cases h1 : d = u
  · subst h1
    rw [if_pos ⟨rfl, hd'⟩]
    by_cases h2 : s = d
    · subst h2
      rw [if_pos ⟨rfl, hs⟩]
      simp only [List.mem_cons]
      constructor
      · rintro (h | h | h)
        · exact Or.inr (Or.inl ⟨trivial, h⟩)
        · exact Or.inr (Or.inl ⟨trivial, h⟩)
        · exact Or.inl h
      · rintro (h | ⟨_, h⟩ | ⟨_, h⟩)
        · exact Or.inr (Or.inr h)
        · exact Or.inl h
        · exact Or.inl h
    · rw [if_neg (fun e => h2 e.1)]
      simp only [List.mem_cons]
      constructor
      · rintro (h | h)
        · exact Or.inr (Or.inr ⟨trivial, h⟩)
        · exact Or.inl h
      · rintro (h | ⟨e, _⟩ | ⟨_, h⟩)
        · exact Or.inr h
        · exact absurd e.symm h2
        · exact Or.inl h
  · rw [if_neg (fun e => h1 e.1)]
    by_cases h2 : s = u
    · subst h2
      rw [if_pos ⟨rfl, hs⟩]
      simp only [List.mem_cons]
      constructor
      · rintro (h | h)
        · exact Or.inr (Or.inl ⟨trivial, h⟩)
        · exact Or.inl h
      · rintro (h | ⟨_, h⟩ | ⟨e, _⟩)
        · exact Or.inr h
        · exact Or.inl h
        · exact absurd e.symm h1
    · rw [if_neg (fun e => h2 e.1)]
      constructor
      · intro h; exact Or.inl h
      · rintro (h | ⟨e, _⟩ | ⟨e, _⟩)
        · exact h
        · exact absurd e.symm h2
        · exact absurd e.symm h1

theorem build_graph_append (n : Nat) (ps : List (Nat × Nat)) (p : Nat × Nat) :
    build_graph n (ps ++ [p]) = add_edge (build_graph n ps) p.1 p.2 := by
  simp [build_graph, List.foldl_append]

/-- The graph built from a pair list: `num_nodes` lists, and `a` is on the list of `u`
exactly if the pair list has the edge `u - a`. -/
theorem build_graph_spec (n : Nat) (pairs : List (Nat × Nat))
    (hr : ∀ p ∈ pairs, p.1 < n ∧ p.2 < n) :
    (build_graph n pairs).num_nodes = n ∧ (build_graph n pairs).adj_list.length = n ∧
      ∀ u a, a ∈ (build_graph n pairs).adj_list.getD u [] ↔ Linked pairs u a := by
  induction pairs using List.reverseRecOn with
  | nil =>
    refine ⟨rfl, by simp [build_graph, create_graph], ?_⟩
    intro u a
    simp only [build_graph, create_graph, List.foldl_nil, Linked]
    rw [Cmp.getD_replicate]
    split_ifs <;> simp
  | append_singleton ps p ih =>
    obtain ⟨h1, h2, h3⟩ := ih (fun q hq => hr q (by simp [hq]))
    have hp := hr p (by simp)
    rw [build_graph_append]
    refine ⟨by rw [add_edge_num_nodes, h1], by rw [add_edge_length, h2], ?_⟩
    intro u a
    rw [mem_add_edge _ _ _ (by rw [h2]; exact hp.1) (by rw [h2]; exact hp.2), h3]
    simp only [Linked, List.mem_append, List.mem_singleton]
    constructor
    · rintro ((h | h) | ⟨e1, e2⟩ | ⟨e1, e2⟩)
      · exact Or.inl (Or.inl h)
      · exact Or.inr (Or.inl h)
      · exact Or.inl (Or.inr (by rw [e1, e2]))
      · exact Or.inr (Or.inr (by rw [e1, e2]))
    · rintro ((h | h) | (h | h))
      · exact Or.inl (Or.inl h)
      · rw [← h]; exact Or.inr (Or.inl ⟨rfl, rfl⟩)
      · exact Or.inl (Or.inr h)
      · rw [← h]; exact Or.inr (Or.inr ⟨rfl, rfl⟩)

theorem reach_lt (n : Nat) (pairs : List (Nat × Nat))
    (hr : ∀ p ∈ pairs, p.1 < n ∧ p.2 < n) (v u : Nat) (hv : v < n)
    (h : Reach pairs v u) : u < n := by
  induction h with
  | refl => exact hv
  | tail _ hstep _ =>
    rcases hstep with h | h
    · exact (hr _ h).2
    · exact (hr _ h).1

theorem adj_eq_linked (g : Graph) (pairs : List (Nat × Nat))
    (h : ∀ u a, a ∈ g.adj_list.getD u [] ↔ Linked pairs u a) :
    (fun x y => y ∈ g.adj_list.getD x []) = Linked pairs := by
  funext x y
  exact propext (h x y)

/-- C17: on a graph with at least one vertex built by `create_graph` and one
`add_edge` per pair of an in-range pair list, `dfs` started on a cleared `visited` array
returns as soon as the recursion may go as deep as there are vertices, and the marks it
leaves are exactly the vertices reachable from its start vertex; `is_connected` returns 1
or 0, and it returns 1 exactly if every vertex is reachable from vertex 0. -/
theorem dfs_marks_exactly_reachable (n : Nat) (pairs : List (Nat × Nat)) (hn : 1 ≤ n)
    (hr : ∀ p ∈ pairs, p.1 < n ∧ p.2 < n) (fuel : Nat) (hf : n ≤ fuel) :
    (∀ start, start < n →
      ∃ vis', dfs (build_graph n pairs) fuel start (List.replicate n false) = some vis' ∧
        vis'.length = n ∧ ∀ u, (vis'.getD u false = true ↔ Reach pairs start u)) ∧
    (is_connected (build_graph n pairs) fuel = some 1 ∨
      is_connected (build_graph n pairs) fuel = some 0) ∧
    (is_connected (build_graph n pairs) fuel = some 1 ↔ ∀ u, u < n → Reach pairs 0 u) := by
  obtain ⟨h1, _, h3⟩ := build_graph_spec n pairs hr
  have hin : ∀ u, u < n → ∀ a ∈ (build_graph n pairs).adj_list.getD u [], a < n := by
    intro u _ a ha
    rcases (h3 u a).1 ha with h | h
    · exact (hr _ h).2
    · exact (hr _ h).1
  have hdfs : ∀ start, start < n →
      ∃ vis', dfs (build_graph n pairs) fuel start (List.replicate n false) = some vis' ∧
        vis'.length = n ∧ ∀ u, (vis'.getD u false = true ↔ Reach pairs start u) := by
    intro start hs
    obtain ⟨vis', e, l', hiff⟩ :=
      dfs_marks_reachable (build_graph n pairs) n hin fuel hf start hs
    rw [adj_eq_linked _ pairs h3] at hiff
    refine ⟨vis', e, l', ?_⟩
    intro u
    by_cases hu : u < n
    · exact hiff u hu
    · constructor
      · intro h
        rw [List.getD_eq_default _ _ (by omega)] at h
        cases h
      · intro h
        exact absurd (reach_lt n pairs hr start u hs h) hu
  obtain ⟨vis', e, _, hiff⟩ := hdfs 0 (by omega)
  have hall : ((List.range n).all (fun i => vis'.getD i false) = true) ↔
      ∀ u, u < n → Reach pairs 0 u := by
    rw [List.all_eq_true]
    constructor
    · intro h u hu
      exact (hiff u).1 (h u (List.mem_range.2 hu))
    · intro h u hu
      exact (hiff u).2 (h u (List.mem_range.1 hu))
  have hic : is_connected (build_graph n pairs) fuel =
      if (List.range n).all (fun i => vis'.getD i false) then some 1 else some 0 := by
    simp only [is_connected, h1, e]
  refine ⟨hdfs, ?_, ?_⟩
  · rw [hic]; split_ifs
    · exact Or.inl rfl
    · exact Or.inr rfl
  · rw [hic, ← hall]
    by_cases h : (List.range n).all (fun i => vis'.getD i false) = true
    · rw [if_pos h]; exact ⟨fun _ => h, fun _ => rfl⟩
    · rw [if_neg h]
      exact ⟨fun e => (by cases e), fun e => absurd e h⟩

theorem dfs_marks_exactly_reachable_witness :
    dfs (build_graph 4 [(0, 1), (2, 3)]) 4 0 (List.replicate 4 false) =
      some [true, true, false, false] ∧
    is_connected (build_graph 4 [(0, 1), (2, 3)]) 4 = some 0 ∧
    is_connected (build_graph 3 [(0, 1), (1, 2)]) 3 = some 1 ∧
    (is_connected (build_graph 3 [(0, 1), (1, 2)]) 3 = some 1 ↔
      ∀ u, u < 3 → Reach [(0, 1), (1, 2)] 0 u) :=
  ⟨by decide, by decide, by decide,
    (dfs_marks_exactly_reachable 3 [(0, 1), (1, 2)] (by decide) (by decide) 3
      (le_refl 3)).2.2⟩

/-- C19: on the file `3 2`, `0 1 1`, `0 2 1`, which describes a connected graph,
`read_graph` takes the weight of the first line for a vertex id: it adds the edge 0 - 1
twice and no edge to vertex 2, and `is_connected` answers 0; on the edges of the file
`is_connected` answers 1, and every vertex is reachable from vertex 0. -/
theorem read_graph_takes_weight_for_vertex :
    (read_graph 3 2 (fileTokens [⟨0, 1, 1⟩, ⟨0, 2, 1⟩])).adj_list = [[1, 1], [0, 0], []] ∧
    read_graph 3 2 (fileTokens [⟨0, 1, 1⟩, ⟨0, 2, 1⟩]) = build_graph 3 [(0, 1), (1, 0)] ∧
    is_connected (read_graph 3 2 (fileTokens [⟨0, 1, 1⟩, ⟨0, 2, 1⟩])) 3 = some 0 ∧
    is_connected (build_graph 3 [(0, 1), (0, 2)]) 3 = some 1 ∧
    (∀ u, u < 3 → Reach [(0, 1), (0, 2)] 0 u) := by
  refine ⟨by decide, by decide, by decide, by decide, ?_⟩
  intro u hu
  have h01 : Reach [(0, 1), (0, 2)] 0 1 :=
    Relation.ReflTransGen.single (Or.inl (by simp))
  have h02 : Reach [(0, 1), (0, 2)] 0 2 :=
    Relation.ReflTransGen.single (Or.inl (by simp))
  interval_cases u
  · exact Relation.ReflTransGen.refl
  · exact h01
  · exact h02

end Dfs

namespace Dparallel

theorem getD_map_range {α : Type} (n i : Nat) (f : Nat → α) (d : α) (hi : i < n) :
    ((List.range n).map f).getD i d = f i := by
  rw [List.getD_eq_getElem _ _ (by simpa using hi)]
  simp

theorem create_graph_spec (n : Nat) :
    Square (create_graph n) n ∧
    ∀ i j, i < n → j < n → entry (create_graph n) i j = if i = j then 0 else Cmp.INF := by
  have hrow : ∀ i, i < n → (create_graph n).getD i [] =
      (List.range n).map fun j => if i = j then 0 else Cmp.INF := by
    intro i hi
    rw [create_graph, getD_map_range n i _ _ hi]
  refine ⟨⟨by simp [create_graph], ?_⟩, ?_⟩
  · intro i hi
    rw [hrow i hi]; simp
  · intro i j hi hj
    rw [entry, hrow i hi, getD_map_range n j _ _ hj]

theorem setEntry_spec (graph : List (List Int)) (n : Nat) (hsq : Square graph n)
    (u v : Nat) (hu : u < n) (hv : v < n) (w : Int) :
    Square (setEntry graph u v w) n ∧
    ∀ i j, entry (setEntry graph u v w) i j =
      if i = u ∧ j = v then w else entry graph i j := by
  obtain ⟨h1, h2⟩ := hsq
  have hrow : ∀ i, (setEntry graph u v w).getD i [] =
      if u = i then (graph.getD u []).set v w else graph.getD i [] := by
    intro i
    rw [setEntry, Cmp.getD_set]
    by_cases h : u = i
    · rw [if_pos ⟨h, by omega⟩, if_pos h]
    · rw [if_neg (fun e => h e.1), if_neg h]
  refine ⟨⟨by simp [setEntry, h1], ?_⟩, ?_⟩
  · intro i hi
    rw [hrow]
    by_cases h : u = i
    · rw [if_pos h, List.length_set]; exact h2 u hu
    · rw [if_neg h]; exact h2 i hi
  · intro i j
    rw [entry, hrow]
    by_cases h : u = i
    · subst h
      rw [if_pos rfl, Cmp.getD_set]
      by_cases hj : v = j
      · subst hj
        rw [if_pos ⟨rfl, by rw [h2 u hu]; exact hv⟩, if_pos ⟨rfl, rfl⟩]
      · rw [if_neg (fun e => hj e.1), if_neg (fun e => hj e.2.symm)]
        rfl
    · rw [if_neg h, if_neg (fun e => h e.1.symm)]
      rfl

theorem readStep_spec (graph : List (List Int)) (n : Nat) (hsq : Square graph n)
    (e : Cmp.Edge) (hs : e.src < n) (hd : e.dest < n) :
    Square (readStep graph e) n ∧
    ∀ i j, entry (readStep graph e) i j =
      if (i = e.src ∧ j = e.dest) ∨ (i = e.dest ∧ j = e.src) then e.weight
      else entry graph i j := by
  obtain ⟨a1, a2⟩ := setEntry_spec graph n hsq e.src e.dest hs hd e.weight
  obtain ⟨b1, b2⟩ := setEntry_spec _ n a1 e.dest e.src hd hs e.weight
  refine ⟨b1, ?_⟩
  intro i j
  rw [readStep, b2, a2]
  by_cases h1 : i = e.dest ∧ j = e.src
  · rw [if_pos h1, if_pos (Or.inr h1)]
  · rw [if_neg h1]
    by_cases h2 : i = e.src ∧ j = e.dest
    · rw [if_pos h2, if_pos (Or.inl h2)]
    · rw [if_neg h2, if_neg (by rintro (h | h); exact h2 h; exact h1 h)]

theorem joins_append (es : List Cmp.Edge) (e : Cmp.Edge) (i j : Nat) (w : Int) :
    Cmp.Joins (es ++ [e]) i j w ↔
      (Cmp.Joins es i j w ∨
        (e.weight = w ∧ ((e.src = i ∧ e.dest = j) ∨ (e.src = j ∧ e.dest = i)))) := by
  simp only [Cmp.Joins, List.mem_append, List.mem_singleton]
  constructor
  · rintro ⟨a, ha | ha, h⟩
    · exact Or.inl ⟨a, ha, h⟩
    · subst ha; exact Or.inr h
  · rintro (⟨a, ha, h⟩ | h)
    · exact ⟨a, Or.inl ha, h⟩
    · exact ⟨e, Or.inr rfl, h⟩

/-- The matrix read from an edge list with pairwise distinct vertex pairs: the entry of
a joined pair is the weight of its line, every other entry is as `create_graph` left
it. -/
theorem read_graph_spec (n : Nat) (edges : List Cmp.Edge) (hr : Cmp.InRange n edges)
    (hd : Cmp.DistinctPairs edges) :
    Square (read_graph n edges) n ∧
    ∀ i j, i < n → j < n →
      (∀ w, Cmp.Joins edges i j w → entry (read_graph n edges) i j = w) ∧
      ((∀ w, ¬ Cmp.Joins edges i j w) →
        entry (read_graph n edges) i j = if i = j then 0 else Cmp.INF) := by
  induction edges using List.reverseRecOn with
  | nil =>
    obtain ⟨a, b⟩ := create_graph_spec n
    refine ⟨a, ?_⟩
    intro i j hi hj
    refine ⟨?_, fun _ => b i j hi hj⟩
    rintro w ⟨e, he, _⟩
    cases he
  | append_singleton es e ih =>
    have hr' : Cmp.InRange n es := fun a ha => hr a (by simp [ha])
    have he := hr e (by simp)
    have hd' := List.pairwise_append.1 hd
    obtain ⟨sq, ih'⟩ := ih hr' hd'.1
    have hstep : read_graph n (es ++ [e]) = readStep (read_graph n es) e := by
      simp [read_graph, List.foldl_append]
    obtain ⟨sq', hent⟩ := readStep_spec _ n sq e he.1 he.2
    rw [hstep]
    refine ⟨sq', ?_⟩
    intro i j hi hj
    rw [hent]
    by_cases hm : (i = e.src ∧ j = e.dest) ∨ (i = e.dest ∧ j = e.src)
    · rw [if_pos hm]
      constructor
      · intro w hJ
        rcases (joins_append es e i j w).1 hJ with ⟨a, ha, _, hends⟩ | ⟨h, _⟩
        · exfalso
          apply hd'.2.2 a ha e (by simp)
          rcases hm with ⟨m1, m2⟩ | ⟨m1, m2⟩ <;> rcases hends with ⟨x1, x2⟩ | ⟨x1, x2⟩
          · exact Or.inl ⟨by rw [x1, m1], by rw [x2, m2]⟩
          · exact Or.inr ⟨by rw [x1, m2], by rw [x2, m1]⟩
          · exact Or.inr ⟨by rw [x1, m1], by rw [x2, m2]⟩
          · exact Or.inl ⟨by rw [x1, m2], by rw [x2, m1]⟩
        · exact h
      · intro hno
        exfalso
        apply hno e.weight
        rw [joins_append]
        right
        refine ⟨rfl, ?_⟩
        rcases hm with ⟨m1, m2⟩ | ⟨m1, m2⟩
        · exact Or.inl ⟨m1.symm, m2.symm⟩
        · exact Or.inr ⟨m2.symm, m1.symm⟩
    · rw [if_neg hm]
      have hiff : ∀ w, Cmp.Joins (es ++ [e]) i j w ↔ Cmp.Joins es i j w := by
        intro w
        rw [joins_append]
        constructor
        · rintro (h | ⟨_, ⟨x1, x2⟩ | ⟨x1, x2⟩⟩)
          · exact h
          · exact absurd (Or.inl ⟨x1.symm, x2.symm⟩) hm
          · exact absurd (Or.inr ⟨x2.symm, x1.symm⟩) hm
        · intro h; exact Or.inl h
      obtain ⟨c1, c2⟩ := ih' i j hi hj
      exact ⟨fun w hJ => c1 w ((hiff w).1 hJ), fun hno => c2 (fun w hJ => hno w ((hiff w).2 hJ))⟩


theorem minSearch_eq_scan (st : Cmp.State) (n : Nat) :
    minSearch st n = Cmp.scan st (List.range n) := by
  obtain ⟨_, _, h3⟩ := Cmp.scan_spec st (List.range n)
  unfold minSearch
  simp only
  rcases h3 with ⟨a, b⟩ | ⟨m, _, _, _, _, hlt⟩
  · rw [if_neg (by rw [b]; exact lt_irrefl _)]
    exact (Prod.ext b a).symm
  · rw [if_pos hlt]

theorem updateStep_eq (graph : List (List Int)) (m : Nat) (st : Cmp.State) (i : Nat) :
    updateStep graph m st i =
      if st.visited.getD i false = false ∧ entry graph m i ≠ Cmp.INF ∧
          st.distances.getD m 0 ≠ Cmp.INF ∧
          Cmp.wrap32 (st.distances.getD m 0 + entry graph m i) < st.distances.getD i 0
      then { st with distances :=
        st.distances.set i (Cmp.wrap32 (st.distances.getD m 0 + entry graph m i)) }
      else st := by
  unfold updateStep
  generalize st.visited.getD i false = b
  generalize entry graph m i = x
  generalize st.distances.getD m 0 = dm
  generalize st.distances.getD i 0 = di
  by_cases h2 : x = Cmp.INF <;> by_cases h3 : dm = Cmp.INF <;>
    by_cases h4 : Cmp.wrap32 (dm + x) < di <;> cases b <;> simp [h2, h3, h4]

/-- The update loop over `0..k-1`: `visited` is untouched, and the distance at `v` is
lowered exactly if `v < k` is unvisited, joined to `m` in the matrix, and nearer through
`m`. -/
theorem update_fold (graph : List (List Int)) (m : Nat) (st1 : Cmp.State)
    (hm : st1.visited.getD m false = true) (hne : st1.distances.getD m 0 ≠ Cmp.INF) :
    ∀ k, k ≤ st1.distances.length →
      ((List.range k).foldl (updateStep graph m) st1).visited = st1.visited ∧
      ((List.range k).foldl (updateStep graph m) st1).distances.length =
        st1.distances.length ∧
      ∀ v, ((List.range k).foldl (updateStep graph m) st1).distances.getD v 0 =
        if v < k ∧ st1.visited.getD v false = false ∧ entry graph m v ≠ Cmp.INF ∧
            Cmp.wrap32 (st1.distances.getD m 0 + entry graph m v) < st1.distances.getD v 0
        then Cmp.wrap32 (st1.distances.getD m 0 + entry graph m v)
        else st1.distances.getD v 0 := by
  intro k
  induction k with
  | zero =>
    intro _
    refine ⟨rfl, rfl, ?_⟩
    intro v
    rw [if_neg (by omega)]
    rfl
  | succ k ih =>
    intro hk
    obtain ⟨a, b, c⟩ := ih (by omega)
    rw [List.range_succ, List.foldl_append]
    simp only [List.foldl_cons, List.foldl_nil]
    generalize (List.range k).foldl (updateStep graph m) st1 = st at a b c
    have cm : st.distances.getD m 0 = st1.distances.getD m 0 := by
      rw [c m, if_neg]
      rintro ⟨_, h, _⟩
      rw [hm] at h; cases h
    have ck : st.distances.getD k 0 = st1.distances.getD k 0 := by
      rw [c k, if_neg]
      rintro ⟨h, _⟩
      omega
    have cv : st.visited.getD k false = st1.visited.getD k false := by rw [a]
    rw [updateStep_eq, cm, ck, cv]
    have hold : ∀ v, v ≠ k → st.distances.getD v 0 =
        if v < k + 1 ∧ st1.visited.getD v false = false ∧ entry graph m v ≠ Cmp.INF ∧
            Cmp.wrap32 (st1.distances.getD m 0 + entry graph m v) < st1.distances.getD v 0
        then Cmp.wrap32 (st1.distances.getD m 0 + entry graph m v)
        else st1.distances.getD v 0 := by
      intro v hv
      rw [c v]
      by_cases hrest : st1.visited.getD v false = false ∧ entry graph m v ≠ Cmp.INF ∧
          Cmp.wrap32 (st1.distances.getD m 0 + entry graph m v) < st1.distances.getD v 0
      · by_cases hvk : v < k
        · rw [if_pos ⟨hvk, hrest⟩, if_pos ⟨by omega, hrest⟩]
        · rw [if_neg (fun e => hvk e.1), if_neg (fun e => by omega)]
      · rw [if_neg (fun e => hrest e.2), if_neg (fun e => hrest e.2)]
    by_cases hcond : st1.visited.getD k false = false ∧ entry graph m k ≠ Cmp.INF ∧
        Cmp.wrap32 (st1.distances.getD m 0 + entry graph m k) < st1.distances.getD k 0
    · obtain ⟨h1, h2, h3⟩ := hcond
      rw [if_pos ⟨h1, h2, hne, h3⟩]
      refine ⟨a, by simp [b], ?_⟩
      intro v
      simp only
      rw [Cmp.getD_set]
      by_cases hv : k = v
      · subst hv
        rw [if_pos ⟨rfl, by omega⟩, if_pos ⟨by omega, h1, h2, h3⟩]
      · rw [if_neg (fun e => hv e.1)]
        exact hold v (fun e => hv e.symm)
    · rw [if_neg (fun e => hcond ⟨e.1, e.2.1, e.2.2.2⟩)]
      refine ⟨a, b, ?_⟩
      intro v
      by_cases hv : v = k
      · subst hv
        rw [ck, if_neg (fun e => hcond e.2)]
      · exact hold v hv


theorem state_eq (a b : Cmp.State) (h1 : a.distances = b.distances)
    (h2 : a.visited = b.visited) : a = b := by
  cases a; cases b
  simp only at h1 h2
  rw [h1, h2]

theorem list_eq_of_getD (l1 l2 : List Int) (n : Nat) (h1 : l1.length = n)
    (h2 : l2.length = n) (h : ∀ v, v < n → l1.getD v 0 = l2.getD v 0) : l1 = l2 := by
  apply List.ext_getElem (by rw [h1, h2])
  intro v hv1 hv2
  have := h v (by omega)
  rw [List.getD_eq_getElem _ _ hv1, List.getD_eq_getElem _ _ hv2] at this
  exact this

/-- One update loop of `dparallel.c` on the matrix and one relaxation loop of `cmp.c` on
the CSR graph, from the same arrays and for the same chosen vertex, leave the same
arrays. -/
theorem iteration_agrees (n : Nat) (edges : List Cmp.Edge) (hr : Cmp.InRange n edges)
    (hd : Cmp.DistinctPairs edges) (hw : ∀ e ∈ edges, e.weight ≠ Cmp.INF)
    (st1 : Cmp.State) (m : Nat) (hm : m < n) (hl : st1.distances.length = n)
    (hv : st1.visited.getD m false = true) (hne : st1.distances.getD m 0 ≠ Cmp.INF) :
    (List.range n).foldl (updateStep (read_graph n edges) m) st1 =
      (Cmp.adjRange (Cmp.create_csr_graph n edges) m).foldl
        (Cmp.relaxStep (Cmp.create_csr_graph n edges) m) st1 := by
  obtain ⟨u1, u2, u3⟩ := update_fold (read_graph n edges) m st1 hv hne n (by omega)
  obtain ⟨r1, r2, r3, r4, r5⟩ := Cmp.relax_fold (Cmp.create_csr_graph n edges) m st1 hv
    (Cmp.adjRange (Cmp.create_csr_graph n edges) m)
  obtain ⟨_, hmat⟩ := read_graph_spec n edges hr hd
  apply state_eq
  · apply list_eq_of_getD _ _ n (by rw [u2, hl]) (by rw [r2, hl])
    intro v hvn
    rw [u3 v]
    by_cases hvis : st1.visited.getD v false = false
    · have hvm : m ≠ v := by
        intro e; rw [e] at hv; rw [hv] at hvis; cases hvis
      obtain ⟨m1, m2⟩ := hmat m v hm hvn
      by_cases hJ : ∃ w, Cmp.Joins edges m v w
      · obtain ⟨w, hJw⟩ := hJ
        have hew := m1 w hJw
        have hwne : w ≠ Cmp.INF := by
          obtain ⟨e, he, hwe, _⟩ := hJw
          rw [← hwe]; exact hw e he
        obtain ⟨j, hj, hc, hwj⟩ := (Cmp.entry_iff_joins n edges hr m hm v w).2 hJw
        have hle := r5 j hj (by rw [hc]; exact hvis) (by rw [hc, hl]; exact hvn)
        rw [hc, hwj] at hle
        have hle0 := r3 v
        have hval : ((Cmp.adjRange (Cmp.create_csr_graph n edges) m).foldl
              (Cmp.relaxStep (Cmp.create_csr_graph n edges) m) st1).distances.getD v 0 =
              st1.distances.getD v 0 ∨
            ((Cmp.adjRange (Cmp.create_csr_graph n edges) m).foldl
              (Cmp.relaxStep (Cmp.create_csr_graph n edges) m) st1).distances.getD v 0 =
              Cmp.wrap32 (st1.distances.getD m 0 + w) := by
          rcases r4 v with h | ⟨_, j', hj', hc', h⟩
          · exact Or.inl h
          · right
            have hJ' := (Cmp.entry_iff_joins n edges hr m hm v _).1 ⟨j', hj', hc', rfl⟩
            have := m1 _ hJ'
            rw [hew] at this
            rw [h, ← this]
        rw [hew]
        by_cases hlt : Cmp.wrap32 (st1.distances.getD m 0 + w) < st1.distances.getD v 0
        · rw [if_pos ⟨hvn, hvis, hwne, hlt⟩]
          rcases hval with h | h
          · omega
          · exact h.symm
        · rw [if_neg (fun e => hlt e.2.2.2)]
          rcases hval with h | h
          · exact h.symm
          · omega
      · have hno : ∀ w, ¬ Cmp.Joins edges m v w := fun w h => hJ ⟨w, h⟩
        have hent := m2 hno
        rw [if_neg hvm] at hent
        rw [if_neg (fun e => e.2.2.1 hent)]
        rcases r4 v with h | ⟨_, j', hj', hc', _⟩
        · exact h.symm
        · exact absurd ((Cmp.entry_iff_joins n edges hr m hm v _).1 ⟨j', hj', hc', rfl⟩)
            (hno _)
    · rw [if_neg (fun e => hvis e.2.1)]
      rcases r4 v with h | ⟨h, _⟩
      · exact h.symm
      · exact absurd h hvis
  · rw [u1, r1]

/-- The outer loops of the two solvers agree, iteration by iteration. -/
theorem outerLoop_eq_seqLoop (n : Nat) (edges : List Cmp.Edge) (hr : Cmp.InRange n edges)
    (hd : Cmp.DistinctPairs edges) (hw : ∀ e ∈ edges, e.weight ≠ Cmp.INF) :
    ∀ (k : Nat) (st : Cmp.State), st.distances.length = n → st.visited.length = n →
      outerLoop (read_graph n edges) n k st =
        Cmp.seqLoop (Cmp.create_csr_graph n edges) k st := by
  intro k
  induction k with
  | zero => intro st _ _; rfl
  | succ k ih =>
    intro st hl hvl
    rw [outerLoop, Cmp.seqLoop]
    simp only
    rw [minSearch_eq_scan, Cmp.num_nodes_create]
    rcases Cmp.scan_range_minResult st n with ⟨h1, _⟩ | ⟨m, h1, hmn, hmv, hmd, _⟩
    · rw [if_pos h1, if_pos h1]
    · have hne1 : ¬ (Cmp.scan st (List.range n)).2 = -1 := by rw [h1]; omega
      rw [if_neg hne1, if_neg hne1, h1, Int.toNat_ofNat]
      have hv1 : (Cmp.markVisited st m).visited.getD m false = true := by
        simp only [Cmp.markVisited]
        rw [Cmp.getD_set_eq _ _ _ _ (by rw [hvl]; exact hmn)]
      have hd1 : (Cmp.markVisited st m).distances = st.distances := rfl
      rw [iteration_agrees n edges hr hd hw (Cmp.markVisited st m) m hmn (by rw [hd1, hl]) hv1
        (by rw [hd1]; exact ne_of_lt hmd)]
      obtain ⟨r1, r2, _⟩ := Cmp.relax_fold (Cmp.create_csr_graph n edges) m
        (Cmp.markVisited st m) hv1 (Cmp.adjRange (Cmp.create_csr_graph n edges) m)
      apply ih
      · rw [r2, hd1, hl]
      · rw [r1]; simp [Cmp.markVisited, hvl]


theorem unvisited_unique (l : List Bool) (h : l.count false ≤ 1) (u c : Nat)
    (hu : u < l.length) (hc : c < l.length) (h1 : l.getD u false = false)
    (h2 : l.getD c false = false) : u = c := by
  by_contra hne
  have hcount := Cmp.count_false_set l u hu h1
  have h0 : (l.set u true).count false = 0 := by omega
  have := Cmp.getD_of_count_false (l.set u true) h0 c (by simpa using hc)
  rw [Cmp.getD_set_ne _ _ _ hne, h2] at this
  cases this

/-- The invariant of the outer loop gives the capped shortest path equations as soon as
at most one vertex is unvisited. -/
theorem final_of_inv_last (g : Cmp.CSRGraph) (hg : Cmp.GraphOK g) (s : Nat)
    (st : Cmp.State) (hI : Cmp.Inv g s st) (hone : st.visited.count false ≤ 1) :
    Cmp.Final g s st.distances := by
  obtain ⟨iL, iV, iB, iS, iO, iT, iW⟩ := hI
  refine ⟨iL, iB, iS, ?_, ?_⟩
  · intro u hu j hj
    obtain ⟨c1, w1, _⟩ := hg u hu j hj
    by_cases hv : st.visited.getD u false = true
    · exact iT u hu hv j hj
    · have hv' : st.visited.getD u false = false := by
        cases h : st.visited.getD u false with
        | true => exact absurd h hv
        | false => rfl
      by_cases hc : st.visited.getD (g.col_idx.getD j 0) false = true
      · have := iO _ c1 u hu hc hv'
        omega
      · have hc' : st.visited.getD (g.col_idx.getD j 0) false = false := by
          cases h : st.visited.getD (g.col_idx.getD j 0) false with
          | true => exact absurd h hc
          | false => rfl
        have := unvisited_unique st.visited hone u _ (by rw [iV]; exact hu)
          (by rw [iV]; exact c1) hv' hc'
        rw [← this]
        omega
  · intro v hv hne hlt
    obtain ⟨u, hu, _, j, hj, hc, he⟩ := iW v hv hne hlt
    exact ⟨u, hu, j, hj, hc, he⟩

/-- After `k` iterations of the outer loop of `dijkstra_sequential` the state is
exhausted, or `k` more vertices are visited. -/
theorem seqLoop_count (g : Cmp.CSRGraph) :
    ∀ (k : Nat) (st : Cmp.State), st.visited.length = g.num_nodes →
      Cmp.Exhausted (Cmp.seqLoop g k st) g.num_nodes ∨
      (Cmp.seqLoop g k st).visited.count false + k ≤ st.visited.count false := by
  intro k
  induction k with
  | zero => intro st _; exact Or.inr (le_refl _)
  | succ k ih =>
    intro st hl
    rw [Cmp.seqLoop]
    simp only
    rcases Cmp.scan_range_minResult st g.num_nodes with ⟨h1, hex⟩ | ⟨m, h1, hmin⟩
    · rw [if_pos h1]; exact Or.inl hex
    · rw [if_neg (by rw [h1]; omega), h1, Int.toNat_ofNat]
      obtain ⟨c1, c2⟩ := Cmp.iteration_count g st m (Cmp.adjRange g m) hl hmin
      rcases ih _ c1 with h | h
      · exact Or.inl h
      · right; omega

/-- C20: for an edge list with in-range endpoints, no two lines on the same
unordered pair of vertices and weights in 1..999999999, and a source in range, the
distances that `dijkstra_parallel` of `dparallel.c`, run by one worker, computes on the
matrix of `read_graph` are the distances that `dijkstra_sequential` of `cmp.c` computes on
the CSR graph of the same edge list. -/
theorem matrix_solver_agrees (n : Nat) (edges : List Cmp.Edge) (hr : Cmp.InRange n edges)
    (hd : Cmp.DistinctPairs edges)
    (hw : ∀ e ∈ edges, 1 ≤ e.weight ∧ e.weight ≤ 999999999) (source : Nat)
    (hs : source < n) :
    dijkstra_parallel (read_graph n edges) n source =
      Cmp.dijkstra_sequential (Cmp.create_csr_graph n edges) source := by
  have hg : Cmp.GraphOK (Cmp.create_csr_graph n edges) :=
    Cmp.graphOK_create n edges hr (fun e he => by
      have := hw e he
      simp only [Cmp.MAXW]
      omega)
  have hne : ∀ e ∈ edges, e.weight ≠ Cmp.INF := fun e he => by
    have := hw e he
    simp only [Cmp.INF]
    omega
  have hloop := outerLoop_eq_seqLoop n edges hr hd hne (n - 1) (Cmp.initState n source)
    (by simp [Cmp.initState]) (by simp [Cmp.initState])
  have hI := Cmp.seqLoop_keeps (Cmp.create_csr_graph n edges)
    (Cmp.Inv (Cmp.create_csr_graph n edges) source)
    (fun st m js hP _ hm hjs => Cmp.inv_step _ hg source st m js hP hm hjs)
    (n - 1) (Cmp.initState n source) (Cmp.inv_initState _ source hs)
    (by simp [Cmp.initState, Cmp.num_nodes_create])
  have hcount := seqLoop_count (Cmp.create_csr_graph n edges) (n - 1)
    (Cmp.initState n source) (by simp [Cmp.initState, Cmp.num_nodes_create])
  have hinit : (Cmp.initState n source).visited.count false ≤ n :=
    Cmp.count_false_initState n source
  have hF : Cmp.Final (Cmp.create_csr_graph n edges) source
      (Cmp.seqLoop (Cmp.create_csr_graph n edges) (n - 1)
        (Cmp.initState n source)).distances := by
    rcases hcount with h | h
    · exact Cmp.final_of_inv _ hg source _ hI h
    · exact final_of_inv_last _ hg source _ hI (by omega)
  rw [dijkstra_parallel, hloop]
  exact Cmp.final_unique _ hg source _ _ hF
    (Cmp.sequential_final _ hg source hs)

theorem matrix_solver_agrees_witness :
    dijkstra_parallel (read_graph 4 Cmp.scenario4) 4 0 = [0, 2, 4, 6] ∧
    dijkstra_parallel (read_graph 4 Cmp.scenario4) 4 0 =
      Cmp.dijkstra_sequential (Cmp.create_csr_graph 4 Cmp.scenario4) 0 :=
  ⟨by decide,
    matrix_solver_agrees 4 Cmp.scenario4 (by decide) (by decide) (by decide) 0 (by decide)⟩

end Dparallel

namespace Cmp

theorem writeAll_cons {α : Type} (a : List α) (s : Nat × α) (ss : List (Nat × α)) :
    writeAll a (s :: ss) = writeAll (a.set s.1 s.2) ss := rfl

theorem length_writeAll {α : Type} (ss : List (Nat × α)) :
    ∀ a : List α, (writeAll a ss).length = a.length := by
  induction ss with
  | nil => intro a; rfl
  | cons s ss ih =>
    intro a
    rw [writeAll_cons, ih, List.length_set]

/-- A slot that no store names keeps its content. -/
theorem writeAll_getD_not_mem {α : Type} (d : α) (p : Nat) (ss : List (Nat × α)) :
    ∀ a : List α, p ∉ ss.map (fun s => s.1) → (writeAll a ss).getD p d = a.getD p d := by
  induction ss with
  | nil => intro a _; rfl
  | cons s ss ih =>
    intro a hp
    rw [List.map_cons, List.mem_cons, not_or] at hp
    rw [writeAll_cons, ih _ hp.2, getD_set, if_neg (fun h => hp.1 h.1.symm)]

/-- When no slot is named twice, a slot holds the value of the one store that names
it. -/
theorem writeAll_getD_nodup {α : Type} (d : α) (ss : List (Nat × α)) :
    ∀ (a : List α) (t p : Nat) (v : α), (ss.map (fun s => s.1)).Nodup →
      ss[t]? = some (p, v) → p < a.length → (writeAll a ss).getD p d = v := by
  induction ss with
  | nil => intro a t p v _ h; simp at h
  | cons s ss ih =>
    intro a t p v hn ht hp
    rw [List.map_cons, List.nodup_cons] at hn
    rw [writeAll_cons]
    cases t with
    | zero =>
      rw [List.getElem?_cons_zero, Option.some.injEq] at ht
      rw [ht] at hn ⊢
      rw [writeAll_getD_not_mem d p ss _ hn.1]
      exact getD_set_eq _ _ _ _ hp
    | succ t =>
      rw [List.getElem?_cons_succ] at ht
      exact ih _ t p v hn.2 ht (by rw [List.length_set]; exact hp)

/-- Stores that name every slot once leave an array that does not depend on the initial
content. -/
theorem writeAll_initial {α : Type} [Inhabited α] (ss : List (Nat × α)) (a b : List α)
    (L : Nat) (ha : a.length = L) (hb : b.length = L)
    (hn : (ss.map (fun s => s.1)).Nodup)
    (hall : ∀ p, p < L → p ∈ ss.map (fun s => s.1)) : writeAll a ss = writeAll b ss := by
  apply List.ext_getElem (by rw [length_writeAll, length_writeAll, ha, hb])
  intro p h1 h2
  rw [length_writeAll, ha] at h1
  obtain ⟨s, hs, hsp⟩ := List.mem_map.1 (hall p h1)
  obtain ⟨t, ht, hst⟩ := List.getElem_of_mem hs
  have hst' : ss[t]? = some (p, s.2) := by
    rw [List.getElem?_eq_getElem ht, hst, ← hsp]
  have e1 := writeAll_getD_nodup default ss a t p s.2 hn hst' (by omega)
  have e2 := writeAll_getD_nodup default ss b t p s.2 hn hst' (by omega)
  rw [List.getD_eq_getElem _ _ (by rw [length_writeAll]; omega)] at e1 e2
  rw [e1, e2]

/-- The positions at which `place` stores depend on the counters only. -/
theorem placePositions_counters (rp : List Nat) (ds : List Entry) :
    ∀ st st' : FillState, st.edges_per_vertex = st'.edges_per_vertex →
      placePositions rp ds st = placePositions rp ds st' := by
  induction ds with
  | nil => intro st st' _; rfl
  | cons d ds ih =>
    intro st st' h
    simp only [placePositions]
    rw [h, ih (place rp st d) (place rp st' d) (by simp only [place, h])]

/-- The arrays left by `place` over the entries `ds` are the initial arrays after the
stores of the neighbours, and of the weights, at the positions of `placePositions`. -/
theorem place_writeAll (rp : List Nat) (ds : List Entry) :
    ∀ st : FillState,
      (ds.foldl (place rp) st).col_idx =
        writeAll st.col_idx ((placePositions rp ds st).zip (ds.map (fun d => d.2.1))) ∧
      (ds.foldl (place rp) st).weights =
        writeAll st.weights ((placePositions rp ds st).zip (ds.map (fun d => d.2.2))) := by
  induction ds with
  | nil => intro st; exact ⟨rfl, rfl⟩
  | cons d ds ih =>
    intro st
    obtain ⟨a, b⟩ := ih (place rp st d)
    simp only [List.foldl_cons, placePositions, List.map_cons, List.zip_cons_cons,
      writeAll_cons]
    exact ⟨a, b⟩

theorem map_fst_zip_of_length {α : Type} (ps : List Nat) (vs : List α)
    (h : ps.length = vs.length) : (ps.zip vs).map (fun s => s.1) = ps := by
  have : (fun s : Nat × α => s.1) = Prod.fst := rfl
  rw [this, List.map_fst_zip]
  omega


/-- C16: for an edge list with in-range endpoints, the second pass of `create_csr_graph`
computes for the line `k` a position inside the adjacency range of its source and then a
position inside the adjacency range of its destination, and the arrays returned hold at
these positions the neighbour and the weight that the loop body stores there; the
`2 * num_edges` positions written are pairwise distinct and are exactly the slots
`0 .. 2 * num_edges - 1` of `col_idx` and `weights`, each written once.  The positions
are those of the stores of the loop body (`fillStep`), and the arrays returned are the
allocated arrays after exactly these stores, whatever `malloc` left in them: no slot is
left uninitialised. -/
theorem positions_written_once (n : Nat) (edges : List Edge) (hr : InRange n edges) :
    (positions_written n edges).length = 2 * edges.length ∧
    (∀ (k : Nat) (e : Edge), edges[k]? = some e →
      ∃ p q, (positions_written n edges)[2 * k]? = some p ∧
        (positions_written n edges)[2 * k + 1]? = some q ∧
        (create_csr_graph n edges).row_ptr.getD e.src 0 ≤ p ∧
        p < (create_csr_graph n edges).row_ptr.getD (e.src + 1) 0 ∧
        (create_csr_graph n edges).row_ptr.getD e.dest 0 ≤ q ∧
        q < (create_csr_graph n edges).row_ptr.getD (e.dest + 1) 0 ∧
        (create_csr_graph n edges).col_idx.getD p 0 = e.dest ∧
        (create_csr_graph n edges).weights.getD p 0 = e.weight ∧
        (create_csr_graph n edges).col_idx.getD q 0 = e.src ∧
        (create_csr_graph n edges).weights.getD q 0 = e.weight) ∧
    (positions_written n edges).Nodup ∧
    (positions_written n edges).Perm (List.range (2 * edges.length)) ∧
    (create_csr_graph n edges).col_idx.length = 2 * edges.length ∧
    (create_csr_graph n edges).weights.length = 2 * edges.length ∧
    (∀ (row_ptr temp_edges : List Nat) (temp_weights : List Int) (st : FillState) (k : Nat),
      (fillStep row_ptr temp_edges temp_weights st k).col_idx =
        (st.col_idx.set (fillPos row_ptr temp_edges st k).1
          (temp_edges.getD (2 * k + 1) 0)).set
          (fillPos row_ptr temp_edges st k).2 (temp_edges.getD (2 * k) 0) ∧
      (fillStep row_ptr temp_edges temp_weights st k).weights =
        (st.weights.set (fillPos row_ptr temp_edges st k).1
          (temp_weights.getD (2 * k / 2) 0)).set
          (fillPos row_ptr temp_edges st k).2 (temp_weights.getD (2 * k / 2) 0)) ∧
    (∀ (c : List Nat) (w : List Int), c.length = 2 * edges.length →
      w.length = 2 * edges.length →
      (fillFrom n edges c w).col_idx =
        writeAll c ((positions_written n edges).zip
          ((directed edges).map (fun d => d.2.1))) ∧
      (fillFrom n edges c w).weights =
        writeAll w ((positions_written n edges).zip
          ((directed edges).map (fun d => d.2.2))) ∧
      (fillFrom n edges c w).col_idx = (create_csr_graph n edges).col_idx ∧
      (fillFrom n edges c w).weights = (create_csr_graph n edges).weights) := by
  obtain ⟨r1, _, _, r4, _, r6⟩ := readEdges_fold n (2 * edges.length) edges hr (le_refl _)
  obtain ⟨_, p2, _, p4, _⟩ :=
    rowStep_fold n (readEdges n edges).edges_per_vertex r4 n (le_refl _)
  obtain ⟨_, g2, g3, g4, _⟩ := create_csr_graph_spec n edges hr
  have hrp : (create_csr_graph n edges).row_ptr =
      (setRowPtr n (readEdges n edges).edges_per_vertex).1 := rfl
  rw [hrp] at g4
  have hstep : ∀ x, x < n →
      (setRowPtr n (readEdges n edges).edges_per_vertex).1.getD (x + 1) 0 =
      (setRowPtr n (readEdges n edges).edges_per_vertex).1.getD x 0 + degree edges x := by
    intro x hx
    rw [g4 (x + 1) (by omega), g4 x (by omega), Finset.sum_range_succ]
  have hL : (setRowPtr n (readEdges n edges).edges_per_vertex).1.getD n 0 =
      2 * edges.length := by
    rw [g4 n (le_refl _), sum_degree n edges hr]
  have hedge : (readEdges n edges).edge_count = 2 * edges.length := r1
  have hown : ∀ d ∈ directed edges, d.1 < n := by
    intro d hd
    obtain ⟨e, he, h | h⟩ := mem_directed edges d hd
    · rw [h]; exact (hr e he).1
    · rw [h]; exact (hr e he).2
  obtain ⟨q1, q2, q3, q4⟩ := placePositions_spec n (2 * edges.length)
    (setRowPtr n (readEdges n edges).edges_per_vertex).1 (degree edges)
    (setRowPtr n (readEdges n edges).edges_per_vertex).2 hstep hL p2
    (fun x hx => p4 x hx) (directed edges) hown
    (fun x _ => le_of_eq (length_rowOf_directed edges x))
  have hpos : positions_written n edges =
      placePositions (setRowPtr n (readEdges n edges).edges_per_vertex).1 (directed edges)
        { col_idx := List.replicate (2 * edges.length) 0,
          weights := List.replicate (2 * edges.length) 0,
          edges_per_vertex := (setRowPtr n (readEdges n edges).edges_per_vertex).2 } := by
    unfold positions_written
    simp only
    rw [hedge, show (2 * edges.length + 1) / 2 = edges.length by omega]
    exact fillPositions_eq _ _ _ _ edges r6
  have hfill : ∀ (c : List Nat) (w : List Int), fillFrom n edges c w =
      (directed edges).foldl (place (setRowPtr n (readEdges n edges).edges_per_vertex).1)
        (FillState.mk c w (setRowPtr n (readEdges n edges).edges_per_vertex).2) := by
    intro c w
    unfold fillFrom
    simp only
    rw [hedge, show (2 * edges.length + 1) / 2 = edges.length by omega]
    exact fill_fold_eq _ _ _ _ edges r6
  have hcreate : (create_csr_graph n edges).col_idx =
        (fillFrom n edges (List.replicate (2 * edges.length) 0)
          (List.replicate (2 * edges.length) 0)).col_idx ∧
      (create_csr_graph n edges).weights =
        (fillFrom n edges (List.replicate (2 * edges.length) 0)
          (List.replicate (2 * edges.length) 0)).weights := by
    rw [← hedge]
    exact ⟨rfl, rfl⟩
  have hwr : ∀ (c : List Nat) (w : List Int),
      (fillFrom n edges c w).col_idx =
        writeAll c ((positions_written n edges).zip
          ((directed edges).map (fun d => d.2.1))) ∧
      (fillFrom n edges c w).weights =
        writeAll w ((positions_written n edges).zip
          ((directed edges).map (fun d => d.2.2))) := by
    intro c w
    rw [hfill, hpos]
    have := place_writeAll (setRowPtr n (readEdges n edges).edges_per_vertex).1
      (directed edges)
      (FillState.mk c w (setRowPtr n (readEdges n edges).edges_per_vertex).2)
    rw [placePositions_counters _ _
      (FillState.mk c w (setRowPtr n (readEdges n edges).edges_per_vertex).2)
      (FillState.mk (List.replicate (2 * edges.length) 0)
        (List.replicate (2 * edges.length) 0)
        (setRowPtr n (readEdges n edges).edges_per_vertex).2) rfl] at this
    exact this
  rw [hcreate.1, hcreate.2]
  simp only [hwr]
  rw [hpos, hrp]
  generalize placePositions _ (directed edges) _ = P at q1 q2 q3 q4
  rw [length_directed] at q1
  have hlt : ∀ p ∈ P, p < 2 * edges.length := by
    intro p hp
    obtain ⟨x, hx, _, b⟩ := q2 p hp
    rw [length_rowOf_directed] at b
    have s := hstep x hx
    have m := rowStart_mono
      (fun x => (setRowPtr n (readEdges n edges).edges_per_vertex).1.getD x 0)
      (degree edges) n hstep (x + 1) n (by omega) (le_refl _)
    simp only [hL] at m
    omega
  have hperm : P.Perm (List.range (2 * edges.length)) := by
    apply List.Subperm.perm_of_length_le
    · apply List.subperm_of_subset q3
      intro p hp
      exact List.mem_range.2 (hlt p hp)
    · rw [List.length_range, q1]
  have hm1 : (P.zip ((directed edges).map (fun d => d.2.1))).map (fun s => s.1) = P :=
    map_fst_zip_of_length P _ (by rw [List.length_map, length_directed, q1])
  have hm2 : (P.zip ((directed edges).map (fun d => d.2.2))).map (fun s => s.1) = P :=
    map_fst_zip_of_length P _ (by rw [List.length_map, length_directed, q1])
  have hval : ∀ (t p : Nat) (d : Entry), P[t]? = some p → (directed edges)[t]? = some d →
      (writeAll (List.replicate (2 * edges.length) 0)
        (P.zip ((directed edges).map (fun d => d.2.1)))).getD p 0 = d.2.1 ∧
      (writeAll (List.replicate (2 * edges.length) 0)
        (P.zip ((directed edges).map (fun d => d.2.2)))).getD p 0 = d.2.2 := by
    intro t p d hp hd
    have hpl : p < 2 * edges.length := hlt p (List.getElem?_mem hp)
    constructor
    · apply writeAll_getD_nodup 0 _ _ t p d.2.1 (by rw [hm1]; exact q3)
      · rw [List.getElem?_zip_eq_some]
        exact ⟨hp, by rw [List.getElem?_map, hd]; rfl⟩
      · rw [List.length_replicate]; exact hpl
    · apply writeAll_getD_nodup 0 _ _ t p d.2.2 (by rw [hm2]; exact q3)
      · rw [List.getElem?_zip_eq_some]
        exact ⟨hp, by rw [List.getElem?_map, hd]; rfl⟩
      · rw [List.length_replicate]; exact hpl
  refine ⟨q1, ?_, q3, hperm, ?_, ?_, ?_, ?_⟩
  · intro k e hk
    obtain ⟨d1, d2⟩ := getElem?_directed edges k e hk
    obtain ⟨p, hp, a1, a2⟩ := q4 _ _ d1
    obtain ⟨q, hq, b1, b2⟩ := q4 _ _ d2
    obtain ⟨v1, v2⟩ := hval _ p _ hp d1
    obtain ⟨v3, v4⟩ := hval _ q _ hq d2
    exact ⟨p, q, hp, hq, a1, a2, b1, b2, v1, v2, v3, v4⟩
  · rw [length_writeAll, List.length_replicate]
  · rw [length_writeAll, List.length_replicate]
  · intro rp te tw st k
    exact ⟨rfl, rfl⟩
  · intro c w hc hw
    refine ⟨trivial, trivial, ?_, ?_⟩
    · exact writeAll_initial _ _ _ (2 * edges.length) hc (List.length_replicate _ _)
        (by rw [hm1]; exact q3)
        (fun p hp => by rw [hm1]; exact hperm.mem_iff.2 (List.mem_range.2 hp))
    · exact writeAll_initial _ _ _ (2 * edges.length) hw (List.length_replicate _ _)
        (by rw [hm2]; exact q3)
        (fun p hp => by rw [hm2]; exact hperm.mem_iff.2 (List.mem_range.2 hp))

/-- C16 on the 4-vertex scenario: the eight slots in the order in which they are
written, and the arrays they leave. -/
theorem positions_written_once_witness :
    positions_written 4 scenario4 = [0, 2, 3, 4, 5, 6, 1, 7] ∧
    (create_csr_graph 4 scenario4).col_idx = [1, 3, 0, 2, 1, 3, 2, 0] ∧
    (create_csr_graph 4 scenario4).weights = [2, 9, 2, 2, 2, 2, 2, 9] ∧
    (positions_written 4 scenario4).Perm (List.range (2 * scenario4.length)) ∧
    (fillFrom 4 scenario4 [7, 7, 7, 7, 7, 7, 7, 7] [7, 7, 7, 7, 7, 7, 7, 7]).col_idx =
      (create_csr_graph 4 scenario4).col_idx :=
  ⟨by decide, by decide, by decide, (positions_written_once 4 scenario4 (by decide)).2.2.2.1,
    ((positions_written_once 4 scenario4 (by decide)).2.2.2.2.2.2.2
      [7, 7, 7, 7, 7, 7, 7, 7] [7, 7, 7, 7, 7, 7, 7, 7] rfl rfl).2.2.1⟩


theorem mem_adjRange (g : CSRGraph) (m j : Nat) :
    j ∈ adjRange g m ↔ g.row_ptr.getD m 0 ≤ j ∧ j < g.row_ptr.getD (m + 1) 0 := by
  rw [adjRange, List.mem_range']
  constructor
  · rintro ⟨i, hi, rfl⟩; omega
  · rintro ⟨h1, h2⟩; exact ⟨j - g.row_ptr.getD m 0, by omega, by omega⟩

theorem pcOK_mono (g : CSRGraph) (m : Nat) (st1 : State) (nx nx' : Nat) (h : nx ≤ nx')
    (p : Pc) (hp : PcOK g m st1 nx p) : PcOK g m st1 nx' p := by
  cases p with
  | idle => trivial
  | finished => trivial
  | test i stop =>
    obtain ⟨a, b, c, d⟩ := hp
    exact ⟨a, b, c, by omega⟩
  | write i stop adj nd =>
    obtain ⟨a, b, c, d, e⟩ := hp
    exact ⟨a, b, c, by omega, e⟩

theorem pcOK_advance (g : CSRGraph) (m : Nat) (st1 : State) (nx i stop : Nat)
    (h1 : g.row_ptr.getD m 0 ≤ i) (h2 : stop ≤ g.row_ptr.getD (m + 1) 0) (h3 : stop ≤ nx) :
    PcOK g m st1 nx (advance i stop) := by
  unfold advance
  by_cases h : i + 1 < stop
  · rw [if_pos h]; exact ⟨by omega, h, h2, h3⟩
  · rw [if_neg h]; trivial

theorem getD_set_pcs (pcs : List Pc) (t t' : Nat) (q : Pc)
    (ht : pcs.getD t Pc.finished ≠ Pc.finished) :
    (pcs.set t q).getD t' Pc.finished = if t = t' then q else pcs.getD t' Pc.finished := by
  have hlt : t < pcs.length := by
    by_contra h
    exact ht (List.getD_eq_default _ _ (by omega))
  rw [getD_set]
  by_cases h : t = t'
  · rw [if_pos ⟨h, hlt⟩, if_pos h]
  · rw [if_neg (fun e => h e.1), if_neg h]

/-- A step of any worker keeps the invariant of the relaxation loop. -/
theorem safe_step (g : CSRGraph) (m : Nat) (st1 : State)
    (hm : st1.visited.getD m false = true) (rs : RelaxState) (t : Nat)
    (h : SafeInv g m st1 rs) : SafeInv g m st1 (workerStep g m rs t) := by
  obtain ⟨⟨r1, r2, r3⟩, hlo, hpcs⟩ := h
  have hdm : rs.st.distances.getD m 0 = st1.distances.getD m 0 := by
    rcases r3 m with h | ⟨h, _⟩
    · exact h
    · rw [hm] at h; cases h
  have hok := hpcs t
  cases hpc : rs.pcs.getD t Pc.finished with
  | finished =>
    have : workerStep g m rs t = rs := by simp only [workerStep, hpc]
    rw [this]; exact ⟨⟨r1, r2, r3⟩, hlo, hpcs⟩
  | idle =>
    have hne : rs.pcs.getD t Pc.finished ≠ Pc.finished := by rw [hpc]; intro e; cases e
    by_cases hnx : rs.next < g.row_ptr.getD (m + 1) 0
    · have : workerStep g m rs t = RelaxState.mk rs.st (rs.next + 512)
          (rs.pcs.set t
            (Pc.test rs.next (min (rs.next + 512) (g.row_ptr.getD (m + 1) 0)))) := by
        simp only [workerStep, hpc]; rw [if_pos hnx]
      rw [this]
      refine ⟨⟨r1, r2, r3⟩, by simp only; omega, ?_⟩
      intro t'
      simp only
      rw [getD_set_pcs _ _ _ _ hne]
      by_cases ht : t = t'
      · rw [if_pos ht]
        exact ⟨hlo, by rw [Nat.lt_min]; omega, Nat.min_le_right _ _, Nat.min_le_left _ _⟩
      · rw [if_neg ht]
        exact pcOK_mono g m st1 _ _ (by omega) _ (hpcs t')
    · have : workerStep g m rs t = { rs with pcs := rs.pcs.set t Pc.finished } := by
        simp only [workerStep, hpc]; rw [if_neg hnx]
      rw [this]
      refine ⟨⟨r1, r2, r3⟩, hlo, ?_⟩
      intro t'
      simp only
      rw [getD_set_pcs _ _ _ _ hne]
      by_cases ht : t = t'
      · rw [if_pos ht]; trivial
      · rw [if_neg ht]; exact hpcs t'
  | test i stop =>
    have hne : rs.pcs.getD t Pc.finished ≠ Pc.finished := by rw [hpc]; intro e; cases e
    rw [hpc] at hok
    obtain ⟨o1, o2, o3, o4⟩ := hok
    have hkeep : ∀ q, PcOK g m st1 rs.next q →
        SafeInv g m st1 { rs with pcs := rs.pcs.set t q } := by
      intro q hq
      refine ⟨⟨r1, r2, r3⟩, hlo, ?_⟩
      intro t'
      simp only
      rw [getD_set_pcs _ _ _ _ hne]
      by_cases ht : t = t'
      · rw [if_pos ht]; exact hq
      · rw [if_neg ht]; exact hpcs t'
    by_cases hv : (!rs.st.visited.getD (g.col_idx.getD i 0) false) = true
    · by_cases hlt : wrap32 (rs.st.distances.getD m 0 + g.weights.getD i 0) <
          rs.st.distances.getD (g.col_idx.getD i 0) 0
      · have : workerStep g m rs t = RelaxState.mk rs.st rs.next (rs.pcs.set t
            (Pc.write i stop (g.col_idx.getD i 0)
              (wrap32 (rs.st.distances.getD m 0 + g.weights.getD i 0)))) := by
          simp only [workerStep, hpc]; rw [if_pos hv, if_pos hlt]
        rw [this]
        apply hkeep
        refine ⟨o1, o2, o3, o4, rfl, ?_, by rw [hdm]⟩
        rw [← r1]
        cases hb : rs.st.visited.getD (g.col_idx.getD i 0) false with
        | true => rw [hb] at hv; cases hv
        | false => rfl
      · have : workerStep g m rs t = { rs with pcs := rs.pcs.set t (advance i stop) } := by
          simp only [workerStep, hpc]; rw [if_pos hv, if_neg hlt]
        rw [this]
        exact hkeep _ (pcOK_advance g m st1 _ i stop o1 o3 o4)
    · have : workerStep g m rs t = { rs with pcs := rs.pcs.set t (advance i stop) } := by
        simp only [workerStep, hpc]; rw [if_neg hv]
      rw [this]
      exact hkeep _ (pcOK_advance g m st1 _ i stop o1 o3 o4)
  | write i stop adj nd =>
    have hne : rs.pcs.getD t Pc.finished ≠ Pc.finished := by rw [hpc]; intro e; cases e
    rw [hpc] at hok
    obtain ⟨o1, o2, o3, o4, o5, o6, o7⟩ := hok
    have : workerStep g m rs t = RelaxState.mk
        (State.mk (rs.st.distances.set adj nd) rs.st.visited) rs.next
        (rs.pcs.set t (advance i stop)) := by
      simp only [workerStep, hpc]
    rw [this]
    refine ⟨⟨r1, by simp only [List.length_set]; exact r2, ?_⟩, hlo, ?_⟩
    · intro v
      simp only
      rw [getD_set]
      by_cases hv : adj = v ∧ adj < rs.st.distances.length
      · rw [if_pos hv]
        right
        refine ⟨by rw [← hv.1]; exact o6, i, (mem_adjRange g m i).2 ⟨o1, by omega⟩, ?_, o7⟩
        rw [← hv.1, o5]
      · rw [if_neg hv]; exact r3 v
    · intro t'
      simp only
      rw [getD_set_pcs _ _ _ _ hne]
      by_cases ht : t = t'
      · rw [if_pos ht]; exact pcOK_advance g m st1 _ i stop o1 o3 o4
      · rw [if_neg ht]; exact hpcs t'

theorem safe_start (g : CSRGraph) (m T : Nat) (st1 : State) :
    SafeInv g m st1 ⟨st1, g.row_ptr.getD m 0, List.replicate T Pc.idle⟩ := by
  refine ⟨⟨rfl, rfl, fun v => Or.inl rfl⟩, le_refl _, ?_⟩
  intro t
  simp only
  rw [getD_replicate]
  split_ifs <;> trivial

theorem safe_fold (g : CSRGraph) (m : Nat) (st1 : State)
    (hm : st1.visited.getD m false = true) (il : List Nat) :
    ∀ rs, SafeInv g m st1 rs → SafeInv g m st1 (il.foldl (workerStep g m) rs) := by
  induction il with
  | nil => intro rs h; exact h
  | cons t il ih =>
    intro rs h
    rw [List.foldl_cons]
    exact ih _ (safe_step g m st1 hm rs t h)

/-- Whatever the interleaving, the relaxation loop of a visited vertex `m` leaves
`visited` as it is, and writes to `distances` only candidates of entries of `m` at
unvisited vertices. -/
theorem relaxed_relaxRun (g : CSRGraph) (m T : Nat) (il : List Nat) (st1 : State)
    (hm : st1.visited.getD m false = true) :
    Relaxed g m st1 (relaxRun g m T il st1).st :=
  (safe_fold g m st1 hm il _ (safe_start g m T st1)).1


theorem pending_lt (g : CSRGraph) (m : Nat) (st1 : State) (nx : Nat) (p : Pc) (j : Nat)
    (hp : PcOK g m st1 nx p) (hj : Pending p j) :
    g.row_ptr.getD m 0 ≤ j ∧ j < nx ∧ j < g.row_ptr.getD (m + 1) 0 := by
  cases p with
  | idle => cases hj
  | finished => cases hj
  | test i stop =>
    obtain ⟨a, b, c, d⟩ := hp
    obtain ⟨e, f⟩ := hj
    exact ⟨by omega, by omega, by omega⟩
  | write i stop adj nd =>
    obtain ⟨a, b, c, d, _⟩ := hp
    obtain ⟨e, f⟩ := hj
    exact ⟨by omega, by omega, by omega⟩

theorem pending_advance (i stop j : Nat) :
    Pending (advance i stop) j ↔ (i + 1 ≤ j ∧ j < stop) := by
  unfold advance
  by_cases h : i + 1 < stop
  · rw [if_pos h]; exact Iff.rfl
  · rw [if_neg h]
    constructor
    · intro h'; cases h'
    · rintro ⟨a, b⟩; omega

theorem advance_ne_finished (i stop : Nat) : advance i stop ≠ Pc.finished := by
  unfold advance
  split_ifs <;> intro e <;> cases e

theorem advance_ne_write (i stop a b c : Nat) (d : Int) :
    advance i stop ≠ Pc.write a b c d := by
  unfold advance
  split_ifs <;> intro e <;> cases e

/-- Replacing the state of worker `t` by one whose iterations are its old ones or are
not yet handed out keeps the workers in different chunks. -/
theorem apart_set (g : CSRGraph) (m : Nat) (st1 : State) (pcs : List Pc) (nx t K : Nat)
    (q : Pc) (hK : nx = g.row_ptr.getD m 0 + 512 * K)
    (hne : pcs.getD t Pc.finished ≠ Pc.finished)
    (hok : ∀ t', PcOK g m st1 nx (pcs.getD t' Pc.finished))
    (hdis : ∀ a b, a ≠ b → ∀ ja jb, Pending (pcs.getD a Pc.finished) ja →
      Pending (pcs.getD b Pc.finished) jb →
      (ja - g.row_ptr.getD m 0) / 512 ≠ (jb - g.row_ptr.getD m 0) / 512)
    (hq : ∀ j, Pending q j → Pending (pcs.getD t Pc.finished) j ∨ nx ≤ j) :
    ∀ a b, a ≠ b → ∀ ja jb, Pending ((pcs.set t q).getD a Pc.finished) ja →
      Pending ((pcs.set t q).getD b Pc.finished) jb →
      (ja - g.row_ptr.getD m 0) / 512 ≠ (jb - g.row_ptr.getD m 0) / 512 := by
  intro a b hab ja jb ha hb
  rw [getD_set_pcs _ _ _ _ hne] at ha hb
  by_cases hta : t = a
  · rw [if_pos hta] at ha
    rw [if_neg (fun e => hab (hta.symm.trans e))] at hb
    rcases hq ja ha with h | h
    · exact hdis t b (fun e => hab (hta.symm.trans e)) ja jb h hb
    · have := pending_lt g m st1 nx _ jb (hok b) hb
      omega
  · rw [if_neg hta] at ha
    by_cases htb : t = b
    · rw [if_pos htb] at hb
      rcases hq jb hb with h | h
      · exact hdis a t (fun e => hta e.symm) ja jb ha h
      · have := pending_lt g m st1 nx _ ja (hok a) ha
        omega
    · rw [if_neg htb] at hb
      exact hdis a b hab ja jb ha hb

theorem done_set (pcs : List Pc) (st' : State) (nx' t : Nat) (q : Pc)
    (hne : pcs.getD t Pc.finished ≠ Pc.finished) (j : Nat) :
    Done ⟨st', nx', pcs.set t q⟩ j ↔
      (¬ Pending q j ∧ ∀ t', t' ≠ t → ¬ Pending (pcs.getD t' Pc.finished) j) := by
  unfold Done
  simp only
  constructor
  · intro h
    constructor
    · have := h t
      rw [getD_set_pcs _ _ _ _ hne, if_pos rfl] at this
      exact this
    · intro t' ht'
      have := h t'
      rw [getD_set_pcs _ _ _ _ hne, if_neg (fun e => ht' e.symm)] at this
      exact this
  · rintro ⟨h1, h2⟩ t'
    rw [getD_set_pcs _ _ _ _ hne]
    by_cases ht : t = t'
    · rw [if_pos ht]; exact h1
    · rw [if_neg ht]; exact h2 t' (fun e => ht e.symm)

theorem done_of_done_set (pcs : List Pc) (st st' : State) (nx nx' t : Nat) (q : Pc)
    (hne : pcs.getD t Pc.finished ≠ Pc.finished) (j : Nat)
    (h : Done ⟨st', nx', pcs.set t q⟩ j) (ht : ¬ Pending (pcs.getD t Pc.finished) j) :
    Done ⟨st, nx, pcs⟩ j := by
  obtain ⟨_, h2⟩ := (done_set pcs st' nx' t q hne j).1 h
  intro t'
  by_cases e : t' = t
  · rw [e]; exact ht
  · exact h2 t' e

theorem mem_set_pcs (pcs : List Pc) (t : Nat) (q p : Pc) (h : p ∈ pcs.set t q) :
    p ∈ pcs ∨ p = q :=
  List.mem_or_eq_of_mem_set h


/-- A step of any worker keeps the invariant of a relaxation loop in which two entries
that name the same unvisited vertex lie in one chunk. -/
theorem chunk_step (g : CSRGraph) (m : Nat) (st1 : State)
    (hm : st1.visited.getD m false = true) (hloc : SameChunk g m st1)
    (rs : RelaxState) (t : Nat) (h : ChunkInv g m st1 rs) :
    ChunkInv g m st1 (workerStep g m rs t) := by
  obtain ⟨hsafe, ⟨K, hK⟩, hdis, hpass, hle, hdone, hfin⟩ := h
  have hsafe' := safe_step g m st1 hm rs t hsafe
  obtain ⟨⟨r1, r2, r3⟩, hlo, hpcs⟩ := hsafe
  rcases rs with ⟨st, nx, pcs⟩
  simp only at r1 r2 r3 hlo hpcs hK hdis hpass hle hdone hfin
  have hdm : st.distances.getD m 0 = st1.distances.getD m 0 := by
    rcases r3 m with h | ⟨h, _⟩
    · exact h
    · rw [hm] at h; cases h
  have hok := hpcs t
  cases hpc : pcs.getD t Pc.finished with
  | finished =>
    have : workerStep g m ⟨st, nx, pcs⟩ t = ⟨st, nx, pcs⟩ := by
      simp only [workerStep, hpc]
    rw [this]
    exact ⟨⟨⟨r1, r2, r3⟩, hlo, hpcs⟩, ⟨K, hK⟩, hdis, hpass, hle, hdone, hfin⟩
  | idle =>
    have hne : pcs.getD t Pc.finished ≠ Pc.finished := by rw [hpc]; intro e; cases e
    have hnp : ∀ j, ¬ Pending (pcs.getD t Pc.finished) j := by
      intro j hj; rw [hpc] at hj; cases hj
    by_cases hnx : nx < g.row_ptr.getD (m + 1) 0
    · have : workerStep g m ⟨st, nx, pcs⟩ t = RelaxState.mk st (nx + 512)
          (pcs.set t (Pc.test nx (min (nx + 512) (g.row_ptr.getD (m + 1) 0)))) := by
        simp only [workerStep, hpc]; rw [if_pos hnx]
      rw [this] at hsafe' ⊢
      refine ⟨hsafe', ⟨K + 1, by simp only; omega⟩, ?_, ?_, hle, ?_, ?_⟩
      · exact apart_set g m st1 pcs nx t K _ hK hne hpcs hdis (fun j hj => Or.inr hj.1)
      · intro t' i stop adj nd hw
        simp only at hw
        rw [getD_set_pcs _ _ _ _ hne] at hw
        by_cases ht : t = t'
        · rw [if_pos ht] at hw; cases hw
        · rw [if_neg ht] at hw; exact hpass t' i stop adj nd hw
      · intro j j1 j2 j3 j4 j5 j6
        simp only
        have hq := ((done_set pcs st (nx + 512) t _ hne j).1 j4).1
        have hjn : j < nx := by
          by_contra hge
          apply hq
          exact ⟨by omega, by rw [Nat.lt_min]; simp only at j3; omega⟩
        exact hdone j j1 j2 hjn (done_of_done_set pcs st st nx (nx + 512) t _ hne j j4 (hnp j))
          j5 j6
      · rintro ⟨p, hp, hpf⟩
        simp only at hp ⊢
        rcases mem_set_pcs _ _ _ _ hp with h | h
        · have := hfin ⟨p, h, hpf⟩; omega
        · rw [hpf] at h; cases h
    · have : workerStep g m ⟨st, nx, pcs⟩ t = RelaxState.mk st nx (pcs.set t Pc.finished) := by
        simp only [workerStep, hpc]; rw [if_neg hnx]
      rw [this] at hsafe' ⊢
      refine ⟨hsafe', ⟨K, hK⟩, ?_, ?_, hle, ?_, ?_⟩
      · exact apart_set g m st1 pcs nx t K _ hK hne hpcs hdis (fun j hj => by cases hj)
      · intro t' i stop adj nd hw
        simp only at hw
        rw [getD_set_pcs _ _ _ _ hne] at hw
        by_cases ht : t = t'
        · rw [if_pos ht] at hw; cases hw
        · rw [if_neg ht] at hw; exact hpass t' i stop adj nd hw
      · intro j j1 j2 j3 j4 j5 j6
        exact hdone j j1 j2 j3 (done_of_done_set pcs st st nx nx t _ hne j j4 (hnp j)) j5 j6
      · intro _
        simp only
        omega
  | test i stop =>
    have hne : pcs.getD t Pc.finished ≠ Pc.finished := by rw [hpc]; intro e; cases e
    rw [hpc] at hok
    obtain ⟨o1, o2, o3, o4⟩ := hok
    -- the worker moves on without a store
    have hskip : (st1.visited.getD (g.col_idx.getD i 0) false = false →
          st.distances.getD (g.col_idx.getD i 0) 0 ≤
            wrap32 (st1.distances.getD m 0 + g.weights.getD i 0)) →
        ChunkInv g m st1 ⟨st, nx, pcs.set t (advance i stop)⟩ := by
      intro hcmp
      have hs' : SafeInv g m st1 ⟨st, nx, pcs.set t (advance i stop)⟩ := by
        refine ⟨⟨r1, r2, r3⟩, hlo, ?_⟩
        intro t'
        simp only
        rw [getD_set_pcs _ _ _ _ hne]
        by_cases ht : t = t'
        · rw [if_pos ht]; exact pcOK_advance g m st1 _ i stop o1 o3 o4
        · rw [if_neg ht]; exact hpcs t'
      refine ⟨hs', ⟨K, hK⟩, ?_, ?_, hle, ?_, ?_⟩
      · refine apart_set g m st1 pcs nx t K _ hK hne hpcs hdis (fun j hj => Or.inl ?_)
        rw [hpc]
        have := (pending_advance i stop j).1 hj
        exact ⟨by omega, this.2⟩
      · intro t' a b adj nd hw
        simp only at hw
        rw [getD_set_pcs _ _ _ _ hne] at hw
        by_cases ht : t = t'
        · rw [if_pos ht] at hw; exact absurd hw (advance_ne_write _ _ _ _ _ _)
        · rw [if_neg ht] at hw; exact hpass t' a b adj nd hw
      · intro j j1 j2 j3 j4 j5 j6
        simp only
        by_cases hji : j = i
        · subst hji
          exact hcmp j5
        · have hq := ((done_set pcs st nx t _ hne j).1 j4).1
          rw [pending_advance] at hq
          refine hdone j j1 j2 j3 (done_of_done_set pcs st st nx nx t _ hne j j4 ?_) j5 j6
          rw [hpc]
          rintro ⟨a, b⟩
          exact hq ⟨by omega, b⟩
      · rintro ⟨p, hp, hpf⟩
        simp only at hp ⊢
        rcases mem_set_pcs _ _ _ _ hp with h | h
        · exact hfin ⟨p, h, hpf⟩
        · rw [hpf] at h; exact absurd h.symm (advance_ne_finished _ _)
    by_cases hv : (!st.visited.getD (g.col_idx.getD i 0) false) = true
    · by_cases hlt : wrap32 (st.distances.getD m 0 + g.weights.getD i 0) <
          st.distances.getD (g.col_idx.getD i 0) 0
      · have : workerStep g m ⟨st, nx, pcs⟩ t = RelaxState.mk st nx (pcs.set t
            (Pc.write i stop (g.col_idx.getD i 0)
              (wrap32 (st.distances.getD m 0 + g.weights.getD i 0)))) := by
          simp only [workerStep, hpc]; rw [if_pos hv, if_pos hlt]
        rw [this] at hsafe' ⊢
        have hsame : ∀ j, Pending (Pc.write i stop (g.col_idx.getD i 0)
            (wrap32 (st.distances.getD m 0 + g.weights.getD i 0))) j ↔
            Pending (pcs.getD t Pc.finished) j := by
          intro j; rw [hpc]; exact Iff.rfl
        refine ⟨hsafe', ⟨K, hK⟩, ?_, ?_, hle, ?_, ?_⟩
        · exact apart_set g m st1 pcs nx t K _ hK hne hpcs hdis
            (fun j hj => Or.inl ((hsame j).1 hj))
        · intro t' a b adj nd hw
          simp only at hw ⊢
          rw [getD_set_pcs _ _ _ _ hne] at hw
          by_cases ht : t = t'
          · rw [if_pos ht] at hw
            cases hw
            exact hlt
          · rw [if_neg ht] at hw; exact hpass t' a b adj nd hw
        · intro j j1 j2 j3 j4 j5 j6
          refine hdone j j1 j2 j3 (done_of_done_set pcs st st nx nx t _ hne j j4 ?_) j5 j6
          intro hp
          exact ((done_set pcs st nx t _ hne j).1 j4).1 ((hsame j).2 hp)
        · rintro ⟨p, hp, hpf⟩
          simp only at hp ⊢
          rcases mem_set_pcs _ _ _ _ hp with h | h
          · exact hfin ⟨p, h, hpf⟩
          · rw [hpf] at h; cases h
      · have : workerStep g m ⟨st, nx, pcs⟩ t =
            RelaxState.mk st nx (pcs.set t (advance i stop)) := by
          simp only [workerStep, hpc]; rw [if_pos hv, if_neg hlt]
        rw [this]
        apply hskip
        intro _
        rw [← hdm]
        omega
    · have : workerStep g m ⟨st, nx, pcs⟩ t =
          RelaxState.mk st nx (pcs.set t (advance i stop)) := by
        simp only [workerStep, hpc]; rw [if_neg hv]
      rw [this]
      apply hskip
      intro hv1
      exfalso
      apply hv
      rw [r1, hv1]
      rfl
  | write i stop adj nd =>
    have hne : pcs.getD t Pc.finished ≠ Pc.finished := by rw [hpc]; intro e; cases e
    rw [hpc] at hok
    obtain ⟨o1, o2, o3, o4, o5, o6, o7⟩ := hok
    have hpi : Pending (pcs.getD t Pc.finished) i := by rw [hpc]; exact ⟨le_refl _, o2⟩
    have hlt := hpass t i stop adj nd hpc
    have : workerStep g m ⟨st, nx, pcs⟩ t = RelaxState.mk
        (State.mk (st.distances.set adj nd) st.visited) nx
        (pcs.set t (advance i stop)) := by
      simp only [workerStep, hpc]
    rw [this] at hsafe' ⊢
    refine ⟨hsafe', ⟨K, hK⟩, ?_, ?_, ?_, ?_, ?_⟩
    · refine apart_set g m st1 pcs nx t K _ hK hne hpcs hdis (fun j hj => Or.inl ?_)
      rw [hpc]
      have := (pending_advance i stop j).1 hj
      exact ⟨by omega, this.2⟩
    · intro t' a b adj' nd' hw
      simp only at hw ⊢
      rw [getD_set_pcs _ _ _ _ hne] at hw
      by_cases ht : t = t'
      · rw [if_pos ht] at hw; exact absurd hw (advance_ne_write _ _ _ _ _ _)
      · rw [if_neg ht] at hw
        have hold := hpass t' a b adj' nd' hw
        rw [getD_set]
        by_cases hc : adj = adj' ∧ adj < st.distances.length
        · exfalso
          have hok' := hpcs t'
          rw [hw] at hok'
          obtain ⟨p1, p2, p3, p4, p5, p6, p7⟩ := hok'
          have hpa : Pending (pcs.getD t' Pc.finished) a := by
            rw [hw]; exact ⟨le_refl _, p2⟩
          apply hdis t t' ht i a hpi hpa
          exact hloc i a o1 (by omega) p1 (by omega) (by rw [← o5, ← p5]; exact hc.1)
            (by rw [← o5]; exact o6)
        · rw [if_neg hc]; exact hold
    · intro v
      simp only
      rw [getD_set]
      by_cases hc : adj = v ∧ adj < st.distances.length
      · rw [if_pos hc]
        have := hle v
        rw [← hc.1] at this ⊢
        omega
      · rw [if_neg hc]; exact hle v
    · intro j j1 j2 j3 j4 j5 j6
      simp only
      rw [getD_set]
      by_cases hji : j = i
      · subst hji
        rw [if_pos ⟨o5, by rw [r2, o5]; exact j6⟩, o7]
      · have hq := ((done_set pcs _ nx t _ hne j).1 j4).1
        rw [pending_advance] at hq
        have hnp : ¬ Pending (pcs.getD t Pc.finished) j := by
          rw [hpc]
          rintro ⟨a, b⟩
          exact hq ⟨by omega, b⟩
        have hd := done_of_done_set pcs st _ nx nx t _ hne j j4 hnp
        have hold := hdone j j1 j2 j3 hd j5 j6
        by_cases hc : adj = g.col_idx.getD j 0 ∧ adj < st.distances.length
        · rw [if_pos hc]
          rw [← hc.1] at hold
          omega
        · rw [if_neg hc]; exact hold
    · rintro ⟨p, hp, hpf⟩
      simp only at hp ⊢
      rcases mem_set_pcs _ _ _ _ hp with h | h
      · exact hfin ⟨p, h, hpf⟩
      · rw [hpf] at h; exact absurd h.symm (advance_ne_finished _ _)


theorem state_ext (a b : State) (h1 : a.distances = b.distances)
    (h2 : a.visited = b.visited) : a = b := by
  cases a; cases b
  simp only at h1 h2
  rw [h1, h2]

theorem distances_ext (l1 l2 : List Int) (n : Nat) (h1 : l1.length = n)
    (h2 : l2.length = n) (h : ∀ v, v < n → l1.getD v 0 = l2.getD v 0) : l1 = l2 := by
  apply List.ext_getElem (by rw [h1, h2])
  intro v hv1 hv2
  have := h v (by omega)
  rw [List.getD_eq_getElem _ _ hv1, List.getD_eq_getElem _ _ hv2] at this
  exact this

theorem chunk_start (g : CSRGraph) (m T : Nat) (st1 : State) :
    ChunkInv g m st1 ⟨st1, g.row_ptr.getD m 0, List.replicate T Pc.idle⟩ := by
  have hnp : ∀ t j, ¬ Pending ((List.replicate T Pc.idle).getD t Pc.finished) j := by
    intro t j hp
    rw [getD_replicate] at hp
    split_ifs at hp <;> cases hp
  refine ⟨safe_start g m T st1, ⟨0, rfl⟩, ?_, ?_, ?_, ?_, ?_⟩
  · intro a b _ ja jb ha _
    exact absurd ha (hnp a ja)
  · intro t i stop adj nd hw
    simp only at hw
    rw [getD_replicate] at hw
    split_ifs at hw
  · intro v; exact le_refl _
  · intro j j1 _ j3 _ _ _
    simp only at j3
    omega
  · rintro ⟨p, hp, hpf⟩
    simp only at hp
    have := List.eq_of_mem_replicate hp
    rw [hpf] at this
    cases this

theorem chunk_fold (g : CSRGraph) (m : Nat) (st1 : State)
    (hm : st1.visited.getD m false = true) (hloc : SameChunk g m st1)
    (il : List Nat) :
    ∀ rs, ChunkInv g m st1 rs → ChunkInv g m st1 (il.foldl (workerStep g m) rs) := by
  induction il with
  | nil => intro rs h; exact h
  | cons t il ih =>
    intro rs h
    rw [List.foldl_cons]
    exact ih _ (chunk_step g m st1 hm hloc rs t h)

theorem length_pcs_step (g : CSRGraph) (m : Nat) (rs : RelaxState) (t : Nat) :
    (workerStep g m rs t).pcs.length = rs.pcs.length := by
  unfold workerStep
  cases rs.pcs.getD t Pc.finished with
  | finished => rfl
  | idle =>
    simp only
    split_ifs <;> simp
  | test i stop =>
    simp only
    split_ifs <;> simp
  | write i stop adj nd => simp

theorem length_pcs_relaxRun (g : CSRGraph) (m T : Nat) (il : List Nat) (st1 : State) :
    (relaxRun g m T il st1).pcs.length = T := by
  have key : ∀ (il : List Nat) (rs : RelaxState),
      (il.foldl (workerStep g m) rs).pcs.length = rs.pcs.length := by
    intro il
    induction il with
    | nil => intro rs; rfl
    | cons t il ih =>
      intro rs
      rw [List.foldl_cons, ih, length_pcs_step]
  rw [relaxRun, key]
  simp

/-- When two entries of the chosen vertex that name the same unvisited vertex lie in one
chunk, every interleaving that runs the relaxation loop to its end leaves the arrays that
the relaxation loop of `dijkstra_sequential` leaves. -/
theorem relaxRun_raceFree (g : CSRGraph) (m T : Nat) (il : List Nat) (st1 : State)
    (hT : 1 ≤ T) (hm : st1.visited.getD m false = true) (hloc : SameChunk g m st1)
    (hfin : Finished (relaxRun g m T il st1)) :
    (relaxRun g m T il st1).st = (adjRange g m).foldl (relaxStep g m) st1 := by
  have hinv := chunk_fold g m st1 hm hloc il _ (chunk_start g m T st1)
  have hlen := length_pcs_relaxRun g m T il st1
  change ChunkInv g m st1 (relaxRun g m T il st1) at hinv
  generalize relaxRun g m T il st1 = rs at hinv hlen hfin
  obtain ⟨⟨⟨s1, s2, s3⟩, _, _⟩, _, _, _, hle, hdone, hnext⟩ := hinv
  obtain ⟨r1, r2, r3, r4, r5⟩ := relax_fold g m st1 hm (adjRange g m)
  have hhi : g.row_ptr.getD (m + 1) 0 ≤ rs.next := by
    apply hnext
    have hpos : 0 < rs.pcs.length := by omega
    exact ⟨rs.pcs[0], List.getElem_mem hpos, hfin _ (List.getElem_mem hpos)⟩
  have hall : ∀ j, Done rs j := by
    intro j t hp
    by_cases ht : t < rs.pcs.length
    · rw [List.getD_eq_getElem _ _ ht, hfin _ (List.getElem_mem ht)] at hp
      cases hp
    · rw [List.getD_eq_default _ _ (by omega)] at hp
      cases hp
  apply state_ext
  · apply distances_ext _ _ st1.distances.length s2 r2
    intro v hv
    apply le_antisymm
    · rcases r4 v with h | ⟨hv', j, hj, hc, h⟩
      · rw [h]; exact hle v
      · have hj' := (mem_adjRange g m j).1 hj
        have := hdone j hj'.1 hj'.2 (by omega) (hall j) (by rw [hc]; exact hv')
          (by rw [hc]; exact hv)
        rw [hc] at this
        rw [h]; exact this
    · rcases s3 v with h | ⟨hv', j, hj, hc, h⟩
      · rw [h]; exact r3 v
      · have := r5 j hj (by rw [hc]; exact hv') (by rw [hc]; exact hv)
        rw [hc] at this
        rw [h]; exact this
  · rw [s1, r1]


/-- In an edge list with pairwise distinct vertex pairs, two entries of a vertex `x` name
the same neighbour only when they are the two entries of a line from `x` to `x`. -/
theorem incident_pairwise (edges : List Edge) (hd : DistinctPairs edges) (x : Nat) :
    (incident edges x).Pairwise (fun p q => p.1 = q.1 → p.1 = x) := by
  induction edges with
  | nil => simp [incident]
  | cons e es ih =>
    have hd' := List.pairwise_cons.1 hd
    have hI := ih hd'.2
    have hno : ∀ q ∈ incident es x, (e.src = x ∧ e.dest = q.1 ∨ e.dest = x ∧ e.src = q.1) →
        False := by
      intro q hq hc
      have hJ : Joins es x q.1 q.2 := (mem_incident es x q.1 q.2).1 hq
      rcases hc with ⟨h1, h2⟩ | ⟨h1, h2⟩
      · obtain ⟨a, ha, hs⟩ := joins_sameEnds es e q.2 (Or.inl (by rw [h1, h2]; exact hJ))
        exact hd'.1 a ha hs
      · obtain ⟨a, ha, hs⟩ := joins_sameEnds es e q.2 (Or.inr (by rw [h1, h2]; exact hJ))
        exact hd'.1 a ha hs
    rw [incident, List.pairwise_append]
    refine ⟨?_, ?_, ?_⟩
    · split_ifs <;> simp
    · rw [List.pairwise_append]
      refine ⟨?_, hI, ?_⟩
      · split_ifs <;> simp
      · intro b hb q hq hbq
        by_cases h2 : e.dest = x
        · rw [if_pos h2, List.mem_singleton] at hb
          rw [hb] at hbq
          exact absurd (Or.inr ⟨h2, hbq⟩) (fun h => hno q hq h)
        · rw [if_neg h2] at hb; cases hb
    · intro a ha q hq haq
      by_cases h1 : e.src = x
      · rw [if_pos h1, List.mem_singleton] at ha
        rw [ha] at haq ⊢
        rcases List.mem_append.1 hq with hq | hq
        · by_cases h2 : e.dest = x
          · exact h2
          · rw [if_neg h2] at hq; cases hq
        · exact absurd (Or.inl ⟨h1, haq⟩) (fun h => hno q hq h)
      · rw [if_neg h1] at ha; cases ha

/-- In the graph built from an edge list with pairwise distinct vertex pairs, two
entries of a vertex `m` that name the same vertex other than `m` are one entry. -/
theorem distinct_entries_create (n : Nat) (edges : List Edge) (hr : InRange n edges)
    (hd : DistinctPairs edges) (m : Nat) (hm : m < n) (j1 j2 : Nat)
    (a1 : (create_csr_graph n edges).row_ptr.getD m 0 ≤ j1)
    (a2 : j1 < (create_csr_graph n edges).row_ptr.getD (m + 1) 0)
    (b1 : (create_csr_graph n edges).row_ptr.getD m 0 ≤ j2)
    (b2 : j2 < (create_csr_graph n edges).row_ptr.getD (m + 1) 0)
    (hcol : (create_csr_graph n edges).col_idx.getD j1 0 =
      (create_csr_graph n edges).col_idx.getD j2 0)
    (hne : (create_csr_graph n edges).col_idx.getD j1 0 ≠ m) : j1 = j2 := by
  have hp := incident_pairwise edges hd m
  rw [← adjacency_create n edges hr m hm, adjacency_eq_map, List.pairwise_map] at hp
  have hsym : Symmetric (fun a b : Nat =>
      (create_csr_graph n edges).col_idx.getD a 0 =
        (create_csr_graph n edges).col_idx.getD b 0 →
      (create_csr_graph n edges).col_idx.getD a 0 = m) := by
    intro a b hab hba
    rw [hba]
    exact hab hba.symm
  by_contra hj
  exact hne (hp.forall hsym ((mem_adjRange _ m j1).2 ⟨a1, a2⟩)
    ((mem_adjRange _ m j2).2 ⟨b1, b2⟩) hj hcol)

/-- An edge list with pairwise distinct vertex pairs builds a graph on which the
relaxation loop of `dijkstra_parallel` has no two workers storing to one element. -/
theorem raceFree_of_distinctPairs (n : Nat) (edges : List Edge) (hr : InRange n edges)
    (hd : DistinctPairs edges) : RaceFree (create_csr_graph n edges) := by
  rintro m hm j1 a2 j2 b2 ⟨a1, b1, hcol, hne⟩
  rw [num_nodes_create] at hm
  rw [distinct_entries_create n edges hr hd m hm j1 j2 a1 a2 b1 b2 hcol hne]

/-- A graph in which no vertex has more than 512 adjacency entries is one on which the
relaxation loop of `dijkstra_parallel` has no two workers storing to one element: the
whole adjacency range is one chunk. -/
theorem raceFree_of_short_rows (g : CSRGraph)
    (h : ∀ m, m < g.num_nodes → g.row_ptr.getD (m + 1) 0 - g.row_ptr.getD m 0 ≤ 512) :
    RaceFree g := by
  rintro m hm j1 a2 j2 b2 ⟨a1, b1, _, _⟩
  have := h m hm
  omega

/-- On a graph that is `RaceFree`, the entries of a visited vertex that name the same
unvisited vertex lie in one chunk. -/
theorem sameChunk_of_raceFree (g : CSRGraph) (hg : RaceFree g) (m : Nat)
    (hm : m < g.num_nodes) (st1 : State) (hv : st1.visited.getD m false = true) :
    SameChunk g m st1 := by
  intro j1 j2 a1 a2 b1 b2 hcol hun
  refine hg m hm j1 a2 j2 b2 ⟨a1, b1, hcol, ?_⟩
  intro e
  rw [e, hv] at hun
  cases hun


theorem foldl_replicate_add (g : CSRGraph) (m a b : Nat) (rs : RelaxState) :
    (List.replicate (a + b) 0).foldl (workerStep g m) rs =
      (List.replicate b 0).foldl (workerStep g m)
        ((List.replicate a 0).foldl (workerStep g m) rs) := by
  rw [List.replicate_add, List.foldl_append]

theorem foldl_replicate_one (g : CSRGraph) (m : Nat) (rs : RelaxState) :
    (List.replicate 1 0).foldl (workerStep g m) rs = workerStep g m rs 0 := rfl

theorem foldl_replicate_two (g : CSRGraph) (m : Nat) (rs : RelaxState) :
    (List.replicate 2 0).foldl (workerStep g m) rs =
      workerStep g m (workerStep g m rs 0) 0 := rfl

/-- A worker that has left the loop takes no further step. -/
theorem foldl_finished (g : CSRGraph) (m : Nat) (st : State) (nx : Nat) (rest : List Pc) :
    ∀ k, (List.replicate k 0).foldl (workerStep g m) ⟨st, nx, Pc.finished :: rest⟩ =
      ⟨st, nx, Pc.finished :: rest⟩ := by
  intro k
  induction k with
  | zero => rfl
  | succ k ih =>
    rw [List.replicate_succ, List.foldl_cons]
    have : workerStep g m ⟨st, nx, Pc.finished :: rest⟩ 0 = ⟨st, nx, Pc.finished :: rest⟩ := by
      simp only [workerStep, List.getD_cons_zero]
    rw [this, ih]

/-- Worker 0 at the head of iteration `i`, the other workers standing still: after one
step, or two when the comparison is passed, the arrays are those of the sequential loop
body and the worker has moved on. -/
theorem entry_steps (g : CSRGraph) (m : Nat) (st : State) (nx i stop : Nat)
    (rest : List Pc) :
    ∃ K, K ≤ 2 ∧
      (List.replicate K 0).foldl (workerStep g m) ⟨st, nx, Pc.test i stop :: rest⟩ =
        ⟨relaxStep g m st i, nx, advance i stop :: rest⟩ := by
  by_cases h1 : (!st.visited.getD (g.col_idx.getD i 0) false) = true
  · by_cases h2 : wrap32 (st.distances.getD m 0 + g.weights.getD i 0) <
        st.distances.getD (g.col_idx.getD i 0) 0
    · refine ⟨2, le_refl _, ?_⟩
      have s1 : workerStep g m ⟨st, nx, Pc.test i stop :: rest⟩ 0 =
          ⟨st, nx, Pc.write i stop (g.col_idx.getD i 0)
            (wrap32 (st.distances.getD m 0 + g.weights.getD i 0)) :: rest⟩ := by
        simp only [workerStep, List.getD_cons_zero]
        rw [if_pos h1, if_pos h2]
        rfl
      have s2 : workerStep g m ⟨st, nx, Pc.write i stop (g.col_idx.getD i 0)
            (wrap32 (st.distances.getD m 0 + g.weights.getD i 0)) :: rest⟩ 0 =
          ⟨relaxStep g m st i, nx, advance i stop :: rest⟩ := by
        simp only [workerStep, List.getD_cons_zero, relaxStep]
        rw [if_pos h1, if_pos h2]
        rfl
      rw [foldl_replicate_two, s1, s2]
    · refine ⟨1, by omega, ?_⟩
      rw [foldl_replicate_one]
      simp only [workerStep, List.getD_cons_zero, relaxStep]
      rw [if_pos h1, if_neg h2, if_pos h1, if_neg h2]
      rfl
  · refine ⟨1, by omega, ?_⟩
    rw [foldl_replicate_one]
    simp only [workerStep, List.getD_cons_zero, relaxStep]
    rw [if_neg h1, if_neg h1]
    rfl

/-- Worker 0 inside a chunk, the other workers standing still, runs the rest of the
relaxation loop as the sequential loop does and leaves it, in at most three steps for
each entry. -/
theorem one_worker_rest (g : CSRGraph) (m : Nat) (rest : List Pc) :
    ∀ (d : Nat) (st : State) (nx i stop : Nat), g.row_ptr.getD (m + 1) 0 - i = d →
      i < stop → stop ≤ g.row_ptr.getD (m + 1) 0 → stop ≤ nx →
      (stop < g.row_ptr.getD (m + 1) 0 → nx = stop) →
      ∃ K nx', K ≤ 3 * d ∧ g.row_ptr.getD (m + 1) 0 ≤ nx' ∧
        (List.replicate K 0).foldl (workerStep g m) ⟨st, nx, Pc.test i stop :: rest⟩ =
        ⟨(List.range' i (g.row_ptr.getD (m + 1) 0 - i)).foldl (relaxStep g m) st, nx',
          Pc.finished :: rest⟩ := by
  intro d
  induction d using Nat.strong_induction_on with
  | _ d ih =>
    intro st nx i stop hd hi hstop hnx hnext
    obtain ⟨K1, hK1b, hK1⟩ := entry_steps g m st nx i stop rest
    have hlen : g.row_ptr.getD (m + 1) 0 - i = (g.row_ptr.getD (m + 1) 0 - (i + 1)) + 1 := by
      omega
    have hfold : (List.range' i (g.row_ptr.getD (m + 1) 0 - i)).foldl (relaxStep g m) st =
        (List.range' (i + 1) (g.row_ptr.getD (m + 1) 0 - (i + 1))).foldl (relaxStep g m)
          (relaxStep g m st i) := by
      rw [hlen, List.range'_succ, List.foldl_cons]
    rw [hfold]
    by_cases h1 : i + 1 < stop
    · obtain ⟨K2, nx', hK2b, hnx', hK2⟩ := ih (g.row_ptr.getD (m + 1) 0 - (i + 1)) (by omega)
        (relaxStep g m st i) nx (i + 1) stop rfl h1 hstop hnx hnext
      refine ⟨K1 + K2, nx', by omega, hnx', ?_⟩
      rw [foldl_replicate_add, hK1, advance, if_pos h1, hK2]
    · by_cases h2 : stop < g.row_ptr.getD (m + 1) 0
      · have hnx' := hnext h2
        have sidle : workerStep g m ⟨relaxStep g m st i, nx, Pc.idle :: rest⟩ 0 =
            ⟨relaxStep g m st i, nx + 512,
              Pc.test nx (min (nx + 512) (g.row_ptr.getD (m + 1) 0)) :: rest⟩ := by
          simp only [workerStep, List.getD_cons_zero]
          rw [if_pos (by omega)]
          rfl
        have hi1 : nx = i + 1 := by omega
        obtain ⟨K2, nx', hK2b, hnx'', hK2⟩ := ih (g.row_ptr.getD (m + 1) 0 - (i + 1))
          (by omega) (relaxStep g m st i) (nx + 512) (i + 1)
          (min (nx + 512) (g.row_ptr.getD (m + 1) 0)) rfl
          (by rw [Nat.lt_min]; omega) (Nat.min_le_right _ _) (Nat.min_le_left _ _)
          (fun h => by
            rcases Nat.le_total (nx + 512) (g.row_ptr.getD (m + 1) 0) with h' | h'
            · rw [Nat.min_eq_left h']
            · rw [Nat.min_eq_right h'] at h; omega)
        refine ⟨K1 + (1 + K2), nx', by omega, hnx'', ?_⟩
        rw [foldl_replicate_add, hK1, advance, if_neg h1, foldl_replicate_add]
        rw [foldl_replicate_one, sidle]
        rw [hi1] at hK2 ⊢
        exact hK2
      · have hend : g.row_ptr.getD (m + 1) 0 - (i + 1) = 0 := by omega
        have sidle : workerStep g m ⟨relaxStep g m st i, nx, Pc.idle :: rest⟩ 0 =
            ⟨relaxStep g m st i, nx, Pc.finished :: rest⟩ := by
          simp only [workerStep, List.getD_cons_zero]
          rw [if_neg (by omega)]
          rfl
        refine ⟨K1 + 1, nx, by omega, by omega, ?_⟩
        rw [foldl_replicate_add, hK1, advance, if_neg h1, hend, foldl_replicate_one]
        exact sidle

/-- Worker 0 alone, given at least three steps for each entry and one more, runs the
whole relaxation loop as the sequential loop does and leaves it; the other workers have
not started. -/
theorem solo_worker (g : CSRGraph) (m : Nat) (st : State) (rest : List Pc) (K : Nat)
    (hK : 3 * (g.row_ptr.getD (m + 1) 0 - g.row_ptr.getD m 0) + 1 ≤ K) :
    ∃ nx, g.row_ptr.getD (m + 1) 0 ≤ nx ∧
      (List.replicate K 0).foldl (workerStep g m)
        ⟨st, g.row_ptr.getD m 0, Pc.idle :: rest⟩ =
      ⟨(adjRange g m).foldl (relaxStep g m) st, nx, Pc.finished :: rest⟩ := by
  by_cases h : g.row_ptr.getD m 0 < g.row_ptr.getD (m + 1) 0
  · have sidle : workerStep g m ⟨st, g.row_ptr.getD m 0, Pc.idle :: rest⟩ 0 =
        ⟨st, g.row_ptr.getD m 0 + 512,
          Pc.test (g.row_ptr.getD m 0)
            (min (g.row_ptr.getD m 0 + 512) (g.row_ptr.getD (m + 1) 0)) :: rest⟩ := by
      simp only [workerStep, List.getD_cons_zero]
      rw [if_pos h]
      rfl
    obtain ⟨K1, nx, hK1, hnx, hrun⟩ := one_worker_rest g m rest _ st
      (g.row_ptr.getD m 0 + 512) (g.row_ptr.getD m 0)
      (min (g.row_ptr.getD m 0 + 512) (g.row_ptr.getD (m + 1) 0)) rfl
      (by rw [Nat.lt_min]; omega) (Nat.min_le_right _ _) (Nat.min_le_left _ _)
      (fun h' => by
        rcases Nat.le_total (g.row_ptr.getD m 0 + 512) (g.row_ptr.getD (m + 1) 0) with h'' | h''
        · rw [Nat.min_eq_left h'']
        · rw [Nat.min_eq_right h''] at h'; omega)
    refine ⟨nx, hnx, ?_⟩
    have hsplit : K = 1 + (K1 + (K - 1 - K1)) := by omega
    rw [hsplit, foldl_replicate_add, foldl_replicate_one, sidle, foldl_replicate_add, hrun,
      foldl_finished]
    rfl
  · refine ⟨g.row_ptr.getD m 0, by omega, ?_⟩
    have hz : g.row_ptr.getD (m + 1) 0 - g.row_ptr.getD m 0 = 0 := by omega
    have sidle : workerStep g m ⟨st, g.row_ptr.getD m 0, Pc.idle :: rest⟩ 0 =
        ⟨st, g.row_ptr.getD m 0, Pc.finished :: rest⟩ := by
      simp only [workerStep, List.getD_cons_zero]
      rw [if_neg h]
      rfl
    have hsplit : K = 1 + (K - 1) := by omega
    rw [hsplit, foldl_replicate_add, foldl_replicate_one, sidle, foldl_finished, adjRange, hz]
    rfl

theorem getD_append_cons (l1 l2 : List Pc) (x d : Pc) :
    (l1 ++ x :: l2).getD l1.length d = x := by
  induction l1 with
  | nil => rfl
  | cons a l1 ih => simpa using ih

theorem set_append_cons (l1 l2 : List Pc) (x y : Pc) :
    (l1 ++ x :: l2).set l1.length y = l1 ++ y :: l2 := by
  induction l1 with
  | nil => rfl
  | cons a l1 ih => simp

/-- Once every index is handed out, each worker that has not started leaves the loop at
its first step. -/
theorem finish_all (g : CSRGraph) (m : Nat) (st : State) (nx : Nat)
    (hnx : g.row_ptr.getD (m + 1) 0 ≤ nx) :
    ∀ r a, (List.range' a r).foldl (workerStep g m)
        ⟨st, nx, List.replicate a Pc.finished ++ List.replicate r Pc.idle⟩ =
      ⟨st, nx, List.replicate (a + r) Pc.finished⟩ := by
  intro r
  induction r with
  | zero => intro a; simp
  | succ r ih =>
    intro a
    have hstep : workerStep g m
        ⟨st, nx, List.replicate a Pc.finished ++ List.replicate (r + 1) Pc.idle⟩ a =
        ⟨st, nx, List.replicate (a + 1) Pc.finished ++ List.replicate r Pc.idle⟩ := by
      have hg : (List.replicate a Pc.finished ++ Pc.idle :: List.replicate r Pc.idle).getD a
          Pc.finished = Pc.idle := by
        have := getD_append_cons (List.replicate a Pc.finished) (List.replicate r Pc.idle)
          Pc.idle Pc.finished
        rw [List.length_replicate] at this
        exact this
      have hs : (List.replicate a Pc.finished ++ Pc.idle :: List.replicate r Pc.idle).set a
          Pc.finished = List.replicate (a + 1) Pc.finished ++ List.replicate r Pc.idle := by
        have := set_append_cons (List.replicate a Pc.finished) (List.replicate r Pc.idle)
          Pc.idle Pc.finished
        rw [List.length_replicate] at this
        rw [this, List.replicate_succ', List.append_assoc]
        rfl
      rw [List.replicate_succ]
      simp only [workerStep, hg]
      rw [if_neg (by omega), hs]
    rw [List.range'_succ, List.foldl_cons, hstep, ih (a + 1)]
    have : a + 1 + r = a + (r + 1) := by omega
    rw [this]

/-- The interleaving that gives worker 0 enough steps to run the whole relaxation loop
and then one step to every worker is a whole execution, and it leaves the arrays of the
relaxation loop of `dijkstra_sequential`. -/
theorem solo_relaxRun (g : CSRGraph) (m T K : Nat) (st : State) (hT : 1 ≤ T)
    (hK : 3 * (g.row_ptr.getD (m + 1) 0 - g.row_ptr.getD m 0) + 1 ≤ K) :
    ∃ nx, relaxRun g m T (soloInterleaving T K) st =
      ⟨(adjRange g m).foldl (relaxStep g m) st, nx, List.replicate T Pc.finished⟩ := by
  obtain ⟨r, rfl⟩ : ∃ r, T = r + 1 := ⟨T - 1, by omega⟩
  obtain ⟨nx, hnx, hrun⟩ := solo_worker g m st (List.replicate r Pc.idle) K hK
  refine ⟨nx, ?_⟩
  rw [relaxRun, soloInterleaving, List.foldl_append, List.replicate_succ, hrun,
    List.range_eq_range', List.range'_succ, List.foldl_cons]
  have h0 : workerStep g m ⟨(adjRange g m).foldl (relaxStep g m) st, nx,
      Pc.finished :: List.replicate r Pc.idle⟩ 0 =
      ⟨(adjRange g m).foldl (relaxStep g m) st, nx,
        List.replicate 1 Pc.finished ++ List.replicate r Pc.idle⟩ := by
    simp only [workerStep, List.getD_cons_zero]
    rfl
  rw [h0, finish_all g m _ nx hnx r 1]
  have : 1 + r = r + 1 := by omega
  rw [this]

theorem finished_replicate (st : State) (nx T : Nat) :
    Finished ⟨st, nx, List.replicate T Pc.finished⟩ := by
  intro p hp
  exact List.eq_of_mem_replicate hp

/-- Run by one worker, the relaxation loop taken step by step does what the relaxation
loop of `dijkstra_sequential` does. -/
theorem one_worker_relaxRun (g : CSRGraph) (m : Nat) (st : State) :
    ∃ K nx, relaxRun g m 1 (List.replicate K 0) st =
      ⟨(adjRange g m).foldl (relaxStep g m) st, nx, [Pc.finished]⟩ := by
  obtain ⟨nx, _, hrun⟩ := solo_worker g m st []
    (3 * (g.row_ptr.getD (m + 1) 0 - g.row_ptr.getD m 0) + 1) (le_refl _)
  exact ⟨_, nx, hrun⟩


/-- One outer iteration of `dijkstra_parallel` from a state with the legitimate choice
`m`, whatever the interleaving: the number of unvisited vertices drops by one. -/
theorem par_iteration_count (g : CSRGraph) (st : State) (m T : Nat) (il : List Nat)
    (hl : st.visited.length = g.num_nodes) (hm : IsMin st g.num_nodes m) :
    Relaxed g m (markVisited st m) (relaxRun g m T il (markVisited st m)).st ∧
    (relaxRun g m T il (markVisited st m)).st.visited.length = g.num_nodes ∧
    (relaxRun g m T il (markVisited st m)).st.visited.count false + 1 =
      st.visited.count false := by
  have hv1 : (markVisited st m).visited.getD m false = true := by
    simp only [markVisited]
    rw [getD_set_eq _ _ _ _ (by rw [hl]; exact hm.1)]
  have hR := relaxed_relaxRun g m T il (markVisited st m) hv1
  refine ⟨hR, ?_, ?_⟩
  · rw [hR.1]; simp only [markVisited, List.length_set]; exact hl
  · rw [hR.1]; simp only [markVisited]
    exact count_false_set _ _ (by rw [hl]; exact hm.1) hm.2.1

theorem parLoop_zero (g : CSRGraph) (sched : Nat → Schedule) (inter : Nat → List Nat)
    (count : Nat) (st : State) : parLoop g sched inter 0 count st = st := rfl

theorem complete_zero (g : CSRGraph) (sched : Nat → Schedule) (inter : Nat → List Nat)
    (count : Nat) (st : State) : Complete g sched inter 0 count st = True := rfl

theorem parLoop_step (g : CSRGraph) (sched : Nat → Schedule) (inter : Nat → List Nat)
    (k count : Nat) (st : State) (d : Int) (m : Nat)
    (h : parallelMin (sched count) st g.num_nodes = (d, (m : Int))) :
    parLoop g sched inter (k + 1) count st =
      parLoop g sched inter k (count + 1)
        (relaxRun g m (sched count).num_threads (inter count) (markVisited st m)).st := by
  rw [parLoop]
  simp only
  rw [h]
  simp only
  rw [if_neg (by omega), Int.toNat_ofNat]

theorem complete_step (g : CSRGraph) (sched : Nat → Schedule) (inter : Nat → List Nat)
    (k count : Nat) (st : State) (d : Int) (m : Nat)
    (h : parallelMin (sched count) st g.num_nodes = (d, (m : Int))) :
    Complete g sched inter (k + 1) count st ↔
      (Finished (relaxRun g m (sched count).num_threads (inter count) (markVisited st m)) ∧
        Complete g sched inter k (count + 1)
          (relaxRun g m (sched count).num_threads (inter count)
            (markVisited st m)).st) := by
  rw [Complete, h]
  simp only [Int.toNat_ofNat]
  exact ⟨fun hc => hc (by omega), fun hc _ => hc⟩

/-- Loop rule of `dijkstra_parallel`, for every choice of valid schedules and every
interleaving of the relaxation loops: a property kept by every relaxation loop, however
its steps are interleaved, holds when the outer loop ends, and the outer loop ends in an
exhausted state. -/
theorem parLoop_rule (g : CSRGraph) (sched : Nat → Schedule) (hs : ∀ c, (sched c).Valid)
    (inter : Nat → List Nat) (P : State → Prop)
    (hstep : ∀ (st : State) (m T : Nat) (il : List Nat), P st →
      st.visited.length = g.num_nodes → IsMin st g.num_nodes m →
      P (relaxRun g m T il (markVisited st m)).st) :
    ∀ k count st, P st → st.visited.length = g.num_nodes → st.visited.count false ≤ k →
      P (parLoop g sched inter k count st) ∧
      Exhausted (parLoop g sched inter k count st) g.num_nodes := by
  intro k
  induction k with
  | zero =>
    intro count st hP hl hc
    exact ⟨hP, exhausted_of_all_visited st _ hl (by omega)⟩
  | succ k ih =>
    intro count st hP hl hc
    rcases parallelMin_minResult (sched count) (hs count) st g.num_nodes with
      ⟨h1, hex⟩ | ⟨m, h1, hmin⟩
    · rw [parLoop]; simp only
      rw [if_pos h1]; exact ⟨hP, hex⟩
    · rw [parLoop_step g sched inter k count st _ m (Prod.ext rfl h1)]
      obtain ⟨_, a, b⟩ := par_iteration_count g st m (sched count).num_threads (inter count)
        hl hmin
      exact ih _ _ (hstep st m _ _ hP hl hmin) a (by omega)

/-- The loop rule of `dijkstra_parallel` without the count of the iterations. -/
theorem parLoop_keeps (g : CSRGraph) (sched : Nat → Schedule) (hs : ∀ c, (sched c).Valid)
    (inter : Nat → List Nat) (P : State → Prop)
    (hstep : ∀ (st : State) (m T : Nat) (il : List Nat), P st →
      st.visited.length = g.num_nodes → IsMin st g.num_nodes m →
      P (relaxRun g m T il (markVisited st m)).st) :
    ∀ k count st, P st → st.visited.length = g.num_nodes →
      P (parLoop g sched inter k count st) := by
  intro k
  induction k with
  | zero => intro count st hP _; exact hP
  | succ k ih =>
    intro count st hP hl
    rcases parallelMin_minResult (sched count) (hs count) st g.num_nodes with
      ⟨h1, _⟩ | ⟨m, h1, hmin⟩
    · rw [parLoop]; simp only
      rw [if_pos h1]; exact hP
    · rw [parLoop_step g sched inter k count st _ m (Prod.ext rfl h1)]
      exact ih _ _ (hstep st m _ _ hP hl hmin)
        (par_iteration_count g st m _ _ hl hmin).2.1

/-- Loop rule of `dijkstra_parallel` for whole executions: the property need only be
kept by the relaxation loops that the interleaving runs to their end. -/
theorem parLoop_complete (g : CSRGraph) (sched : Nat → Schedule)
    (hs : ∀ c, (sched c).Valid) (inter : Nat → List Nat) (P : State → Prop)
    (hstep : ∀ (st : State) (m count : Nat), P st →
      st.visited.length = g.num_nodes → IsMin st g.num_nodes m →
      Finished (relaxRun g m (sched count).num_threads (inter count) (markVisited st m)) →
      P (relaxRun g m (sched count).num_threads (inter count) (markVisited st m)).st) :
    ∀ k count st, P st → st.visited.length = g.num_nodes → st.visited.count false ≤ k →
      Complete g sched inter k count st →
      P (parLoop g sched inter k count st) ∧
      Exhausted (parLoop g sched inter k count st) g.num_nodes := by
  intro k
  induction k with
  | zero =>
    intro count st hP hl hc _
    exact ⟨hP, exhausted_of_all_visited st _ hl (by omega)⟩
  | succ k ih =>
    intro count st hP hl hc hcomp
    rcases parallelMin_minResult (sched count) (hs count) st g.num_nodes with
      ⟨h1, hex⟩ | ⟨m, h1, hmin⟩
    · rw [parLoop]; simp only
      rw [if_pos h1]; exact ⟨hP, hex⟩
    · rw [parLoop_step g sched inter k count st _ m (Prod.ext rfl h1)]
      obtain ⟨hf, hrest⟩ :=
        (complete_step g sched inter k count st _ m (Prod.ext rfl h1)).1 hcomp
      obtain ⟨_, a, b⟩ := par_iteration_count g st m (sched count).num_threads (inter count)
        hl hmin
      exact ih _ _ (hstep st m count hP hl hmin hf) a (by omega) hrest

theorem parLoop_exhausted (g : CSRGraph) (sched : Nat → Schedule)
    (hs : ∀ c, (sched c).Valid) (inter : Nat → List Nat) (k count : Nat) (st : State)
    (h : Exhausted st g.num_nodes) : parLoop g sched inter k count st = st := by
  cases k with
  | zero => rfl
  | succ k =>
    rw [parLoop]
    simp only
    rcases parallelMin_minResult (sched count) (hs count) st g.num_nodes with
      ⟨h1, _⟩ | ⟨m, _, hmn, hmv, hmd, _⟩
    · rw [if_pos h1]
    · have := h m hmn hmv; omega

/-- A relaxation loop, however its steps are interleaved, keeps the distance `c` of a
vertex `x` that is visited, or that is the only unvisited vertex below `INF`, whatever
the graph and its weights are. -/
theorem pinned_relaxed (g : CSRGraph) (x : Nat) (c : Int) (st : State) (m : Nat)
    (st' : State)
    (hP : st.distances.length = g.num_nodes ∧ st.distances.getD x 0 = c ∧
      (st.visited.getD x false = true ∨
        ∀ v, v < g.num_nodes → v ≠ x → st.visited.getD v false = false →
          INF ≤ st.distances.getD v 0))
    (hl : st.visited.length = g.num_nodes) (hm : IsMin st g.num_nodes m)
    (hR : Relaxed g m (markVisited st m) st') :
    st'.distances.length = g.num_nodes ∧ st'.distances.getD x 0 = c ∧
    (st'.visited.getD x false = true ∨
      ∀ v, v < g.num_nodes → v ≠ x → st'.visited.getD v false = false →
        INF ≤ st'.distances.getD v 0) := by
  obtain ⟨pL, pS, pV⟩ := hP
  obtain ⟨hmn, hmv, hmd, _⟩ := hm
  have hvis := visited_markVisited st g.num_nodes m hl hmn
  obtain ⟨r1, r2, r4⟩ := hR
  have hs1 : (markVisited st m).visited.getD x false = true := by
    rw [hvis]
    by_cases h : m = x
    · rw [if_pos h]
    · rw [if_neg h]
      rcases pV with h' | h'
      · exact h'
      · have := h' m hmn h hmv; omega
  refine ⟨by rw [r2]; exact pL, ?_, Or.inl (by rw [r1]; exact hs1)⟩
  rcases r4 x with h | ⟨h, _⟩
  · rw [h]; exact pS
  · rw [hs1] at h; cases h

/-- A relaxation loop, however its steps are interleaved, only changes the distance of
vertices that have a path to the source, whatever the weights are. -/
theorem reach_relaxed (n : Nat) (edges : List Edge) (hr : InRange n edges) (s : Nat)
    (st : State) (m : Nat) (st' : State)
    (hP : st.distances.length = n ∧
      ∀ v, v < n → st.distances.getD v 0 ≠ INF → Reachable edges s v)
    (hm : IsMin st n m)
    (hR : Relaxed (create_csr_graph n edges) m (markVisited st m) st') :
    st'.distances.length = n ∧
    ∀ v, v < n → st'.distances.getD v 0 ≠ INF → Reachable edges s v := by
  obtain ⟨pL, pR⟩ := hP
  obtain ⟨hmn, hmv, hmd, _⟩ := hm
  obtain ⟨_, r2, r4⟩ := hR
  refine ⟨by rw [r2]; exact pL, ?_⟩
  intro v hv hne
  rcases r4 v with h | ⟨_, j, hj, hc, _⟩
  · rw [h] at hne; exact pR v hv hne
  · obtain ⟨vs, d, hW⟩ := pR m hmn (by omega)
    have hJ := (entry_iff_joins n edges hr m hmn v _).1 ⟨j, hj, hc, rfl⟩
    exact ⟨_, _, Walk.step hW hJ⟩


theorem dijkstra_parallel_eq (g : CSRGraph) (sched : Nat → Schedule)
    (inter : Nat → List Nat) (s : Nat) :
    dijkstra_parallel g sched inter s =
      (parLoop g sched inter g.num_nodes 0 (initState g.num_nodes s)).distances :=
  rfl

/-- The adjacency range of a vertex of the built graph has at most two entries for each
line. -/
theorem row_length_le (n : Nat) (edges : List Edge) (hr : InRange n edges) (m : Nat)
    (hm : m < n) :
    (create_csr_graph n edges).row_ptr.getD (m + 1) 0 -
      (create_csr_graph n edges).row_ptr.getD m 0 ≤ 2 * edges.length := by
  obtain ⟨_, _, _, h4, _⟩ := create_csr_graph_spec n edges hr
  rw [h4 (m + 1) (by omega), h4 m (by omega), Finset.sum_range_succ]
  have h1 := List.countP_le_length (fun e : Edge => decide (e.src = m)) (l := edges)
  have h2 := List.countP_le_length (fun e : Edge => decide (e.dest = m)) (l := edges)
  simp only [degree]
  omega

/-- When worker 0 is given steps enough for the longest adjacency range, the interleavings
`soloInterleaving` are whole executions, whatever the schedules of the minimum search
are. -/
theorem complete_solo (g : CSRGraph) (sched : Nat → Schedule) (hs : ∀ c, (sched c).Valid)
    (K : Nat)
    (hK : ∀ m, m < g.num_nodes →
      3 * (g.row_ptr.getD (m + 1) 0 - g.row_ptr.getD m 0) + 1 ≤ K) :
    ∀ k count st,
      Complete g sched (fun c => soloInterleaving (sched c).num_threads K) k count st := by
  intro k
  induction k with
  | zero => intro count st; trivial
  | succ k ih =>
    intro count st
    rcases parallelMin_minResult (sched count) (hs count) st g.num_nodes with
      ⟨h1, _⟩ | ⟨m, h1, hmin⟩
    · rw [Complete]; intro hne; exact absurd h1 hne
    · rw [complete_step g sched _ k count st _ m (Prod.ext rfl h1)]
      obtain ⟨nx, hrun⟩ := solo_relaxRun g m (sched count).num_threads K (markVisited st m)
        (hs count).1 (hK m hmin.1)
      refine ⟨?_, ih _ _⟩
      rw [hrun]
      exact finished_replicate _ _ _

/-- An outer iteration of `dijkstra_parallel` under a solo interleaving does what an
outer iteration of `dijkstra_sequential` does on the chosen vertex. -/
theorem parLoop_solo_iter (g : CSRGraph) (sched : Nat → Schedule)
    (hs : ∀ c, (sched c).Valid) (K k count : Nat) (st : State) (d : Int) (m : Nat)
    (hK : 3 * (g.row_ptr.getD (m + 1) 0 - g.row_ptr.getD m 0) + 1 ≤ K)
    (h : parallelMin (sched count) st g.num_nodes = (d, (m : Int))) :
    parLoop g sched (fun c => soloInterleaving (sched c).num_threads K) (k + 1) count st =
      parLoop g sched (fun c => soloInterleaving (sched c).num_threads K) k (count + 1)
        ((adjacency g m).foldl (relaxPair m) (markVisited st m)) := by
  rw [parLoop_step g sched _ k count st d m h]
  obtain ⟨nx, hrun⟩ := solo_relaxRun g m (sched count).num_threads K (markVisited st m)
    (hs count).1 hK
  rw [hrun, relax_adjRange]

/-- The rest of a parallel run from a state in which vertex `x` at distance `c` is
visited or is the only unvisited vertex below `INF`: the loop leaves
`distances[x] = c`, whatever the schedules and the interleavings are. -/
theorem pinned_par_run (g : CSRGraph) (x : Nat) (c : Int) (st : State)
    (hl : st.distances.length = g.num_nodes) (hv : st.visited.length = g.num_nodes)
    (hx : st.distances.getD x 0 = c)
    (hP : st.visited.getD x false = true ∨
      ∀ v, v < g.num_nodes → v ≠ x → st.visited.getD v false = false →
        INF ≤ st.distances.getD v 0)
    (sched : Nat → Schedule) (hs : ∀ i, (sched i).Valid) (inter : Nat → List Nat)
    (k count : Nat) :
    (parLoop g sched inter k count st).distances.getD x 0 = c :=
  (parLoop_keeps g sched hs inter _
    (fun st m T il hP hl hm => pinned_relaxed g x c st m _ hP hl hm
      (par_iteration_count g st m T il hl hm).1)
    k count st ⟨hl, hx, hP⟩ hv).2.1


theorem overflow_row (m : Nat) (hm : m < 1025) :
    3 * ((create_csr_graph 1025 overflowEdges).row_ptr.getD (m + 1) 0 -
      (create_csr_graph 1025 overflowEdges).row_ptr.getD m 0) + 1 ≤ 19 := by
  have := row_length_le 1025 overflowEdges overflowEdges_inRange m hm
  have hl : overflowEdges.length = 3 := rfl
  rw [hl] at this
  omega

theorem overflow_parLoop_first :
    parLoop (create_csr_graph 1025 overflowEdges) (fun _ => roundRobin 2)
        (fun _ => soloInterleaving 2 19) 1025 0 (initState 1025 0) =
      parLoop (create_csr_graph 1025 overflowEdges) (fun _ => roundRobin 2)
        (fun _ => soloInterleaving 2 19) 1024 1
        (relaxPair 0 (relaxPair 0 (markVisited (initState 1025 0) 0) (1, 5)) (1024, 5)) := by
  have e1 := parLoop_solo_iter (create_csr_graph 1025 overflowEdges) (fun _ => roundRobin 2)
    (fun _ => roundRobin_valid 2 (by omega)) 19 1024 0 (initState 1025 0) 0 0
    (overflow_row 0 (by omega)) overflow_parallelMin_first
  rw [overflow_adjacency.1] at e1
  simp only [List.foldl_cons, List.foldl_nil] at e1
  exact e1

/-- On `overflowEdges`, with two workers of which worker 1 enters the critical section
first, the parallel solver chooses vertex 1024 before vertex 1 and leaves
`distances[1024] = 5`. -/
theorem overflow_parallel :
    (dijkstra_parallel (create_csr_graph 1025 overflowEdges) (fun _ => roundRobin 2)
      (fun _ => soloInterleaving 2 19) 0).getD 1024 0 = 5 := by
  have t1 := (overflow_first_iteration _ (tracks_initState 1025 0)).1
  rw [dijkstra_parallel_eq, num_nodes_create, overflow_parLoop_first,
    parLoop_step (create_csr_graph 1025 overflowEdges) (fun _ => roundRobin 2) _ 1023 1 _ 5
      1024 (overflow_parallelMin_second _ t1)]
  generalize relaxPair 0 (relaxPair 0 (markVisited (initState 1025 0) 0) (1, 5)) (1024, 5)
    = st1 at t1
  have hv1 : (markVisited st1 1024).visited.getD 1024 false = true := by
    rw [visited_markVisited st1 1025 1024 t1.2.1 (by omega), if_pos rfl]
  obtain ⟨r1, r2, r4⟩ := relaxed_relaxRun (create_csr_graph 1025 overflowEdges) 1024
    (roundRobin 2).num_threads (soloInterleaving 2 19) (markVisited st1 1024) hv1
  refine pinned_par_run (create_csr_graph 1025 overflowEdges) 1024 5 _ ?_ ?_ ?_ (Or.inl ?_)
    (fun _ => roundRobin 2) (fun _ => roundRobin_valid 2 (by omega)) _ 1023 2
  · rw [r2]; exact t1.1
  · rw [r1]; simp only [markVisited, List.length_set]; exact t1.2.1
  · rcases r4 1024 with h | ⟨h, _⟩
    · rw [h]
      show st1.distances.getD 1024 0 = 5
      rw [(t1.2.2 1024 (by omega)).1]; simp
    · rw [hv1] at h; cases h
  · rw [r1]; exact hv1

theorem race_parallelMin_first :
    parallelMin (roundRobin 2) (initState 2 0) 2 = (0, ((0 : Nat) : Int)) := by decide

theorem race_parallelMin_second :
    parallelMin (roundRobin 2) ⟨[0, 5], [true, false]⟩ 2 = (5, ((1 : Nat) : Int)) := by
  decide

theorem length_raceEdges : raceEdges.length = 513 := by
  rw [raceEdges, List.length_append, List.length_replicate]
  rfl

theorem race_row (m : Nat) (hm : m < 2) :
    3 * ((create_csr_graph 2 raceEdges).row_ptr.getD (m + 1) 0 -
      (create_csr_graph 2 raceEdges).row_ptr.getD m 0) + 1 ≤ 3079 := by
  have := row_length_le 2 raceEdges inRange_raceEdges m hm
  rw [length_raceEdges] at this
  omega

/-- The first relaxation loop of the run on `raceEdges` under `raceInter`. -/
theorem race_first_loop :
    relaxRun (create_csr_graph 2 raceEdges) 0 (roundRobin 2).num_threads (raceInter 0)
        (markVisited (initState 2 0) 0) =
      ⟨⟨[0, 5], [true, false]⟩, 1024, [Pc.finished, Pc.finished]⟩ := by
  obtain ⟨g0, g1, gc, gw, gw5⟩ := race_graph
  have h0 : raceInter 0 = raceInterleaving := rfl
  have hT : (roundRobin 2).num_threads = 2 := rfl
  rw [h0, hT, race_start]
  exact race_run _ g0 g1 gc gw gw5

/-- The second relaxation loop of the run on `raceEdges` under `raceInter`: every entry
of vertex 1 names the visited vertex 0, and nothing is stored. -/
theorem race_second_loop :
    Finished (relaxRun (create_csr_graph 2 raceEdges) 1 (roundRobin 2).num_threads
      (raceInter 1) (markVisited ⟨[0, 5], [true, false]⟩ 1)) ∧
    (relaxRun (create_csr_graph 2 raceEdges) 1 (roundRobin 2).num_threads
      (raceInter 1) (markVisited ⟨[0, 5], [true, false]⟩ 1)).st.distances = [0, 5] := by
  have h1 : raceInter 1 = soloInterleaving 2 3079 := rfl
  have hT : (roundRobin 2).num_threads = 2 := rfl
  have hmv : markVisited ⟨[0, 5], [true, false]⟩ 1 = ⟨[0, 5], [true, true]⟩ := rfl
  rw [h1, hT, hmv]
  obtain ⟨nx, hrun⟩ := solo_relaxRun (create_csr_graph 2 raceEdges) 1 2 3079
    ⟨[0, 5], [true, true]⟩ (by omega) (race_row 1 (by omega))
  rw [hrun]
  refine ⟨finished_replicate _ _ _, ?_⟩
  obtain ⟨_, r2, _, r4, _⟩ := relax_fold (create_csr_graph 2 raceEdges) 1
    ⟨[0, 5], [true, true]⟩ rfl (adjRange (create_csr_graph 2 raceEdges) 1)
  apply distances_ext _ [0, 5] 2 r2 rfl
  intro v hv
  rcases r4 v with h | ⟨h, _⟩
  · exact h
  · exfalso
    interval_cases v <;> cases h

/-- The run of `dijkstra_parallel` on the graph of `raceEdges` with two workers under
`raceInter` is a whole execution and returns `[0, 5]`. -/
theorem race_parallel_output :
    Complete (create_csr_graph 2 raceEdges) (fun _ => roundRobin 2) raceInter 2 0
      (initState 2 0) ∧
    dijkstra_parallel (create_csr_graph 2 raceEdges) (fun _ => roundRobin 2) raceInter 0 =
      [0, 5] := by
  have hs1 := parLoop_step (create_csr_graph 2 raceEdges) (fun _ => roundRobin 2) raceInter
    1 0 (initState 2 0) 0 0 race_parallelMin_first
  have hc1 := complete_step (create_csr_graph 2 raceEdges) (fun _ => roundRobin 2) raceInter
    1 0 (initState 2 0) 0 0 race_parallelMin_first
  rw [race_first_loop] at hs1 hc1
  have hs2 := parLoop_step (create_csr_graph 2 raceEdges) (fun _ => roundRobin 2) raceInter
    0 1 ⟨[0, 5], [true, false]⟩ 5 1 race_parallelMin_second
  have hc2 := complete_step (create_csr_graph 2 raceEdges) (fun _ => roundRobin 2) raceInter
    0 1 ⟨[0, 5], [true, false]⟩ 5 1 race_parallelMin_second
  beta_reduce at hs2 hc2
  obtain ⟨f2, d2⟩ := race_second_loop
  constructor
  · rw [hc1]
    refine ⟨fun p hp => ?_, ?_⟩
    · simp only [List.mem_cons, List.mem_singleton, List.not_mem_nil, or_false] at hp
      rcases hp with h | h <;> exact h
    · rw [hc2, complete_zero]
      exact ⟨f2, trivial⟩
  · rw [dijkstra_parallel_eq, num_nodes_create, hs1, hs2, parLoop_zero]
    exact d2


theorem roundRobin_threads (T : Nat) : (roundRobin T).num_threads = T := rfl

theorem race_sequential :
    (dijkstra_sequential (create_csr_graph 2 raceEdges) 0).getD 1 0 = 3 := by
  have hr := inRange_raceEdges
  have hF := sequential_final (create_csr_graph 2 raceEdges)
    (graphOK_create 2 raceEdges hr race_weights) 0 (by decide)
  obtain ⟨e1, e2⟩ := final_edges 2 raceEdges hr 0 _ hF
  have h0 : (dijkstra_sequential (create_csr_graph 2 raceEdges) 0).getD 0 0 = 0 :=
    hF.2.2.1
  have hle := e1 0 1 3 race_joins_three
  rw [h0] at hle
  obtain ⟨u, w, hJ, hw⟩ := e2 1 (by omega) (by omega) (by
    have : (3 : Int) < INF := by decide
    omega)
  obtain ⟨hu, hw'⟩ := race_joins u w hJ
  subst hu
  rw [h0] at hw
  rcases hw' with h | h <;> omega

/-- A distance array that solves the capped shortest path equations of the built graph
satisfies the triangle inequality on every line. -/
theorem triangle_of_final (n : Nat) (edges : List Edge) (hr : InRange n edges) (source : Nat)
    (dist : List Int) (hF : Final (create_csr_graph n edges) source dist) (e : Edge)
    (he : e ∈ edges) : TriangleOn dist e := by
  have ht := (final_edges n edges hr source dist hF).1
  refine ⟨_, _, getElem?_of_length _ n _ 0 hF.1 (hr e he).1,
    getElem?_of_length _ n _ 0 hF.1 (hr e he).2, ?_, ?_⟩
  · exact ht e.src e.dest e.weight ⟨e, he, rfl, Or.inl ⟨rfl, rfl⟩⟩
  · exact ht e.dest e.src e.weight ⟨e, he, rfl, Or.inr ⟨rfl, rfl⟩⟩

/-- On an edge list with in-range endpoints and weights from 1 to `MAXW` whose graph is
`RaceFree`, every whole execution of `dijkstra_parallel` returns a solution of the capped
shortest path equations. -/
theorem parallel_final (n : Nat) (edges : List Edge) (hr : InRange n edges)
    (hw : ∀ e ∈ edges, 1 ≤ e.weight ∧ e.weight ≤ MAXW)
    (hf : RaceFree (create_csr_graph n edges))
    (s : Nat) (hs : s < n) (sched : Nat → Schedule) (hsch : ∀ c, (sched c).Valid)
    (inter : Nat → List Nat)
    (hc : Complete (create_csr_graph n edges) sched inter n 0 (initState n s)) :
    Final (create_csr_graph n edges) s
      (dijkstra_parallel (create_csr_graph n edges) sched inter s) := by
  have hg := graphOK_create n edges hr hw
  obtain ⟨a, b⟩ := parLoop_complete (create_csr_graph n edges) sched hsch inter
    (Inv (create_csr_graph n edges) s)
    (fun st m count hP hl hm hf' => by
      have hv1 : (markVisited st m).visited.getD m false = true := by
        simp only [markVisited]
        rw [getD_set_eq _ _ _ _ (by rw [hl]; exact hm.1)]
      rw [relaxRun_raceFree (create_csr_graph n edges) m _ _ (markVisited st m)
        (hsch count).1 hv1
        (sameChunk_of_raceFree _ hf m (by rw [num_nodes_create]; exact hm.1)
          (markVisited st m) hv1) hf']
      exact inv_step _ hg s st m _ hP hm (List.Perm.refl _))
    n 0 (initState n s) (inv_initState _ s hs) (by simp [initState, num_nodes_create])
    (count_false_initState _ _) hc
  exact final_of_inv _ hg s _ a b

/-- On a `RaceFree` graph built from in-range lines with weights from 1 to `MAXW`, a
whole execution of `dijkstra_parallel` returns the array of `dijkstra_sequential`. -/
theorem parallel_eq_of_complete (n : Nat) (edges : List Edge) (hr : InRange n edges)
    (hw : ∀ e ∈ edges, 1 ≤ e.weight ∧ e.weight ≤ MAXW)
    (hf : RaceFree (create_csr_graph n edges))
    (source : Nat) (hs : source < n) (sched : Nat → Schedule)
    (hsch : ∀ c, (sched c).Valid) (inter : Nat → List Nat)
    (hc : Complete (create_csr_graph n edges) sched inter n 0 (initState n source)) :
    dijkstra_parallel (create_csr_graph n edges) sched inter source =
      dijkstra_sequential (create_csr_graph n edges) source :=
  final_unique _ (graphOK_create n edges hr hw) source _ _
    (parallel_final n edges hr hw hf source hs sched hsch inter hc)
    (sequential_final _ (graphOK_create n edges hr hw) source hs)

/-- C1, as stated, fails on valid inputs in two ways.  On `overflowEdges` (in-range
endpoints, positive weights, no line repeated) two workers, worker 1 first in the
critical section, choose vertex 1024 before vertex 1, and the solvers disagree on
`distances[1024]`, where the sum `5 + 2147483647` has wrapped.  On `raceEdges` (513 lines
between vertices 0 and 1, of weights 3 and 5) worker 1 stores the candidate 5 after
worker 0 has stored 3: `dijkstra_parallel` returns `[0, 5]` and `dijkstra_sequential`
leaves 3.  Both runs are whole executions under valid schedules. -/
theorem valid_inputs_break_equivalence :
    (InRange 1025 overflowEdges ∧ (∀ e ∈ overflowEdges, 0 < e.weight) ∧
      DistinctPairs overflowEdges ∧ (roundRobin 2).Valid ∧
      Complete (create_csr_graph 1025 overflowEdges) (fun _ => roundRobin 2)
        (fun _ => soloInterleaving 2 19) 1025 0 (initState 1025 0) ∧
      (dijkstra_sequential (create_csr_graph 1025 overflowEdges) 0).getD 1024 0 =
        -2147483644 ∧
      (dijkstra_parallel (create_csr_graph 1025 overflowEdges) (fun _ => roundRobin 2)
        (fun _ => soloInterleaving 2 19) 0).getD 1024 0 = 5 ∧
      dijkstra_parallel (create_csr_graph 1025 overflowEdges) (fun _ => roundRobin 2)
          (fun _ => soloInterleaving 2 19) 0 ≠
        dijkstra_sequential (create_csr_graph 1025 overflowEdges) 0) ∧
    (InRange 2 raceEdges ∧ (∀ e ∈ raceEdges, 1 ≤ e.weight ∧ e.weight ≤ MAXW) ∧
      Complete (create_csr_graph 2 raceEdges) (fun _ => roundRobin 2) raceInter 2 0
        (initState 2 0) ∧
      dijkstra_parallel (create_csr_graph 2 raceEdges) (fun _ => roundRobin 2) raceInter 0 =
        [0, 5] ∧
      (dijkstra_sequential (create_csr_graph 2 raceEdges) 0).getD 1 0 = 3 ∧
      dijkstra_parallel (create_csr_graph 2 raceEdges) (fun _ => roundRobin 2) raceInter 0 ≠
        dijkstra_sequential (create_csr_graph 2 raceEdges) 0) := by
  constructor
  · refine ⟨overflowEdges_inRange, by decide, by decide, roundRobin_valid 2 (by omega), ?_,
      overflow_sequential, overflow_parallel, ?_⟩
    · have hK : ∀ m, m < (create_csr_graph 1025 overflowEdges).num_nodes →
          3 * ((create_csr_graph 1025 overflowEdges).row_ptr.getD (m + 1) 0 -
            (create_csr_graph 1025 overflowEdges).row_ptr.getD m 0) + 1 ≤ 19 := by
        intro m hm
        rw [num_nodes_create] at hm
        exact overflow_row m hm
      have h := complete_solo (create_csr_graph 1025 overflowEdges) (fun _ => roundRobin 2)
        (fun _ => roundRobin_valid 2 (by omega)) 19 hK 1025 0 (initState 1025 0)
      simp only [roundRobin_threads] at h
      exact h
    · intro h
      have a := overflow_sequential
      rw [← h, overflow_parallel] at a
      omega
  · obtain ⟨hc, ho⟩ := race_parallel_output
    refine ⟨inRange_raceEdges, race_weights, hc, ho, race_sequential, ?_⟩
    intro h
    have a := race_sequential
    rw [← h, ho] at a
    exact absurd a (by decide)

theorem doubledLine_raceFree : RaceFree (create_csr_graph 3 doubledLine) := by
  apply raceFree_of_short_rows
  intro m hm
  rw [num_nodes_create] at hm
  have := row_length_le 3 doubledLine (by decide) m hm
  have h3 : doubledLine.length = 3 := rfl
  omega

/-- C1, amended: for every edge list with in-range endpoints and weights from 1 to
`2^31 - 1 - 10^9`, every source in range and every valid schedule of the minimum search
of every outer iteration: when the graph is `RaceFree` (no vertex has two adjacency
entries naming the same other vertex in different chunks of 512 entries of its adjacency
range), `dijkstra_parallel` returns the distance array of `dijkstra_sequential` under
every interleaving of the workers' steps that runs each relaxation loop to its end, the
comparison and the store of an entry being separate steps; such interleavings exist; and
the graph is `RaceFree` when no two lines join the same unordered pair of vertices, and
when no vertex has more than 512 adjacency entries. -/
theorem parallel_eq_sequential (n : Nat) (edges : List Edge) (hr : InRange n edges)
    (hw : ∀ e ∈ edges, 1 ≤ e.weight ∧ e.weight ≤ MAXW)
    (source : Nat) (hs : source < n) (sched : Nat → Schedule)
    (hsch : ∀ c, (sched c).Valid) :
    (RaceFree (create_csr_graph n edges) → ∀ inter : Nat → List Nat,
      Complete (create_csr_graph n edges) sched inter n 0 (initState n source) →
      dijkstra_parallel (create_csr_graph n edges) sched inter source =
        dijkstra_sequential (create_csr_graph n edges) source) ∧
    Complete (create_csr_graph n edges) sched
      (fun c => soloInterleaving (sched c).num_threads (6 * edges.length + 1)) n 0
      (initState n source) ∧
    (DistinctPairs edges → RaceFree (create_csr_graph n edges)) ∧
    ((∀ m, m < n → (create_csr_graph n edges).row_ptr.getD (m + 1) 0 -
        (create_csr_graph n edges).row_ptr.getD m 0 ≤ 512) →
      RaceFree (create_csr_graph n edges)) := by
  refine ⟨?_, ?_, fun hd => raceFree_of_distinctPairs n edges hr hd,
    fun h => raceFree_of_short_rows _ h⟩
  · intro hf inter hc
    exact parallel_eq_of_complete n edges hr hw hf source hs sched hsch inter hc
  · apply complete_solo _ sched hsch
    intro m hm
    have := row_length_le n edges hr m hm
    omega

/-- C1, amended, on three lines of which two join vertices 0 and 1, iteration `c`
running `c + 2` workers. -/
theorem parallel_eq_sequential_witness :
    InRange 3 doubledLine ∧ (∀ e ∈ doubledLine, 1 ≤ e.weight ∧ e.weight ≤ MAXW) ∧
    ¬ DistinctPairs doubledLine ∧ RaceFree (create_csr_graph 3 doubledLine) ∧
    dijkstra_parallel (create_csr_graph 3 doubledLine) (fun c => roundRobin (c + 2))
        (fun c => soloInterleaving (c + 2) 19) 0 =
      dijkstra_sequential (create_csr_graph 3 doubledLine) 0 :=
  ⟨by decide, by decide, by decide, doubledLine_raceFree,
    (parallel_eq_sequential 3 doubledLine (by decide) (by decide) 0
      (by decide) (fun c => roundRobin (c + 2))
      (fun c => roundRobin_valid (c + 2) (by omega))).1 doubledLine_raceFree _
    (parallel_eq_sequential 3 doubledLine (by decide) (by decide) 0
      (by decide) (fun c => roundRobin (c + 2))
      (fun c => roundRobin_valid (c + 2) (by omega))).2.1⟩

/-- C3: the output of `dijkstra_sequential` satisfies the triangle inequality on every
input line, for every edge list with in-range endpoints and weights from 1 to
`2^31 - 1 - 10^9` (no addition overflows), and so does the output of every whole execution
of `dijkstra_parallel` on a graph that is `RaceFree`.  On `raceEdges`,
which has 513 lines between vertices 0 and 1, the whole execution `raceInter` of two
workers returns `[0, 5]`, and `distances[1] <= distances[0] + 3` fails on the input line
`(0, 1, 3)`, while the output of `dijkstra_sequential` satisfies it. -/
theorem race_breaks_triangle_inequality :
    (∀ (n : Nat) (edges : List Edge), InRange n edges →
      (∀ e ∈ edges, 1 ≤ e.weight ∧ e.weight ≤ MAXW) → ∀ source, source < n →
      ∀ e ∈ edges,
        TriangleOn (dijkstra_sequential (create_csr_graph n edges) source) e ∧
        (RaceFree (create_csr_graph n edges) → ∀ sched : Nat → Schedule,
          (∀ c, (sched c).Valid) →
          ∀ inter : Nat → List Nat,
          Complete (create_csr_graph n edges) sched inter n 0 (initState n source) →
          TriangleOn (dijkstra_parallel (create_csr_graph n edges) sched inter source) e)) ∧
    (InRange 2 raceEdges ∧ (∀ e ∈ raceEdges, 1 ≤ e.weight ∧ e.weight ≤ MAXW) ∧
      (⟨0, 1, 3⟩ : Edge) ∈ raceEdges ∧ (roundRobin 2).Valid ∧
      Complete (create_csr_graph 2 raceEdges) (fun _ => roundRobin 2) raceInter 2 0
        (initState 2 0) ∧
      dijkstra_parallel (create_csr_graph 2 raceEdges) (fun _ => roundRobin 2) raceInter 0 =
        [0, 5] ∧
      ¬ TriangleOn (dijkstra_parallel (create_csr_graph 2 raceEdges) (fun _ => roundRobin 2)
        raceInter 0) ⟨0, 1, 3⟩ ∧
      TriangleOn (dijkstra_sequential (create_csr_graph 2 raceEdges) 0) ⟨0, 1, 3⟩) := by
  have hmem : (⟨0, 1, 3⟩ : Edge) ∈ raceEdges := by
    rw [raceEdges, List.mem_append, List.mem_replicate]
    exact Or.inl ⟨by decide, rfl⟩
  constructor
  · intro n edges hr hw source hs e he
    have hg := graphOK_create n edges hr hw
    refine ⟨triangle_of_final n edges hr source _ (sequential_final _ hg source hs) e he, ?_⟩
    intro hd sched hsch inter hc
    exact triangle_of_final n edges hr source _
      (parallel_final n edges hr hw hd source hs sched hsch inter hc) e he
  · obtain ⟨hc, ho⟩ := race_parallel_output
    refine ⟨inRange_raceEdges, race_weights, hmem, roundRobin_valid 2 (by omega), hc, ho, ?_,
      ?_⟩
    · rw [ho]
      rintro ⟨du, dv, h1, h2, h3, _⟩
      simp only [List.getElem?_cons_zero, List.getElem?_cons_succ, Option.some.injEq]
        at h1 h2
      dsimp only at h3
      omega
    · exact triangle_of_final 2 raceEdges inRange_raceEdges 0 _
        (sequential_final _ (graphOK_create 2 raceEdges inRange_raceEdges race_weights) 0
          (by decide)) _ hmem


/-- C4: for an edge list with in-range endpoints (whatever the weights), a source and
every valid schedule of the minimum searches, a vertex with no path to the source ends at
`distances[v] = 1000000000` in the output of `dijkstra_sequential` and in the output of
`dijkstra_parallel` under every interleaving of the workers' steps in the relaxation
loops, the comparison and the store of an entry being separate steps; and from a state in
which no unvisited vertex has a distance below `INF` the outer loop of either solver
returns the state unchanged. -/
theorem unreachable_stays_INF (n : Nat) (edges : List Edge) (hr : InRange n edges)
    (source : Nat) (sched : Nat → Schedule) (hsch : ∀ c, (sched c).Valid) :
    (∀ v, v < n → ¬ Reachable edges source v →
      (dijkstra_sequential (create_csr_graph n edges) source)[v]? = some 1000000000 ∧
      ∀ inter : Nat → List Nat,
        (dijkstra_parallel (create_csr_graph n edges) sched inter source)[v]? =
          some 1000000000) ∧
    (∀ k st, Exhausted st n → seqLoop (create_csr_graph n edges) k st = st) ∧
    (∀ (inter : Nat → List Nat) k count st, Exhausted st n →
      parLoop (create_csr_graph n edges) sched inter k count st = st) := by
  refine ⟨?_, fun k st h => seqLoop_exhausted _ k st h,
    fun inter k c st h => parLoop_exhausted _ sched hsch inter k c st h⟩
  intro v hv hnr
  obtain ⟨⟨a1, a2⟩, _⟩ := seqLoop_rule (create_csr_graph n edges)
    (fun st => st.distances.length = n ∧
      ∀ v, v < n → st.distances.getD v 0 ≠ INF → Reachable edges source v)
    (fun st m js hP hl hm hjs => reach_step n edges hr source st m js hP hl hm hjs)
    n (initState n source) (reach_initState n edges source)
    (show (initState n source).visited.length = n by simp [initState])
    (count_false_initState _ _)
  constructor
  · have h : (seqLoop (create_csr_graph n edges) n (initState n source)).distances.getD v 0
        = INF := by
      by_contra hc; exact hnr (a2 v hv hc)
    show (seqLoop (create_csr_graph n edges) n (initState n source)).distances[v]? = _
    rw [getElem?_of_length _ n v 0 a1 hv, h]; rfl
  · intro inter
    obtain ⟨⟨b1, b2⟩, _⟩ := parLoop_rule (create_csr_graph n edges) sched hsch inter
      (fun st => st.distances.length = n ∧
        ∀ v, v < n → st.distances.getD v 0 ≠ INF → Reachable edges source v)
      (fun st m T il hP hl hm => reach_relaxed n edges hr source st m _ hP hm
        (par_iteration_count (create_csr_graph n edges) st m T il hl hm).1)
      n 0 (initState n source) (reach_initState n edges source)
      (show (initState n source).visited.length = n by simp [initState])
      (count_false_initState _ _)
    have h : (parLoop (create_csr_graph n edges) sched inter n 0
        (initState n source)).distances.getD v 0 = INF := by
      by_contra hc; exact hnr (b2 v hv hc)
    show (parLoop (create_csr_graph n edges) sched inter n 0
      (initState n source)).distances[v]? = _
    rw [getElem?_of_length _ n v 0 b1 hv, h]; rfl

theorem raceFree_one_line : RaceFree (create_csr_graph 3 [⟨0, 1, 5⟩]) :=
  raceFree_of_distinctPairs 3 [⟨0, 1, 5⟩] (by decide) (by decide)

/-- C4 on the disconnected scenario: 3 vertices, one line `(0, 1, 5)`, source 0.  Both
solvers return `[0, 5, 1000000000]`, `dijkstra_parallel` with two workers of which worker
0 runs the relaxation loops; vertex 2 has no path to the source and stays at the
sentinel under every interleaving. -/
theorem unreachable_stays_INF_witness :
    dijkstra_sequential (create_csr_graph 3 [⟨0, 1, 5⟩]) 0 = [0, 5, 1000000000] ∧
    dijkstra_parallel (create_csr_graph 3 [⟨0, 1, 5⟩]) (fun _ => roundRobin 2)
      (fun _ => soloInterleaving 2 7) 0 = [0, 5, 1000000000] ∧
    (dijkstra_sequential (create_csr_graph 3 [⟨0, 1, 5⟩]) 0)[2]? = some 1000000000 ∧
    ∀ inter : Nat → List Nat,
      (dijkstra_parallel (create_csr_graph 3 [⟨0, 1, 5⟩]) (fun _ => roundRobin 2) inter
        0)[2]? = some 1000000000 :=
  ⟨by decide,
    (parallel_eq_of_complete 3 [⟨0, 1, 5⟩] (by decide) (by decide) raceFree_one_line 0
      (by decide) (fun _ => roundRobin 2) (fun _ => roundRobin_valid 2 (by omega)) _
      (complete_solo (create_csr_graph 3 [⟨0, 1, 5⟩]) (fun _ => roundRobin 2)
        (fun _ => roundRobin_valid 2 (by omega)) 7
        (fun m hm => by
          have := row_length_le 3 [⟨0, 1, 5⟩] (by decide) m hm
          simp only [List.length_singleton] at this
          omega) 3 0 (initState 3 0))).trans (by decide),
    (unreachable_stays_INF 3 [⟨0, 1, 5⟩] (by decide) 0 (fun _ => roundRobin 2)
      (fun _ => roundRobin_valid 2 (by omega))).1 2 (by decide)
      (fun ⟨vs, d, h⟩ => by
        have := walk_scenario_disconnected 2 vs d h
        omega)⟩

/-- C5: for every graph with at least one vertex (whatever its entries and weights), a
source in range and every valid schedule of the minimum searches, the output of
`dijkstra_sequential` has `distances[source] = 0`, and so has the output of
`dijkstra_parallel` under every interleaving of the workers' steps in the relaxation
loops, the comparison and the store of an entry being separate steps. -/
theorem source_distance_zero (g : CSRGraph) (source : Nat) (hs : source < g.num_nodes)
    (sched : Nat → Schedule) (hsch : ∀ c, (sched c).Valid) :
    (dijkstra_sequential g source)[source]? = some 0 ∧
    ∀ inter : Nat → List Nat, (dijkstra_parallel g sched inter source)[source]? = some 0 := by
  have hinit : (initState g.num_nodes source).distances.length = g.num_nodes ∧
      (initState g.num_nodes source).distances.getD source 0 = 0 ∧
      ((initState g.num_nodes source).visited.getD source false = true ∨
        ∀ v, v < g.num_nodes → v ≠ source →
          (initState g.num_nodes source).visited.getD v false = false →
          INF ≤ (initState g.num_nodes source).distances.getD v 0) := by
    refine ⟨by simp [initState], ?_, Or.inr ?_⟩
    · rw [getD_initState _ _ source hs, if_pos rfl]
    · intro v hv hne _
      rw [getD_initState _ _ v hv, if_neg hne]
  obtain ⟨⟨a1, a2, _⟩, _⟩ := seqLoop_rule g _
    (fun st m js hP hl hm _ => pinned_step g source 0 st m js hP hl hm)
    g.num_nodes (initState g.num_nodes source) hinit (by simp [initState])
    (count_false_initState _ _)
  constructor
  · show (seqLoop g g.num_nodes (initState g.num_nodes source)).distances[source]? = _
    rw [getElem?_of_length _ g.num_nodes source 0 a1 hs]
    exact congrArg some a2
  · intro inter
    obtain ⟨⟨b1, b2, _⟩, _⟩ := parLoop_rule g sched hsch inter _
      (fun st m T il hP hl hm => pinned_relaxed g source 0 st m _ hP hl hm
        (par_iteration_count g st m T il hl hm).1)
      g.num_nodes 0 (initState g.num_nodes source) hinit (by simp [initState])
      (count_false_initState _ _)
    show (parLoop g sched inter g.num_nodes 0
      (initState g.num_nodes source)).distances[source]? = _
    rw [getElem?_of_length _ g.num_nodes source 0 b1 hs]
    exact congrArg some b2

/-- C5 on the graph with one vertex and no line, four workers. -/
theorem source_distance_zero_witness :
    dijkstra_sequential (create_csr_graph 1 []) 0 = [0] ∧
    (dijkstra_sequential (create_csr_graph 1 []) 0)[0]? = some 0 ∧
    ∀ inter : Nat → List Nat,
      (dijkstra_parallel (create_csr_graph 1 []) (fun _ => roundRobin 4) inter 0)[0]? =
        some 0 :=
  ⟨by decide, source_distance_zero (create_csr_graph 1 []) 0 (by decide)
    (fun _ => roundRobin 4) (fun _ => roundRobin_valid 4 (by omega))⟩

end Cmp

